import Mathlib

/-!
# daimon: path resolution, file store and listing

A shallow embedding of `pkg/fileio.go`, `pkg/common.go` and the command
dispatch of `pkg/cli.go`.

Go strings are modelled as lists of characters (`Str`).  The only bytes the
program inspects are ASCII (`/`, `.`, the word characters and the suffix
`.md`), so a list of Unicode scalars behaves like the UTF-8 byte string it
encodes.  A Go `panic` and a Go `error` are both carried by `Except Failure`;
the constructor says which one it is.
-/

set_option autoImplicit false

namespace Daimon

/-- Go strings. -/
abbrev Str := List Char

/-- What a call can end with instead of a value. -/
inductive Failure where
  /-- The `panic("Path starts with an invalid character. ...")` of `fileio.go`. -/
  | invalidName
  /-- The error `ENOENT` of the operating system. -/
  | notExist
  /-- The error `ENOTDIR` of the operating system. -/
  | notDir
  /-- The error `EISDIR` of the operating system. -/
  | isDir
  /-- The error `ENOTEMPTY` of the operating system. -/
  | notEmpty
  /-- The error `EEXIST` of the operating system. -/
  | exist
  /-- The error `EINVAL` of the operating system. -/
  | invalid
  /-- The error `EBUSY` of the operating system. -/
  | busy
  /-- An error made by `errors.New`, with its text. -/
  | text (msg : String)
  /-- An error made by `fmt.Errorf("<pfx>: %s", cause)`. -/
  | wrapped (pfx : String) (cause : Failure)
  /-- The process ended through `os.Exit(status)`. -/
  | exit (status : Nat)
  /-- Not an outcome of the Go program: the recursion budget of a listing
  worker of this model ran out. -/
  | outOfFuel
  deriving DecidableEq, Repr

/-- The failures that are Go `error` values, which a caller can inspect and
drop; a panic and a process exit are not. -/
def Failure.isError : Failure → Bool
  | .invalidName => false
  | .exit _ => false
  | .outOfFuel => false
  | _ => true

/-! ## Go standard library: `strings`, `path`, `path/filepath` -/

/-- Go `strings.HasSuffix`: `len(s) >= len(suffix) && s[len(s)-len(suffix):] == suffix`. -/
def strings_HasSuffix (s suffix : Str) : Bool :=
  decide (s.length ≥ suffix.length) && decide (s.drop (s.length - suffix.length) = suffix)

/-- Go `strings.TrimSuffix`: `s` without the trailing `suffix`, or `s` itself. -/
def strings_TrimSuffix (s suffix : Str) : Str :=
  if strings_HasSuffix s suffix then s.take (s.length - suffix.length) else s

/-- The elements of a path: the pieces between its `/` characters. -/
def splitSlash : Str → List Str
  | [] => [[]]
  | c :: cs =>
    if c = '/' then [] :: splitSlash cs
    else
      match splitSlash cs with
      | [] => [[c]]
      | s :: ss => (c :: s) :: ss

/-- Elements put together again with `/` between them. -/
def joinSlash : List Str → Str
  | [] => []
  | [s] => s
  | s :: t :: ss => s ++ '/' :: joinSlash (t :: ss)

/-- The path element `..`. -/
def dotdot : Str := ['.', '.']

/-- One round of the loop of Go `path.Clean`, on a whole path element.  `stk` is
the output written so far, last element first.  An empty element and `.` are
dropped; `..` removes the last element when there is one to remove
(`out.w > dotdot`), is kept when the path is not rooted, and is dropped
otherwise; any other element is appended. -/
def cleanStep (rooted : Bool) (stk : List Str) (seg : Str) : List Str :=
  if seg = [] ∨ seg = ['.'] then stk
  else if seg = dotdot then
    match stk with
    | top :: rest => if top = dotdot then (if rooted then stk else dotdot :: stk) else rest
    | [] => if rooted then [] else [dotdot]
  else seg :: stk

/-- The elements `path.Clean` keeps, first element first. -/
def cleanSegs (rooted : Bool) (segs : List Str) : List Str :=
  (segs.foldl (cleanStep rooted) []).reverse

/-- Go `path.Clean` (and `filepath.Clean` on Unix): the shortest path name
equivalent to `p` by purely lexical processing, computed element by element.
The theorem `path_Clean_lazybuf_eq` shows that the byte loop of the Go source
returns the same. -/
def path_Clean (p : Str) : Str :=
  if p = [] then ['.']
  else
    let rooted := decide (p.head? = some '/')
    let out := cleanSegs rooted (splitSlash p)
    if rooted then '/' :: joinSlash out
    else if out = [] then ['.'] else joinSlash out

/-! The loop of Go `path.Clean` byte by byte.  The write buffer `lazybuf` is
the list of the bytes written, the last one first, so that `out.w` is its
length; `path_Clean_lazybuf` is proved equal to `path_Clean` below. -/

/-- The loop `for out.w > dotdot && out.index(out.w) != '/' { out.w-- }`;
`popped` is the byte at index `out.w`, the one taken off last. -/
def lazybufBack (dotdot : Nat) : Char → List Char → List Char
  | _, [] => []
  | popped, c :: out =>
    if (c :: out).length > dotdot ∧ popped ≠ '/' then lazybufBack dotdot c out else c :: out

/-- The case of a `..` element in the loop of Go `path.Clean`: the buffer and
the index `dotdot` that it leaves. -/
def cleanDotDot (rooted : Bool) (out : List Char) (dotdot : Nat) : List Char × Nat :=
  if out.length > dotdot then
    match out with
    | c :: out1 => (lazybufBack dotdot c out1, dotdot)
    | [] => ([], dotdot)
  else if rooted = false then
    let out1 := if out.length > 0 then '/' :: out else out
    ('.' :: '.' :: out1, out1.length + 2)
  else (out, dotdot)

/-- The loop `for r < n` of Go `path.Clean` on the bytes `path[r:]` that are
left, one round for each unit of `fuel`. -/
def cleanLoop (rooted : Bool) : Nat → List Char → List Char → Nat → List Char
  | 0, _, out, _ => out
  | _ + 1, [], out, _ => out
  | fuel + 1, c :: rest, out, dotdot =>
    if c = '/' then cleanLoop rooted fuel rest out dotdot
    else if c = '.' ∧ (rest = [] ∨ rest.head? = some '/') then
      cleanLoop rooted fuel rest out dotdot
    else if c = '.' ∧ rest.head? = some '.' ∧ (rest.tail = [] ∨ rest.tail.head? = some '/') then
      cleanLoop rooted fuel rest.tail (cleanDotDot rooted out dotdot).1
        (cleanDotDot rooted out dotdot).2
    else
      let out1 :=
        if (rooted = true ∧ out.length ≠ 1) ∨ (rooted = false ∧ out.length ≠ 0) then '/' :: out
        else out
      cleanLoop rooted fuel (rest.dropWhile (fun x => decide (x ≠ '/')))
        ((rest.takeWhile (fun x => decide (x ≠ '/'))).reverse ++ c :: out1) dotdot

/-- Go `path.Clean` as its source runs, byte by byte. -/
def path_Clean_lazybuf (p : Str) : Str :=
  if p = [] then ['.']
  else
    let rooted := decide (p.head? = some '/')
    let out :=
      if rooted then cleanLoop true (p.length + 1) p.tail ['/'] 1
      else cleanLoop false (p.length + 1) p [] 0
    if out = [] then ['.'] else out.reverse

/-- The index of the last `/` of a path, Go `lastSlash` (`none` for `-1`). -/
def lastSlash : Str → Option Nat
  | [] => none
  | c :: cs =>
    match lastSlash cs with
    | some i => some (i + 1)
    | none => if c = '/' then some 0 else none

/-- Go `path.Split`: `path[:i+1], path[i+1:]` for `i` the last slash. -/
def path_Split (p : Str) : Str × Str :=
  match lastSlash p with
  | some i => (p.take (i + 1), p.drop (i + 1))
  | none => ([], p)

/-- Go `path.Dir`: all but the last element, cleaned. -/
def path_Dir (p : Str) : Str :=
  path_Clean (path_Split p).1

/-- The loop `for len(path) > 0 && path[len(path)-1] == '/'` of Go `path.Base`. -/
def stripTrailingSlashes (p : Str) : Str :=
  (p.reverse.dropWhile (fun c => decide (c = '/'))).reverse

/-- Go `path.Base`: the last element of a path. -/
def path_Base (p : Str) : Str :=
  if p = [] then ['.']
  else
    let q := stripTrailingSlashes p
    let r := (path_Split q).2
    if r = [] then ['/'] else r

/-- Go `filepath.Join` called with one element: empty stays empty, anything
else is cleaned. -/
def filepath_Join1 (e : Str) : Str :=
  if e = [] then [] else path_Clean e

/-! ## `fileio.go` -/

/-- The word characters of the regular expression syntax of Go: `[0-9A-Za-z_]`. -/
def isWordChar (c : Char) : Bool :=
  (decide ('0' ≤ c) && decide (c ≤ '9')) || (decide ('A' ≤ c) && decide (c ≤ 'Z'))
    || (decide ('a' ≤ c) && decide (c ≤ 'z')) || decide (c = '_')

/-- The source's `hasIllegalPath`: the pattern `^\W` matches `p`. -/
def hasIllegalPath (p : Str) : Bool :=
  match p with
  | [] => false
  | c :: _ => !isWordChar c

/-- The source's `FM`. -/
structure FM where
  pathBase : Str
  mode : Nat
  deriving DecidableEq, Repr

/-- The source's `NewFM`. -/
def NewFM (base : Str) : FM :=
  { pathBase := base, mode := 0o750 }

/-- The source's `FM.GetFullPath`. -/
def GetFullPath (fm : FM) (p : Str) : Except Failure Str :=
  if p ≠ ['.'] ∧ hasIllegalPath p = true then
    .error .invalidName
  else
    .ok (filepath_Join1 (fm.pathBase ++ path_Clean p))

/-- The source's `FM.GetFullNotePath`. -/
def GetFullNotePath (fm : FM) (p : Str) : Except Failure Str :=
  if hasIllegalPath (path_Base p) = true then
    .error .invalidName
  else
    (GetFullPath fm p).map (· ++ ".md".toList)

/-! ## The file system

The file system is a tree from `/`.  A value of `Entries` is the content of one
directory, in the order in which `ioutil.ReadDir` returns it (Go sorts the
entries by name; nothing here relies on what the order is, and an entry that is
created is put last, so a listing after a creation is stated up to its
order).  Permissions, symbolic links and disk-full conditions are not
modelled, and the working directory of the process is `/`. -/

/-- The entries of a directory: nothing, or a file or a directory followed by
the remaining entries. -/
inductive Entries where
  | nil : Entries
  | file (name : Str) (content : Str) (rest : Entries) : Entries
  | dir (name : Str) (children : Entries) (rest : Entries) : Entries
  deriving DecidableEq, Repr

/-- What a path leads to. -/
inductive Node where
  | file (content : Str) : Node
  | dir (children : Entries) : Node
  deriving DecidableEq, Repr

/-- What `ioutil.ReadDir` tells about one entry: `Name()` and `Mode().IsDir()`. -/
structure FileInfo where
  name : Str
  isDir : Bool
  deriving DecidableEq, Repr

/-- The entries of a directory as `ioutil.ReadDir` lists them. -/
def Entries.infos : Entries → List FileInfo
  | .nil => []
  | .file n _ r => { name := n, isDir := false } :: r.infos
  | .dir n _ r => { name := n, isDir := true } :: r.infos

/-- The longest chain of nested directories. -/
def Entries.height : Entries → Nat
  | .nil => 0
  | .file _ _ r => r.height
  | .dir _ c r => max (c.height + 1) r.height

/-- Follow path elements down from a directory. -/
def walk : Entries → List Str → Except Failure Node
  | t, [] => .ok (.dir t)
  | .nil, _ :: _ => .error .notExist
  | .file n c r, s :: ss =>
    if n = s then (if ss = [] then .ok (.file c) else .error .notDir) else walk r (s :: ss)
  | .dir n c r, s :: ss =>
    if n = s then walk c ss else walk r (s :: ss)

/-- The elements by which the operating system resolves a path name from `/`:
empty elements and `.` are skipped and `..` steps back (at `/` it stays).  The
path names that the program hands to the operating system come out of
`filepath.Join` on a root followed by a cleaned path: they are never empty and
have `..` only in front, so that stepping back lexically is what the operating
system does with them. -/
def osPath (p : Str) : List Str :=
  cleanSegs true (splitSlash p)

/-- Nested new directories, one for each element. -/
def mkChain : List Str → Entries
  | [] => .nil
  | s :: ss => .dir s (mkChain ss) .nil

/-- Make the directory at `segs` and every missing ancestor; an existing
directory is left alone, a file on the way is an error. -/
def mkdirAllAt : Entries → List Str → Except Failure Entries
  | t, [] => .ok t
  | .nil, s :: ss => .ok (.dir s (mkChain ss) .nil)
  | .file n c r, s :: ss =>
    if n = s then .error .notDir else (mkdirAllAt r (s :: ss)).map (fun r' => .file n c r')
  | .dir n c r, s :: ss =>
    if n = s then (mkdirAllAt c ss).map (fun c' => .dir n c' r)
    else (mkdirAllAt r (s :: ss)).map (fun r' => .dir n c r')

/-- Append `data` to the file at `segs`; when `create` is set a missing file
is made first (in an existing directory). -/
def appendAt (data : Str) (create : Bool) : Entries → List Str → Except Failure Entries
  | _, [] => .error .isDir
  | .nil, [s] => if create then .ok (.file s data .nil) else .error .notExist
  | .nil, _ :: _ :: _ => .error .notExist
  | .file n c r, s :: ss =>
    if n = s then (if ss = [] then .ok (.file n (c ++ data) r) else .error .notDir)
    else (appendAt data create r (s :: ss)).map (fun r' => .file n c r')
  | .dir n c r, s :: ss =>
    if n = s then (if ss = [] then .error .isDir else (appendAt data create c ss).map (fun c' => .dir n c' r))
    else (appendAt data create r (s :: ss)).map (fun r' => .dir n c r')

/-- Take the entry at `segs` away.  Without `recursive` a directory must be
empty. -/
def removeAt (recursive : Bool) : Entries → List Str → Except Failure Entries
  | _, [] => .error .notEmpty
  | .nil, _ :: _ => .error .notExist
  | .file n c r, s :: ss =>
    if n = s then (if ss = [] then .ok r else .error .notDir)
    else (removeAt recursive r (s :: ss)).map (fun r' => .file n c r')
  | .dir n c r, s :: ss =>
    if n = s then
      (if ss = [] then (if recursive ∨ c = .nil then .ok r else .error .notEmpty)
       else (removeAt recursive c ss).map (fun c' => .dir n c' r))
    else (removeAt recursive r (s :: ss)).map (fun r' => .dir n c r')

/-- Put `node` at `segs`, in an existing directory, as `rename(2)` does: a file
may replace a file, a directory an empty directory. -/
def placeAt (node : Node) : Entries → List Str → Except Failure Entries
  | _, [] => .error .isDir
  | .nil, [s] =>
    match node with
    | .file d => .ok (.file s d .nil)
    | .dir d => .ok (.dir s d .nil)
  | .nil, _ :: _ :: _ => .error .notExist
  | .file n c r, s :: ss =>
    if n = s then
      (if ss = [] then
        match node with
        | .file d => .ok (.file n d r)
        | .dir _ => .error .notDir
       else .error .notDir)
    else (placeAt node r (s :: ss)).map (fun r' => .file n c r')
  | .dir n c r, s :: ss =>
    if n = s then
      (if ss = [] then
        match node with
        | .file _ => .error .isDir
        | .dir d => if c = .nil then .ok (.dir n d r) else .error .notEmpty
       else (placeAt node c ss).map (fun c' => .dir n c' r))
    else (placeAt node r (s :: ss)).map (fun r' => .dir n c r')

/-! ## Go standard library: `os`, `io/ioutil` -/

/-- An open file, Go `*os.File`: where it is in the tree. -/
structure File where
  segs : List Str
  deriving DecidableEq, Repr

/-- Go `ioutil.ReadDir`. -/
def ioutil_ReadDir (fs : Entries) (dirname : Str) : Except Failure (List FileInfo) :=
  match walk fs (osPath dirname) with
  | .ok (.dir c) => .ok c.infos
  | .ok (.file _) => .error .notDir
  | .error e => .error e

/-- Go `os.MkdirAll`.  The tree is unchanged when it fails. -/
def os_MkdirAll (fs : Entries) (p : Str) : Except Failure Entries :=
  mkdirAllAt fs (osPath p)

/-- Go `os.Open`. -/
def os_Open (fs : Entries) (name : Str) : Except Failure File :=
  match walk fs (osPath name) with
  | .ok _ => .ok { segs := osPath name }
  | .error e => .error e

/-- Go `os.OpenFile(name, os.O_APPEND|os.O_CREATE|os.O_WRONLY, perm)`: the file
is made when it is missing. -/
def os_OpenFile (fs : Entries) (name : Str) : Except Failure (File × Entries) :=
  match appendAt [] true fs (osPath name) with
  | .ok fs' => .ok ({ segs := osPath name }, fs')
  | .error e => .error e

/-- The number of bytes of a string. -/
def byteLen (s : Str) : Nat :=
  (s.map Char.utf8Size).sum

/-- Go `(*os.File).WriteString` on a file opened with `O_APPEND`. -/
def File_WriteString (fs : Entries) (fp : File) (s : Str) : (Nat × Option Failure) × Entries :=
  match appendAt s false fs fp.segs with
  | .ok fs' => ((byteLen s, none), fs')
  | .error e => ((0, some e), fs)

/-- Go `ioutil.ReadAll` on an open file. -/
def ioutil_ReadAll (fs : Entries) (fp : File) : Except Failure Str :=
  match walk fs fp.segs with
  | .ok (.file c) => .ok c
  | .ok (.dir _) => .error .isDir
  | .error e => .error e

/-- Go `os.Remove`: `unlink`, then `rmdir`; the root directory cannot be
removed. -/
def os_Remove (fs : Entries) (name : Str) : Except Failure Entries :=
  match osPath name with
  | [] => .error .busy
  | s :: ss => removeAt false fs (s :: ss)

/-- Go `os.endsWithDot`: the path is `.` or ends in `/.`. -/
def endsWithDot (p : Str) : Bool :=
  decide (p = ['.']) || decide (['/', '.'] <:+ p)

/-- Go `os.RemoveAll`.  The empty path and a path that does not exist are no
error and a path that ends in `.` is refused with `EINVAL`.  For the root
directory `Remove` fails, the entries of the directory are then removed one by
one, and the final `rmdir` of the directory itself fails with `EBUSY`: the tree
is left empty and the call returns that error. -/
def os_RemoveAll (fs : Entries) (p : Str) : Except Failure Unit × Entries :=
  if p = [] then (.ok (), fs)
  else if endsWithDot p = true then (.error .invalid, fs)
  else
    match osPath p with
    | [] => (.error .busy, .nil)
    | s :: ss =>
      match removeAt true fs (s :: ss) with
      | .ok fs' => (.ok (), fs')
      | .error .notExist => (.ok (), fs)
      | .error e => (.error e, fs)

/-- The system call `rename(2)` on the resolved paths `o` and `n`.  Both parent
directories are looked up first, the root directory cannot be renamed or
replaced (`EBUSY`), the old path must exist, a directory cannot be moved below
itself (`EINVAL`) or onto one of its ancestors (`ENOTEMPTY`), and a path renamed
to itself is left alone; `placeAt` has the rules for what may be replaced. -/
def sys_rename (fs : Entries) (o n : List Str) : Except Failure Entries :=
  match walk fs o.dropLast with
  | .error e => .error e
  | .ok (.file _) => .error .notDir
  | .ok (.dir _) =>
    match walk fs n.dropLast with
    | .error e => .error e
    | .ok (.file _) => .error .notDir
    | .ok (.dir _) =>
      if o = [] ∨ n = [] then .error .busy
      else
        match walk fs o with
        | .error e => .error e
        | .ok node =>
          if o ≠ n ∧ o <+: n then .error .invalid
          else if o ≠ n ∧ n <+: o then .error .notEmpty
          else if o = n then .ok fs
          else
            match removeAt true fs o with
            | .error e => .error e
            | .ok fs1 => placeAt node fs1 n

/-- Go `os.Rename` on Unix.  Before the system call, `Lstat(newname)` is made:
when the new path is a directory, the error of `Lstat(oldname)` is returned if
there is one, and otherwise `EEXIST`, unless the two names differ and are the
same file. -/
def os_Rename (fs : Entries) (oldpath newpath : Str) : Except Failure Entries :=
  match walk fs (osPath newpath) with
  | .ok (.dir _) =>
    match walk fs (osPath oldpath) with
    | .error e => .error e
    | .ok _ =>
      if newpath = oldpath ∨ osPath oldpath ≠ osPath newpath then .error .exist
      else sys_rename fs (osPath oldpath) (osPath newpath)
  | _ => sys_rename fs (osPath oldpath) (osPath newpath)

/-! ## `fileio.go`, the operations on the file system

An operation gets the file system and gives back its result and the file
system it leaves. -/

/-- The source's `FM.MkdirAll`. -/
def MkdirAll (fm : FM) (p : Str) (fs : Entries) : Except Failure Unit × Entries :=
  match GetFullPath fm p with
  | .error e => (.error e, fs)
  | .ok full =>
    match os_MkdirAll fs full with
    | .ok fs' => (.ok (), fs')
    | .error e => (.error e, fs)

/-- The source's `FM.Open`. -/
def Open (fm : FM) (p : Str) (fs : Entries) : Except Failure File :=
  match GetFullNotePath fm p with
  | .error e => .error e
  | .ok full => os_Open fs full

/-- The source's `FM.OpenFile`. -/
def OpenFile (fm : FM) (p : Str) (fs : Entries) : Except Failure File × Entries :=
  let dir := path_Dir p
  match MkdirAll fm dir fs with
  | (.error e, fs1) => (.error e, fs1)
  | (.ok _, fs1) =>
    match GetFullNotePath fm p with
    | .error e => (.error e, fs1)
    | .ok full =>
      match os_OpenFile fs1 full with
      | .ok (fp, fs2) => (.ok fp, fs2)
      | .error e => (.error e, fs1)

/-- The source's `FM.Rename`. -/
def Rename (fm : FM) (ol nl : Str) (fs : Entries) : Except Failure Unit × Entries :=
  let dir := path_Dir nl
  match MkdirAll fm dir fs with
  | (.error e, fs1) => (.error e, fs1)
  | (.ok _, fs1) =>
    match GetFullNotePath fm ol with
    | .error e => (.error e, fs1)
    | .ok fullOld =>
      match GetFullNotePath fm nl with
      | .error e => (.error e, fs1)
      | .ok fullNew =>
        match os_Rename fs1 fullOld fullNew with
        | .ok fs2 => (.ok (), fs2)
        | .error e => (.error e, fs1)

/-- The source's `FM.Remove`. -/
def Remove (fm : FM) (p : Str) (fs : Entries) : Except Failure Unit × Entries :=
  match GetFullNotePath fm p with
  | .error e => (.error e, fs)
  | .ok full =>
    match os_Remove fs full with
    | .ok fs' => (.ok (), fs')
    | .error e => (.error e, fs)

/-- The source's `FM.RemoveAll`. -/
def RemoveAll (fm : FM) (p : Str) (fs : Entries) : Except Failure Unit × Entries :=
  match GetFullPath fm p with
  | .error e => (.error e, fs)
  | .ok full =>
    os_RemoveAll fs full

/-- The source's `FM.WriteString`. -/
def WriteString (fm : FM) (p s : Str) (fs : Entries) : Except Failure Nat × Entries :=
  match OpenFile fm p fs with
  | (.error e, fs1) => (.error e, fs1)
  | (.ok fp, fs1) =>
    match File_WriteString fs1 fp s with
    | ((n, none), fs2) => (.ok n, fs2)
    | ((_, some e), fs2) => (.error e, fs2)

/-! ## `common.go` -/

/-- The suffix of a note file. -/
def mdSuffix : Str := ".md".toList

/-- The source's `GetNote`. -/
def GetNote (fm : FM) (np : Str) (fs : Entries) : Except Failure Str :=
  match Open fm np fs with
  | .error e => .error e
  | .ok fp => ioutil_ReadAll fs fp

/-- The source's `QuickNote`. -/
def QuickNote (fm : FM) (name s : Str) (fs : Entries) : Except Failure Unit × Entries :=
  match WriteString fm name (s ++ ['\n']) fs with
  | (.error e, fs1) => (.error e, fs1)
  | (.ok _, fs1) => (.ok (), fs1)

/-- The source's `NewProject`. -/
def NewProject (fm : FM) (name : Str) (fs : Entries) : Except Failure Unit × Entries :=
  MkdirAll fm name fs

/-- The source's `RemoveNote`. -/
def RemoveNote (fm : FM) (name : Str) (fs : Entries) : Except Failure Unit × Entries :=
  Remove fm name fs

/-- The source's `RemoveProject`. -/
def RemoveProject (fm : FM) (name : Str) (fs : Entries) : Except Failure Unit × Entries :=
  RemoveAll fm name fs

/-- The source's `ListNotes`. -/
def ListNotes (fm : FM) (p : Str) (fs : Entries) : Except Failure (List Str) :=
  match GetFullPath fm p with
  | .error e => .error e
  | .ok full =>
    match ioutil_ReadDir fs full with
    | .error e => .error e
    | .ok files =>
      .ok (files.foldl
        (fun f file =>
          if strings_HasSuffix file.name mdSuffix then f ++ [strings_TrimSuffix file.name mdSuffix]
          else f)
        [])

/-- The source's `ListProjects`. -/
def ListProjects (fm : FM) (p : Str) (fs : Entries) : Except Failure (List Str) :=
  match GetFullPath fm p with
  | .error e => .error e
  | .ok full =>
    match ioutil_ReadDir fs full with
    | .error e => .error e
    | .ok files => .ok (files.foldl (fun f file => if file.isDir then f ++ [file.name] else f) [])

/-- The `basepath` of the three workers: `d + "/"`, or nothing at `"."`. -/
def basepathOf (d : Str) : Str :=
  if d = ['.'] then [] else d ++ ['/']

/-- The loop of `listAllProjectsWorker` over the projects that are left, `rp`
being what it has collected; `worker` is the recursive call. -/
def projectsLoop (worker : Str → Except Failure (List Str)) (basepath : Str) :
    List Str → List Str → Except Failure (List Str)
  | [], rp => .ok rp
  | p :: ps, rp =>
    let rp1 := rp ++ [p ++ ['/']]
    match worker (basepath ++ p) with
    | .error e => .error e
    | .ok subprojects =>
      projectsLoop worker basepath ps (rp1 ++ subprojects.map (fun subp => p ++ ['/'] ++ subp))

/-- The source's `listAllProjectsWorker`, with a budget for its recursion. -/
def listAllProjectsWorker (fm : FM) (fs : Entries) : Nat → Str → Except Failure (List Str)
  | 0, _ => .error .outOfFuel
  | fuel + 1, d =>
    match ListProjects fm d fs with
    | .error e => .error e
    | .ok projects =>
      projectsLoop (fun x => listAllProjectsWorker fm fs fuel x) (basepathOf d) projects []

/-- The loop of `listAllNotesWorker` over the files that are left. -/
def notesLoop (worker : Str → Except Failure (List Str)) (basepath : Str) :
    List FileInfo → List Str → Except Failure (List Str)
  | [], rp => .ok rp
  | file :: files, rp =>
    let name := file.name
    let rp1 := if strings_HasSuffix name mdSuffix then rp ++ [strings_TrimSuffix name mdSuffix] else rp
    if file.isDir then
      match worker (basepath ++ name) with
      | .error e => .error e
      | .ok subprojects =>
        notesLoop worker basepath files (rp1 ++ subprojects.map (fun subp => name ++ ['/'] ++ subp))
    else notesLoop worker basepath files rp1

/-- The source's `listAllNotesWorker`, with a budget for its recursion. -/
def listAllNotesWorker (fm : FM) (fs : Entries) : Nat → Str → Except Failure (List Str)
  | 0, _ => .error .outOfFuel
  | fuel + 1, d =>
    match GetFullPath fm d with
    | .error e => .error e
    | .ok full =>
      match ioutil_ReadDir fs full with
      | .error e => .error e
      | .ok files =>
        notesLoop (fun x => listAllNotesWorker fm fs fuel x) (basepathOf d) files []

/-- The loop of `listAllWorker` over the files that are left. -/
def allLoop (worker : Str → Except Failure (List Str)) (basepath : Str) :
    List FileInfo → List Str → Except Failure (List Str)
  | [], rp => .ok rp
  | file :: files, rp =>
    let name := file.name
    let rp1 := if strings_HasSuffix name mdSuffix then rp ++ [strings_TrimSuffix name mdSuffix] else rp
    if file.isDir then
      let rp2 := rp1 ++ [name ++ ['/']]
      match worker (basepath ++ name) with
      | .error e => .error e
      | .ok subprojects =>
        allLoop worker basepath files (rp2 ++ subprojects.map (fun subp => name ++ ['/'] ++ subp))
    else allLoop worker basepath files rp1

/-- The source's `listAllWorker`, with a budget for its recursion. -/
def listAllWorker (fm : FM) (fs : Entries) : Nat → Str → Except Failure (List Str)
  | 0, _ => .error .outOfFuel
  | fuel + 1, d =>
    match GetFullPath fm d with
    | .error e => .error e
    | .ok full =>
      match ioutil_ReadDir fs full with
      | .error e => .error e
      | .ok files =>
        allLoop (fun x => listAllWorker fm fs fuel x) (basepathOf d) files []

/-- The source's `ListAllProjects`.  The budget is one more than the height of
the tree, which no descent exceeds. -/
def ListAllProjects (fm : FM) (fs : Entries) : Except Failure (List Str) :=
  listAllProjectsWorker fm fs (fs.height + 1) ['.']

/-- The source's `ListAllNotes`. -/
def ListAllNotes (fm : FM) (fs : Entries) : Except Failure (List Str) :=
  listAllNotesWorker fm fs (fs.height + 1) ['.']

/-- The source's `ListAll`. -/
def ListAll (fm : FM) (fs : Entries) : Except Failure (List Str) :=
  listAllWorker fm fs (fs.height + 1) ['.']

/-! ## `cli.go`

What a command prints is not modelled, only what it returns and what it does
to the file system. -/

/-- Running the editor of the user on a path: an external process. -/
abbrev Editor := Str → Entries → Except Failure Unit × Entries

/-- The error `fmt.Errorf(pfx + ": %s", err)` made from a returned error; a
panic or an exit is not a value and passes. -/
def wrapError (pfx : String) (e : Failure) : Failure :=
  if e.isError then .wrapped pfx e else e

/-- Go `strings.Join`. -/
def strings_Join : List Str → Str → Str
  | [], _ => []
  | [s], _ => s
  | s :: t :: ss, sep => s ++ sep ++ strings_Join (t :: ss) sep

/-- The source's `EditNote` of `common.go`. -/
def EditNote (ed : Editor) (fm : FM) (name : Str) (fs : Entries) : Except Failure Unit × Entries :=
  match GetFullNotePath fm name with
  | .error e => (.error e, fs)
  | .ok full => ed full fs

/-- The source's `newNote`. -/
def newNote (fm : FM) (args : List Str) (fs : Entries) : Except Failure Unit × Entries :=
  match args with
  | name :: w :: ws =>
    match QuickNote fm name (strings_Join (w :: ws) [' ']) fs with
    | (.error e, fs1) => (.error (wrapError "could not create note" e), fs1)
    | (.ok _, fs1) => (.ok (), fs1)
  | _ => (.error (.text "not enough arguments for note"), fs)

/-- The source's `editNote`. -/
def editNote (ed : Editor) (fm : FM) (args : List Str) (fs : Entries) :
    Except Failure Unit × Entries :=
  match args with
  | name :: _ =>
    match EditNote ed fm name fs with
    | (.error e, fs1) => (.error (wrapError "could not open note" e), fs1)
    | (.ok _, fs1) => (.ok (), fs1)
  | [] => (.error (.text "need to provide name of note"), fs)

/-- The source's `printNote`. -/
def printNote (fm : FM) (args : List Str) (fs : Entries) : Except Failure Unit × Entries :=
  match args with
  | name :: _ =>
    match GetNote fm name fs with
    | .error e => (.error (wrapError "could not read note" e), fs)
    | .ok _ => (.ok (), fs)
  | [] => (.error (.text "not enough arguments for note"), fs)

/-- The source's `renameNote`. -/
def renameNote (fm : FM) (args : List Str) (fs : Entries) : Except Failure Unit × Entries :=
  match args with
  | ol :: nl :: _ => Rename fm ol nl fs
  | _ => (.error (.text "not enough arguments for renaming"), fs)

/-- The source's `listNotes`. -/
def listNotes (fm : FM) (args : List Str) (fs : Entries) : Except Failure Unit × Entries :=
  let p := match args with
    | a :: _ => a
    | [] => ['.']
  match ListNotes fm p fs with
  | .error e => (.error (wrapError "could not list notes" e), fs)
  | .ok _ => (.ok (), fs)

/-- The source's `deleteNote`: the error of `RemoveNote` is printed and not
returned. -/
def deleteNote (fm : FM) (args : List Str) (fs : Entries) : Except Failure Unit × Entries :=
  match args with
  | name :: _ =>
    match RemoveNote fm name fs with
    | (.error e, fs1) => if e.isError then (.ok (), fs1) else (.error e, fs1)
    | (.ok _, fs1) => (.ok (), fs1)
  | [] => (.error (.text "not enough arguments for note"), fs)

/-- The source's `createProject`. -/
def createProject (fm : FM) (args : List Str) (fs : Entries) : Except Failure Unit × Entries :=
  match args with
  | name :: _ =>
    match NewProject fm name fs with
    | (.error e, fs1) => (.error (wrapError "could not create project" e), fs1)
    | (.ok _, fs1) => (.ok (), fs1)
  | [] => (.error (.text "not enough arguments for note"), fs)

/-- The source's `listProjects`. -/
def listProjects (fm : FM) (args : List Str) (fs : Entries) : Except Failure Unit × Entries :=
  let p := match args with
    | a :: _ => a
    | [] => ['.']
  match ListProjects fm p fs with
  | .error e => (.error (wrapError "could not list projects" e), fs)
  | .ok _ => (.ok (), fs)

/-- The source's `deleteProject`. -/
def deleteProject (fm : FM) (args : List Str) (fs : Entries) : Except Failure Unit × Entries :=
  match args with
  | name :: _ => RemoveProject fm name fs
  | [] => (.error (.text "not enough arguments for deleting project"), fs)

/-- The source's `listAll`. -/
def listAll (fm : FM) (_args : List Str) (fs : Entries) : Except Failure Unit × Entries :=
  match ListAll fm fs with
  | .error e => (.error (wrapError "could not list projects" e), fs)
  | .ok _ => (.ok (), fs)

/-- The source's `listAllNotes`. -/
def listAllNotes (fm : FM) (_args : List Str) (fs : Entries) : Except Failure Unit × Entries :=
  match ListAllNotes fm fs with
  | .error e => (.error (wrapError "could not list projects" e), fs)
  | .ok _ => (.ok (), fs)

/-- The source's `listAllProjects`. -/
def listAllProjects (fm : FM) (_args : List Str) (fs : Entries) : Except Failure Unit × Entries :=
  match ListAllProjects fm fs with
  | .error e => (.error (wrapError "could not list projects" e), fs)
  | .ok _ => (.ok (), fs)

/-- The source's `sayLine`. -/
def sayLine (_args : List Str) (fs : Entries) : Except Failure Unit × Entries :=
  (.ok (), fs)

/-- The source's `clearTerminal`. -/
def clearTerminal (_args : List Str) (fs : Entries) : Except Failure Unit × Entries :=
  (.ok (), fs)

/-- The source's `quit`: `os.Exit(0)`. -/
def quit (_args : List Str) (fs : Entries) : Except Failure Unit × Entries :=
  (.error (.exit 0), fs)

/-- The source's `command`, its `Func` getting the editor and the file manager
that the source keeps in a package variable. -/
structure Command where
  Description : String
  Func : Editor → FM → List Str → Entries → Except Failure Unit × Entries

/-- The source's `commandMap`. -/
def commandMap : List (Str × Command) :=
  [ ("n".toList, ⟨"Creates a new note. Usage: n <NOTE_NAME> <NOTE_CONTENT>",
      fun _ fm => newNote fm⟩),
    ("e".toList, ⟨"Opens a note in editor. Usage: e <NOTE_NAME>",
      fun ed fm => editNote ed fm⟩),
    ("p".toList, ⟨"Prints a note. Usage: p <NOTE_NAME>",
      fun _ fm => printNote fm⟩),
    ("mv".toList, ⟨"Renames a note. Usage: mv <NOTE_NAME> <NEW_NAME>",
      fun _ fm => renameNote fm⟩),
    ("l".toList, ⟨"Lists notes, optionally in a project. Usage: l [PROJECT_NAME]",
      fun _ fm => listNotes fm⟩),
    ("d".toList, ⟨"Deletes a note. Usage: d <NOTE_NAME>",
      fun _ fm => deleteNote fm⟩),
    ("np".toList, ⟨"Create a new project. Usage: np <PROJECT_NAME>",
      fun _ fm => createProject fm⟩),
    ("lp".toList, ⟨"Lists projects, by default in root directory or provide project name to list subprojects. Usage: lp [PROJECT_NAME]",
      fun _ fm => listProjects fm⟩),
    ("dp".toList, ⟨"Deletes a project. Usage: lp <PROJECT_NAME>",
      fun _ fm => deleteProject fm⟩),
    ("la".toList, ⟨"Lists all notes and projects. Usage: la",
      fun _ fm => listAll fm⟩),
    ("lan".toList, ⟨"Lists all notes in root, projects, and subprojects. Usage: la",
      fun _ fm => listAllNotes fm⟩),
    ("lap".toList, ⟨"Lists all projects and subprojects. Usage: la",
      fun _ fm => listAllProjects fm⟩),
    ("line".toList, ⟨"Says a line. Usage: line", fun _ _ => sayLine⟩),
    ("c".toList, ⟨"Clears the terminal. Usage: c", fun _ _ => clearTerminal⟩),
    ("q".toList, ⟨"Quit the program. Usage: q", fun _ _ => quit⟩),
    ("exit".toList, ⟨"Quit the program. Usage: exit", fun _ _ => quit⟩),
    ("quit".toList, ⟨"Quit the program. Usage: quit", fun _ _ => quit⟩) ]

/-- The source's `runCommand`: the value `cmd.Func(args)` returns is not
looked at. -/
def runCommand (ed : Editor) (fm : FM) (command : Str) (args : List Str) (fs : Entries) :
    Except Failure Unit × Entries :=
  if command = "h".toList ∨ command = "help".toList then (.ok (), fs)
  else
    match commandMap.lookup command with
    | some cmd =>
      match cmd.Func ed fm args fs with
      | (.error e, fs1) => if e.isError then (.ok (), fs1) else (.error e, fs1)
      | (.ok _, fs1) => (.ok (), fs1)
    | none => (.error (.text "I don\x27t understand"), fs)

/-- The source's `getBaseDir`, from the value of `DAIMON_DIR`. -/
def getBaseDir (env : Option Str) : Except Failure Str :=
  match env with
  | some dir => if strings_HasSuffix dir ['/'] then .ok dir else .ok (dir ++ ['/'])
  | none => .error (.exit 1)

/-- The exit status of the process for the way `runCommand` ended in `Init`:
`0` when it returned no error, `1` after the diagnostic of a returned error,
the status of `os.Exit`, and `2` for a panic. -/
def exitStatus : Except Failure Unit → Nat
  | .ok _ => 0
  | .error (.exit n) => n
  | .error .invalidName => 2
  | .error .outOfFuel => 2
  | .error _ => 1

/-- The source's `Init` when a command is given on the command line
(`osArgs` is `os.Args[1:]`): the exit status and the file system left.  The
interactive loop, entered without arguments, is not modelled (`none`). -/
def Init (ed : Editor) (env : Option Str) (osArgs : List Str) (fs : Entries) :
    Option (Nat × Entries) :=
  match getBaseDir env with
  | .error e => some (exitStatus (.error e), fs)
  | .ok base =>
    match osArgs with
    | [] => none
    | command :: args =>
      let r := runCommand ed (NewFM base) command args fs
      some (exitStatus r.1, r.2)

/-! ## Words of the specification -/

/-- The string starts with a word character. -/
def StartsWithWord (p : Str) : Prop :=
  ∃ c cs, p = c :: cs ∧ isWordChar c = true

/-- The string starts with a character that is not a word character. -/
def StartsWithNonWord (p : Str) : Prop :=
  ∃ c cs, p = c :: cs ∧ isWordChar c = false

/-- An ordinary path element: not empty, without `/`, and neither `.` nor `..`. -/
def Ordinary (s : Str) : Prop :=
  s ≠ [] ∧ '/' ∉ s ∧ s ≠ ['.'] ∧ s ≠ dotdot

/-- The root directory with the elements `rs`, an absolute clean path with a
trailing `/`: `/` itself, or `/r1/r2/.../rk/`. -/
def rootOf : List Str → Str
  | [] => ['/']
  | r :: rs => '/' :: joinSlash (r :: rs) ++ ['/']

/-- Root as the specification describes it, an absolute clean directory path
with a trailing `/`: either `/` itself, or `q/` for a path `q` other than `/`
that starts with `/` and that `path.Clean` leaves as it is. -/
def IsCleanRoot (base : Str) : Prop :=
  base = ['/'] ∨ ∃ q, q ≠ ['/'] ∧ base = q ++ ['/'] ∧ q.head? = some '/' ∧ path_Clean q = q

/-- The test for `Ordinary`. -/
def isOrdinary (s : Str) : Bool :=
  decide (s ≠ []) && decide ('/' ∉ s) && decide (s ≠ ['.']) && decide (s ≠ dotdot)

/-- The names of the entries of a directory. -/
def Entries.names : Entries → List Str
  | .nil => []
  | .file n _ r => n :: r.names
  | .dir n _ r => n :: r.names

/-- The sub-directories of a directory, each with its content. -/
def Entries.dirs : Entries → List (Str × Entries)
  | .nil => []
  | .file _ _ r => r.dirs
  | .dir n c r => (n, c) :: r.dirs

/-- A tree that a file system can hold: every name is an ordinary path element
and no directory has two entries of one name. -/
def Entries.wf : Entries → Bool
  | .nil => true
  | .file n _ r => isOrdinary n && decide (n ∉ r.names) && r.wf
  | .dir n c r => isOrdinary n && decide (n ∉ r.names) && c.wf && r.wf

/-- The content of the file at `segs`, empty when there is no file. -/
def contentAt (t : Entries) (segs : List Str) : Str :=
  match walk t segs with
  | .ok (.file c) => c
  | _ => []

/-- The directories below `t`, by their path elements: `segs` leads to a
directory and is not empty. -/
def IsDirAt (t : Entries) (segs : List Str) : Prop :=
  segs ≠ [] ∧ ∃ c, walk t segs = .ok (.dir c)

/-- What one entry name adds as a note: the name without `.md` when it ends
in `.md`. -/
def noteOf (name : Str) : List Str :=
  if strings_HasSuffix name mdSuffix then [strings_TrimSuffix name mdSuffix] else []

/-- The output of a traversal, by recursion on the tree: entry after entry in
the order of the directory, the note of the entry when `notes` is set, then for
a directory its `name/` when `dirs` is set and the output of its content with
`name/` in front of each line. -/
def listing (notes dirs : Bool) : Entries → List Str
  | .nil => []
  | .file n _ r => (if notes then noteOf n else []) ++ listing notes dirs r
  | .dir n c r =>
    (if notes then noteOf n else []) ++ (if dirs then [n ++ ['/']] else [])
      ++ (listing notes dirs c).map (fun subp => n ++ ['/'] ++ subp) ++ listing notes dirs r

/-- The loops of the three workers as one, with two switches: `notes` for
the lines of notes, `dirs` for the lines `name/`. -/
def genLoop (notes dirs : Bool) (worker : Str → Except Failure (List Str)) (basepath : Str) :
    List FileInfo → List Str → Except Failure (List Str)
  | [], rp => .ok rp
  | file :: files, rp =>
    let name := file.name
    let rp1 := rp ++ (if notes then noteOf name else [])
    if file.isDir then
      let rp2 := rp1 ++ (if dirs then [name ++ ['/']] else [])
      match worker (basepath ++ name) with
      | .error e => .error e
      | .ok subprojects =>
        genLoop notes dirs worker basepath files
          (rp2 ++ subprojects.map (fun subp => name ++ ['/'] ++ subp))
    else genLoop notes dirs worker basepath files rp1

/-- The three workers as one. -/
def genWorker (notes dirs : Bool) (fm : FM) (fs : Entries) : Nat → Str → Except Failure (List Str)
  | 0, _ => .error .outOfFuel
  | fuel + 1, d =>
    match GetFullPath fm d with
    | .error e => .error e
    | .ok full =>
      match ioutil_ReadDir fs full with
      | .error e => .error e
      | .ok files =>
        genLoop notes dirs (fun x => genWorker notes dirs fm fs fuel x) (basepathOf d) files []

/-- Some sub-directory directly in `t` has a name that starts with a character
that is not a word character. -/
def hasIllegalDir (t : Entries) : Bool :=
  t.dirs.any (fun x => hasIllegalPath x.1)

/-- The entries of `t` followed by the entries of `u`. -/
def Entries.append : Entries → Entries → Entries
  | .nil, u => u
  | .file n c r, u => .file n c (r.append u)
  | .dir n c r, u => .dir n c (r.append u)

/-- The notes directly in a directory, as `ListNotes` names them. -/
def directNotes (t : Entries) : List Str :=
  t.names.flatMap noteOf

/-- The last sentence of C9 as the specification words it, for the root `base`
and the name `p`: when the cleaned form of `p` starts with `..`, the check that
`MkdirAll` makes on `path.Dir(p)` refuses the name. -/
def ParentCheckRejects (base p : Str) : Prop :=
  dotdot <+: path_Clean p → GetFullPath (NewFM base) (path_Dir p) = .error .invalidName

/-- The order of C6 as the specification words it, for the directory `t` and
an output `out`: a note directly in `t` stands before every entry of the
output that comes from descending into a sub-directory of `t`, that is, every
entry `name/sub` with `name` a sub-directory of `t`. -/
def NotesBeforeDescent (t : Entries) (out : List Str) : Prop :=
  ∀ note e, note ∈ directNotes t → e ∈ out →
    (∃ x ∈ t.dirs, ∃ sub, sub ≠ [] ∧ e = x.1 ++ '/' :: sub) →
    out.indexOf note < out.indexOf e

/-- The content of a note as `GetNote` reads it, empty when there is no note
to read. -/
def noteContent (fm : FM) (name : Str) (fs : Entries) : Str :=
  match GetNote fm name fs with
  | .ok c => c
  | .error _ => []

/-- A root directory that holds the directory `a` with the note file `x.md`,
and after it the note file `b.md`. -/
def orderTree : Entries :=
  .dir "a".toList (.file "x.md".toList [] .nil) (.file "b.md".toList [] .nil)

/-- The file system that holds `orderTree` at `/r`. -/
def orderFS : Entries :=
  .dir "r".toList orderTree .nil

/-- The buffer of `path.Clean` that holds the elements `stk` (the last one
first). -/
def renderStk (rooted : Bool) (stk : List Str) : List Char :=
  ((if rooted = true then ['/'] else []) ++ joinSlash stk.reverse).reverse

/-- The index `dotdot` of `path.Clean` after `k` leading `..` elements. -/
def ddOf (rooted : Bool) (k : Nat) : Nat :=
  if rooted = true then 1 else (joinSlash (List.replicate k dotdot)).length

/-- The elements held by the buffer: ordinary ones on top of `k` elements
`..`, which only a path that is not rooted has. -/
def StackShape (rooted : Bool) (stk : List Str) (ords : List Str) (k : Nat) : Prop :=
  stk = ords ++ List.replicate k dotdot ∧ (∀ s ∈ ords, Ordinary s) ∧ (rooted = true → k = 0)

/-! # Theorems -/

/-! ## The path functions on the tables of the Go test suite -/

/-- The function `path_Clean` on the cases of `cleantests` in Go's `path_test.go`. -/
theorem path_Clean_table :
    ["", "abc", "abc/def", "a/b/c", ".", "..", "../..", "../../abc", "/abc", "/",
      "abc/", "abc/def/", "a/b/c/", "./", "../", "../../", "/abc/",
      "abc//def//ghi", "//abc", "///abc", "//abc//", "abc//",
      "abc/./def", "/./abc/def", "abc/.",
      "abc/def/ghi/../jkl", "abc/def/../ghi/../jkl", "abc/def/..", "abc/def/../..",
      "/abc/def/../..", "abc/def/../../..", "/abc/def/../../..",
      "abc/def/../../../ghi/jkl/../../../mno",
      "abc/./../def", "abc//./../def", "abc/../../././../def"].map
        (fun s => String.mk (path_Clean s.toList))
      = [".", "abc", "abc/def", "a/b/c", ".", "..", "../..", "../../abc", "/abc", "/",
      "abc", "abc/def", "a/b/c", ".", "..", "../..", "/abc",
      "abc/def/ghi", "/abc", "/abc", "/abc", "abc",
      "abc/def", "/abc/def", "abc",
      "abc/def/jkl", "abc/jkl", "abc", ".",
      "/", "..", "/",
      "../../mno",
      "def", "def", "../../def"] := by
  rfl

/-- The function `path_Base` on the cases of `basetests` in Go's `path_test.go`. -/
theorem path_Base_table :
    ["", ".", "/.", "/", "////", "x/", "abc", "abc/def", "a/b/.x", "a/b/c.", "a/b/c.x"].map
        (fun s => String.mk (path_Base s.toList))
      = [".", ".", ".", "/", "/", "x", "abc", "def", ".x", "c.", "c.x"] := by
  rfl

/-- The function `path_Dir` on the cases of `dirtests` in Go's `path_test.go`. -/
theorem path_Dir_table :
    ["", ".", "/.", "/", "////", "/foo", "x/", "abc", "abc/def", "abc////def", "a/b/.x",
      "a/b/c.", "a/b/c.x"].map (fun s => String.mk (path_Dir s.toList))
      = [".", ".", "/", "/", "/", "/", "x", ".", "abc", "abc", "a/b", "a/b", "a/b"] := by
  rfl

/-! ## Path resolution -/

theorem hasIllegalPath_iff (p : Str) : hasIllegalPath p = true ↔ StartsWithNonWord p := by
  cases p with
  | nil => simp [hasIllegalPath, StartsWithNonWord]
  | cons c cs => simp [hasIllegalPath, StartsWithNonWord]

theorem hasIllegalPath_of_word {p : Str} (h : StartsWithWord p) : hasIllegalPath p = false := by
  obtain ⟨c, cs, rfl, hc⟩ := h
  simp [hasIllegalPath, hc]

theorem GetFullPath_error {fm : FM} {p : Str} {e : Failure}
    (h : GetFullPath fm p = .error e) : e = .invalidName := by
  unfold GetFullPath at h
  split at h
  · injection h with h; exact h.symm
  · exact absurd h (by simp)

/-- C2: `GetFullPath(p)` returns the joined path when `p` is `"."` or starts
with a word character, and panics with the invalid-name failure when `p` starts
with a character that is not a word character and `p` is not `"."`. -/
theorem GetFullPath_accepts_iff_word (fm : FM) (p : Str) :
    ((p = ['.'] ∨ StartsWithWord p) →
        GetFullPath fm p = .ok (filepath_Join1 (fm.pathBase ++ path_Clean p))) ∧
    ((StartsWithNonWord p ∧ p ≠ ['.']) → GetFullPath fm p = .error .invalidName) := by
  constructor
  · rintro (rfl | h)
    · simp [GetFullPath]
    · simp [GetFullPath, hasIllegalPath_of_word h]
  · rintro ⟨h, hne⟩
    have := (hasIllegalPath_iff p).2 h
    simp [GetFullPath, this, hne]

/-- C2 at concrete names: `notes/x` and `.` are resolved, `.git` and `/etc` are
refused. -/
theorem GetFullPath_accepts_iff_word_witness :
    GetFullPath (NewFM "/r/".toList) "notes/x".toList = .ok "/r/notes/x".toList ∧
    GetFullPath (NewFM "/r/".toList) ".".toList = .ok "/r".toList ∧
    GetFullPath (NewFM "/r/".toList) ".git".toList = .error .invalidName ∧
    GetFullPath (NewFM "/r/".toList) "/etc".toList = .error .invalidName := by
  refine ⟨?_, ?_, ?_, ?_⟩
  · exact (GetFullPath_accepts_iff_word (NewFM "/r/".toList) "notes/x".toList).1
      (Or.inr ⟨'n', "otes/x".toList, rfl, by decide⟩)
  · exact (GetFullPath_accepts_iff_word (NewFM "/r/".toList) ".".toList).1 (Or.inl rfl)
  · exact (GetFullPath_accepts_iff_word (NewFM "/r/".toList) ".git".toList).2
      ⟨⟨'.', "git".toList, rfl, by decide⟩, by decide⟩
  · exact (GetFullPath_accepts_iff_word (NewFM "/r/".toList) "/etc".toList).2
      ⟨⟨'/', "etc".toList, rfl, by decide⟩, by decide⟩

/-- C3: `GetFullNotePath(p)` panics with the invalid-name failure exactly when
the base name of `p` starts with a character that is not a word character or
`GetFullPath(p)` panics; otherwise it returns `GetFullPath(p)` followed by
`.md`.  The names `"."` and `""` are refused as note names, and `"."` is
accepted as a project path. -/
theorem GetFullNotePath_fails_iff (fm : FM) (p : Str) :
    (GetFullNotePath fm p = .error .invalidName ↔
        (StartsWithNonWord (path_Base p) ∨ GetFullPath fm p = .error .invalidName)) ∧
    (¬ (StartsWithNonWord (path_Base p) ∨ GetFullPath fm p = .error .invalidName) →
        ∃ full, GetFullPath fm p = .ok full ∧ GetFullNotePath fm p = .ok (full ++ ".md".toList)) ∧
    GetFullNotePath fm ['.'] = .error .invalidName ∧
    GetFullNotePath fm [] = .error .invalidName ∧
    (∃ full, GetFullPath fm ['.'] = .ok full) := by
  refine ⟨?_, ?_, by rfl, by rfl, ⟨_, by rfl⟩⟩
  · by_cases hb : hasIllegalPath (path_Base p) = true
    · have := (hasIllegalPath_iff _).1 hb
      simp [GetFullNotePath, hb, this]
    · have hn : ¬ StartsWithNonWord (path_Base p) := fun h => hb ((hasIllegalPath_iff _).2 h)
      simp only [GetFullNotePath, hb, hn, false_or, if_false]
      cases hg : GetFullPath fm p with
      | error e =>
        have he := GetFullPath_error hg
        subst he
        simp [Except.map]
      | ok v => simp [Except.map]
  · intro h
    have hn : ¬ StartsWithNonWord (path_Base p) := fun h1 => h (Or.inl h1)
    have hb : ¬ hasIllegalPath (path_Base p) = true := fun h1 => hn ((hasIllegalPath_iff _).1 h1)
    cases hg : GetFullPath fm p with
    | error e =>
      have he := GetFullPath_error hg
      subst he
      exact absurd (Or.inr hg) h
    | ok v => exact ⟨v, rfl, by simp [GetFullNotePath, hb, hg, Except.map]⟩

/-- C1, the code at the failing input: for the root `/home/u/notes/` the name
`a/../../etc/passwd` is accepted by `GetFullNotePath` and resolved to
`/home/u/etc/passwd.md`, which does not start with the root; `GetNote` reads
that file. -/
theorem GetFullNotePath_leaves_root :
    GetFullNotePath (NewFM "/home/u/notes/".toList) "a/../../etc/passwd".toList
      = .ok "/home/u/etc/passwd.md".toList ∧
    ¬ ("/home/u/notes/".toList <+: "/home/u/etc/passwd.md".toList) ∧
    GetNote (NewFM "/home/u/notes/".toList) "a/../../etc/passwd".toList
      (.dir "home".toList (.dir "u".toList
        (.dir "etc".toList (.file "passwd.md".toList "secret".toList .nil)
          (.dir "notes".toList .nil .nil)) .nil) .nil)
      = .ok "secret".toList := by
  refine ⟨by rfl, by decide, by rfl⟩

/-! ## Command dispatch -/

/-- C8, the code at the failing input: `daimon n` (the command `n` without
arguments) makes `newNote` return the error "not enough arguments for note",
yet `runCommand` returns no error and the process ends with status 0.  For
every command of the table, and for `h` and `help`, `runCommand` returns no
error value at all, whatever the command returned. -/
theorem runCommand_drops_error (ed : Editor) (fs : Entries) :
    newNote (NewFM "/r/".toList) [] fs = (.error (.text "not enough arguments for note"), fs) ∧
    runCommand ed (NewFM "/r/".toList) "n".toList [] fs = (.ok (), fs) ∧
    Init ed (some "/r/".toList) ["n".toList] fs = some (0, fs) ∧
    (∀ fm command args e,
      (command = "h".toList ∨ command = "help".toList ∨ (commandMap.lookup command).isSome) →
      (runCommand ed fm command args fs).1 = .error e → e.isError = false) := by
  refine ⟨by rfl, by rfl, by rfl, ?_⟩
  intro fm command args e hc he
  unfold runCommand at he
  split at he
  · simp at he
  · rename_i hh
    cases hl : commandMap.lookup command with
    | none =>
      rcases hc with hc | hc | hc
      · exact absurd (Or.inl hc) hh
      · exact absurd (Or.inr hc) hh
      · simp [hl] at hc
    | some cmd =>
      rw [hl] at he
      dsimp only at he
      cases hf : cmd.Func ed fm args fs with
      | mk r fs1 =>
        rw [hf] at he
        cases r with
        | ok u => simp at he
        | error e' =>
          dsimp only at he
          by_cases hi : e'.isError = true
          · simp [hi] at he
          · simp only [hi, Bool.false_eq_true, if_false, Except.error.injEq] at he
            subst he
            simpa using hi

/-! ## Splitting and joining paths -/

theorem splitSlash_ne_nil (p : Str) : splitSlash p ≠ [] := by
  cases p with
  | nil => simp [splitSlash]
  | cons c cs =>
    unfold splitSlash
    split
    · simp
    · split <;> simp

theorem splitSlash_cons_slash (cs : Str) : splitSlash ('/' :: cs) = [] :: splitSlash cs := by
  simp [splitSlash]

theorem splitSlash_cons_other {c : Char} (hc : c ≠ '/') (cs : Str) :
    ∃ s ss, splitSlash cs = s :: ss ∧ splitSlash (c :: cs) = (c :: s) :: ss := by
  cases h : splitSlash cs with
  | nil => exact absurd h (splitSlash_ne_nil cs)
  | cons s ss => exact ⟨s, ss, rfl, by simp [splitSlash, hc, h]⟩

theorem splitSlash_noSlash {s : Str} (h : '/' ∉ s) : splitSlash s = [s] := by
  induction s with
  | nil => rfl
  | cons c cs ih =>
    have hc : c ≠ '/' := fun e => h (by simp [e])
    have hcs : '/' ∉ cs := fun e => h (by simp [e])
    simp [splitSlash, hc, ih hcs]

theorem splitSlash_append_slash (a b : Str) :
    splitSlash (a ++ '/' :: b) = splitSlash a ++ splitSlash b := by
  induction a with
  | nil => simp [splitSlash]
  | cons c cs ih =>
    by_cases hc : c = '/'
    · subst hc
      simp [splitSlash_cons_slash, ih]
    · obtain ⟨s, ss, h1, h2⟩ := splitSlash_cons_other hc cs
      obtain ⟨s', ss', h1', h2'⟩ := splitSlash_cons_other hc (cs ++ '/' :: b)
      rw [List.cons_append, h2', h2]
      rw [ih, h1] at h1'
      simp only [List.cons_append, List.cons.injEq] at h1'
      simp [h1'.1, h1'.2]

theorem mem_splitSlash_noSlash (p : Str) : ∀ s ∈ splitSlash p, '/' ∉ s := by
  induction p with
  | nil => simp [splitSlash]
  | cons c cs ih =>
    by_cases hc : c = '/'
    · subst hc
      rw [splitSlash_cons_slash]
      intro s hs
      rcases List.mem_cons.1 hs with rfl | hs
      · simp
      · exact ih s hs
    · obtain ⟨s, ss, h1, h2⟩ := splitSlash_cons_other hc cs
      rw [h2]
      rw [h1] at ih
      intro t ht
      rcases List.mem_cons.1 ht with rfl | ht
      · have := ih s (by simp)
        simp [this, Ne.symm hc]
      · exact ih t (by simp [ht])

theorem joinSlash_cons_cons (s t : Str) (ss : List Str) :
    joinSlash (s :: t :: ss) = s ++ '/' :: joinSlash (t :: ss) := rfl

theorem joinSlash_splitSlash (p : Str) : joinSlash (splitSlash p) = p := by
  induction p with
  | nil => rfl
  | cons c cs ih =>
    by_cases hc : c = '/'
    · subst hc
      rw [splitSlash_cons_slash]
      cases h : splitSlash cs with
      | nil => exact absurd h (splitSlash_ne_nil cs)
      | cons s ss => rw [joinSlash_cons_cons, ← h, ih]; rfl
    · obtain ⟨s, ss, h1, h2⟩ := splitSlash_cons_other hc cs
      rw [h2]
      rw [h1] at ih
      cases ss with
      | nil => simpa [joinSlash] using ih
      | cons t ts =>
        rw [joinSlash_cons_cons] at ih ⊢
        simp [← ih]

theorem splitSlash_joinSlash {segs : List Str} (hne : segs ≠ [])
    (h : ∀ s ∈ segs, '/' ∉ s) : splitSlash (joinSlash segs) = segs := by
  induction segs with
  | nil => exact absurd rfl hne
  | cons s ss ih =>
    cases ss with
    | nil => simpa [joinSlash] using splitSlash_noSlash (h s (by simp))
    | cons t ts =>
      rw [joinSlash_cons_cons, splitSlash_append_slash, splitSlash_noSlash (h s (by simp)),
        ih (by simp) (fun x hx => h x (by simp [hx]))]
      rfl

theorem joinSlash_append_cons (l : List Str) (s : Str) (hl : l ≠ []) (m : List Str) :
    joinSlash (l ++ s :: m) = joinSlash l ++ '/' :: joinSlash (s :: m) := by
  induction l with
  | nil => exact absurd rfl hl
  | cons a as ih =>
    cases as with
    | nil => simp [joinSlash]
    | cons b bs =>
      have := ih (by simp)
      rw [List.cons_append, List.cons_append, joinSlash_cons_cons, ← List.cons_append, this,
        joinSlash_cons_cons]
      simp

theorem joinSlash_ne_nil {l : List Str} (hl : l ≠ []) (h : ∀ s ∈ l, s ≠ []) :
    joinSlash l ≠ [] := by
  cases l with
  | nil => exact absurd rfl hl
  | cons a as =>
    cases as with
    | nil => simpa [joinSlash] using h a (by simp)
    | cons b bs => simp [joinSlash_cons_cons]

theorem joinSlash_head (a : Str) (as : List Str) (ha : a ≠ []) :
    (joinSlash (a :: as)).head? = a.head? := by
  cases as with
  | nil => rfl
  | cons b bs =>
    rw [joinSlash_cons_cons]
    cases a with
    | nil => exact absurd rfl ha
    | cons c cs => rfl

theorem rootOf_append_join (rs : List Str) {segs : List Str} (hne : segs ≠ []) :
    rootOf rs ++ joinSlash segs = '/' :: joinSlash (rs ++ segs) := by
  cases segs with
  | nil => exact absurd rfl hne
  | cons s ss =>
    cases rs with
    | nil => simp [rootOf]
    | cons r rs' =>
      rw [joinSlash_append_cons _ _ (by simp)]
      simp [rootOf]

/-! ## Cleaning paths -/

theorem Ordinary.ne_nil {s : Str} (h : Ordinary s) : s ≠ [] := h.1

theorem Ordinary.noSlash {s : Str} (h : Ordinary s) : '/' ∉ s := h.2.1

theorem cleanStep_ordinary (r : Bool) (stk : List Str) {s : Str} (h : Ordinary s) :
    cleanStep r stk s = s :: stk := by
  obtain ⟨h1, _, h3, h4⟩ := h
  simp [cleanStep, h1, h3, h4]

theorem cleanStep_nil (r : Bool) (stk : List Str) : cleanStep r stk [] = stk := by
  simp [cleanStep]

theorem cleanStep_dot (r : Bool) (stk : List Str) : cleanStep r stk ['.'] = stk := by
  simp [cleanStep]

theorem foldl_cleanStep_ordinary (r : Bool) (segs : List Str) (h : ∀ s ∈ segs, Ordinary s)
    (stk : List Str) : segs.foldl (cleanStep r) stk = segs.reverse ++ stk := by
  induction segs generalizing stk with
  | nil => rfl
  | cons s ss ih =>
    rw [List.foldl_cons, cleanStep_ordinary r stk (h s (by simp)),
      ih (fun x hx => h x (by simp [hx]))]
    simp

theorem cleanSegs_ordinary (r : Bool) (segs : List Str) (h : ∀ s ∈ segs, Ordinary s) :
    cleanSegs r segs = segs := by
  simp [cleanSegs, foldl_cleanStep_ordinary r segs h]

theorem cleanSegs_nil_cons (r : Bool) (segs : List Str) :
    cleanSegs r ([] :: segs) = cleanSegs r segs := by
  simp [cleanSegs, cleanStep_nil]

theorem foldl_cleanStep_replicate_nil (r : Bool) (k : Nat) (stk : List Str) :
    (List.replicate k ([] : Str)).foldl (cleanStep r) stk = stk := by
  induction k with
  | zero => rfl
  | succ k ih => simp [List.replicate_succ, cleanStep_nil, ih]

/-- The operating system finds `/e1/.../ek` at the elements `e1 ... ek`. -/
theorem osPath_slash_join (l : List Str) (h : ∀ s ∈ l, Ordinary s) :
    osPath ('/' :: joinSlash l) = l := by
  unfold osPath
  rw [splitSlash_cons_slash, cleanSegs_nil_cons]
  cases l with
  | nil => simp [joinSlash, splitSlash, cleanSegs, cleanStep_nil]
  | cons a as =>
    rw [splitSlash_joinSlash (by simp) (fun s hs => (h s hs).noSlash), cleanSegs_ordinary _ _ h]

theorem path_Clean_slash_join (l : List Str) (h : ∀ s ∈ l, Ordinary s) :
    path_Clean ('/' :: joinSlash l) = '/' :: joinSlash l := by
  have := osPath_slash_join l h
  unfold osPath at this
  simp [path_Clean, this]

theorem path_Clean_join {l : List Str} (hne : l ≠ []) (h : ∀ s ∈ l, Ordinary s) :
    path_Clean (joinSlash l) = joinSlash l := by
  have hj : joinSlash l ≠ [] := joinSlash_ne_nil hne (fun s hs => (h s hs).ne_nil)
  have hr : (joinSlash l).head? ≠ some '/' := by
    cases l with
    | nil => exact absurd rfl hne
    | cons a as =>
      rw [joinSlash_head a as (h a (by simp)).ne_nil]
      have ha := h a (by simp)
      cases a with
      | nil => exact absurd rfl ha.ne_nil
      | cons c cs =>
        have : c ≠ '/' := fun e => ha.noSlash (by simp [e])
        simpa using this
  unfold path_Clean
  rw [if_neg hj]
  simp only [hr, decide_False, Bool.false_eq_true, if_false]
  rw [splitSlash_joinSlash hne (fun s hs => (h s hs).noSlash), cleanSegs_ordinary _ _ h, if_neg hne]

/-! ## The last element of a path -/

theorem lastSlash_noSlash {f : Str} (h : '/' ∉ f) : lastSlash f = none := by
  induction f with
  | nil => rfl
  | cons c cs ih =>
    have hc : c ≠ '/' := fun e => h (by simp [e])
    have hcs : '/' ∉ cs := fun e => h (by simp [e])
    simp [lastSlash, ih hcs, hc]

theorem lastSlash_append_slash (x : Str) {f : Str} (h : '/' ∉ f) :
    lastSlash (x ++ '/' :: f) = some x.length := by
  induction x with
  | nil => simp [lastSlash, lastSlash_noSlash h]
  | cons c cs ih => simp [lastSlash, ih]

theorem path_Split_noSlash {f : Str} (h : '/' ∉ f) : path_Split f = ([], f) := by
  simp [path_Split, lastSlash_noSlash h]

theorem path_Split_append_slash (x : Str) {f : Str} (h : '/' ∉ f) :
    path_Split (x ++ '/' :: f) = (x ++ ['/'], f) := by
  simp only [path_Split, lastSlash_append_slash x h]
  have e : x ++ '/' :: f = (x ++ ['/']) ++ f := by simp
  have l : (x ++ ['/']).length = x.length + 1 := by simp
  rw [e, ← l, List.take_left', List.drop_left']
  · rfl
  · rfl

theorem splitSlash_replicate (k : Nat) :
    splitSlash (List.replicate k '/') = List.replicate (k + 1) [] := by
  induction k with
  | zero => rfl
  | succ k ih => rw [List.replicate_succ, splitSlash_cons_slash, ih]; rfl

theorem splitSlash_append_slashes (q : Str) (k : Nat) :
    splitSlash (q ++ List.replicate k '/') = splitSlash q ++ List.replicate k [] := by
  cases k with
  | zero => simp
  | succ k =>
    rw [List.replicate_succ, splitSlash_append_slash, splitSlash_replicate]

theorem strip_append_slashes (q : Str) (k : Nat) (h : q.getLast? ≠ some '/') :
    stripTrailingSlashes (q ++ List.replicate k '/') = q := by
  unfold stripTrailingSlashes
  rw [List.reverse_append, List.reverse_replicate]
  have h1 : ∀ (l : Str), (List.replicate k '/' ++ l).dropWhile (fun c => decide (c = '/'))
      = l.dropWhile (fun c => decide (c = '/')) := by
    intro l
    induction k with
    | zero => rfl
    | succ k ih => simp [List.replicate_succ, List.dropWhile_cons, ih]
  rw [h1]
  have h2 : q.reverse.dropWhile (fun c => decide (c = '/')) = q.reverse := by
    cases hq : q.reverse with
    | nil => rfl
    | cons c cs =>
      have : q.getLast? = some c := by
        rw [List.getLast?_eq_head?_reverse, hq]; rfl
      have hc : c ≠ '/' := fun e => h (by rw [this, e])
      simp [List.dropWhile_cons, hc]
  rw [h2, List.reverse_reverse]

/-- Every path is a directory part (empty or ending in `/`), a last element
and trailing slashes; the last element is empty only in a path of slashes. -/
theorem path_decomp (p : Str) :
    ∃ d b k, p = d ++ b ++ List.replicate k '/' ∧ '/' ∉ b ∧
      (d = [] ∨ ∃ x, d = x ++ ['/']) ∧ (b = [] → d = []) := by
  induction p using List.reverseRecOn with
  | nil => exact ⟨[], [], 0, rfl, by simp, Or.inl rfl, fun _ => rfl⟩
  | append_singleton p c ih =>
    obtain ⟨d, b, k, hp, hb, hd, hbd⟩ := ih
    by_cases hc : c = '/'
    · subst hc
      refine ⟨d, b, k + 1, ?_, hb, hd, hbd⟩
      rw [hp, List.replicate_succ', ← List.append_assoc]
    · cases k with
      | zero =>
        refine ⟨d, b ++ [c], 0, ?_, ?_, hd, ?_⟩
        · simp [hp]
        · simp [hb, Ne.symm hc]
        · simp
      | succ k =>
        refine ⟨p, [c], 0, by simp, by simp [Ne.symm hc], Or.inr ⟨d ++ b ++ List.replicate k '/', ?_⟩,
          by simp⟩
        rw [hp, List.replicate_succ', ← List.append_assoc]

theorem getLast?_append_ne_slash (d : Str) {b : Str} (hb : '/' ∉ b) (hne : b ≠ []) :
    (d ++ b).getLast? ≠ some '/' := by
  rw [List.getLast?_append_of_ne_nil _ hne]
  intro h
  exact hb (List.mem_of_getLast?_eq_some h)

theorem path_Split_decomp {d b : Str} (hb : '/' ∉ b) (hd : d = [] ∨ ∃ x, d = x ++ ['/']) :
    path_Split (d ++ b) = (d, b) := by
  rcases hd with rfl | ⟨x, rfl⟩
  · simpa using path_Split_noSlash hb
  · simpa using path_Split_append_slash x hb

theorem splitSlash_dir {d : Str} (hd : d = [] ∨ ∃ x, d = x ++ ['/']) :
    ∃ pre, (∀ b, '/' ∉ b → splitSlash (d ++ b) = pre ++ [b]) ∧
      (d ≠ [] → splitSlash d = pre ++ [[]]) ∧ (d = [] → pre = []) ∧ (∀ s ∈ pre, '/' ∉ s) := by
  rcases hd with rfl | ⟨x, rfl⟩
  · exact ⟨[], fun b hb => by simpa using splitSlash_noSlash hb, fun h => absurd rfl h,
      fun _ => rfl, by simp⟩
  · refine ⟨splitSlash x, fun b hb => ?_, fun _ => ?_, fun h => absurd h (by simp),
      mem_splitSlash_noSlash x⟩
    · rw [List.append_assoc, List.singleton_append, splitSlash_append_slash, splitSlash_noSlash hb]
    · have := splitSlash_append_slash x []
      simpa [splitSlash] using this

theorem path_Base_decomp {d b : Str} (k : Nat) (hb : '/' ∉ b) (hne : b ≠ [])
    (hd : d = [] ∨ ∃ x, d = x ++ ['/']) :
    path_Base (d ++ b ++ List.replicate k '/') = b := by
  unfold path_Base
  have h0 : d ++ b ++ List.replicate k '/' ≠ [] := by simp [hne]
  rw [if_neg h0]
  simp only [strip_append_slashes _ k (getLast?_append_ne_slash d hb hne), path_Split_decomp hb hd,
    if_neg hne]

theorem path_Split_trailing (q : Str) (k : Nat) :
    path_Split (q ++ List.replicate (k + 1) '/') = (q ++ List.replicate (k + 1) '/', []) := by
  have e : q ++ List.replicate (k + 1) '/' = (q ++ List.replicate k '/') ++ '/' :: [] := by
    rw [List.replicate_succ']; simp
  rw [e]
  have := path_Split_append_slash (q ++ List.replicate k '/') (f := []) (by simp)
  simpa using this

/-! ## The shape of a cleaned path -/

theorem ordinary_of_word {b : Str} (hb : '/' ∉ b) (hw : StartsWithWord b) : Ordinary b := by
  obtain ⟨c, cs, rfl, hc⟩ := hw
  refine ⟨by simp, hb, ?_, ?_⟩
  · intro h
    injection h with h1 _
    subst h1
    exact absurd hc (by decide)
  · intro h
    unfold dotdot at h
    injection h with h1 _
    subst h1
    exact absurd hc (by decide)

theorem startsWithWord_of_legal {p : Str} (hne : p ≠ []) (h : hasIllegalPath p = false) :
    StartsWithWord p := by
  cases p with
  | nil => exact absurd rfl hne
  | cons c cs => exact ⟨c, cs, rfl, by simpa [hasIllegalPath] using h⟩

theorem cleanStep_shape (stk : List Str) (seg : Str) (hseg : '/' ∉ seg)
    (h : ∃ ords k, stk = ords ++ List.replicate k dotdot ∧ ∀ s ∈ ords, Ordinary s) :
    ∃ ords k, cleanStep false stk seg = ords ++ List.replicate k dotdot ∧ ∀ s ∈ ords, Ordinary s := by
  obtain ⟨ords, k, rfl, ho⟩ := h
  by_cases h1 : seg = [] ∨ seg = ['.']
  · exact ⟨ords, k, by simp [cleanStep, h1], ho⟩
  · by_cases h2 : seg = dotdot
    · subst h2
      cases ords with
      | nil =>
        refine ⟨[], k + 1, ?_, by simp⟩
        cases k with
        | zero => simp [cleanStep, dotdot]
        | succ k => simp [cleanStep, dotdot, List.replicate_succ]
      | cons o os =>
        refine ⟨os, k, ?_, fun s hs => ho s (by simp [hs])⟩
        have : o ≠ dotdot := (ho o (by simp)).2.2.2
        simp [cleanStep, dotdot] at this ⊢
        simp [this]
    · push_neg at h1
      have hord : Ordinary seg := ⟨h1.1, hseg, h1.2, h2⟩
      refine ⟨seg :: ords, k, ?_, ?_⟩
      · rw [cleanStep_ordinary _ _ hord]; rfl
      · intro s hs
        rcases List.mem_cons.1 hs with rfl | hs
        · exact hord
        · exact ho s hs

theorem foldl_cleanStep_shape (segs : List Str) (hsegs : ∀ s ∈ segs, '/' ∉ s) (stk : List Str)
    (h : ∃ ords k, stk = ords ++ List.replicate k dotdot ∧ ∀ s ∈ ords, Ordinary s) :
    ∃ ords k, segs.foldl (cleanStep false) stk = ords ++ List.replicate k dotdot ∧
      ∀ s ∈ ords, Ordinary s := by
  induction segs generalizing stk with
  | nil => exact h
  | cons s ss ih =>
    rw [List.foldl_cons]
    exact ih (fun x hx => hsegs x (by simp [hx])) _
      (cleanStep_shape stk s (hsegs s (by simp)) h)

/-- A cleaned relative path is some `..` elements followed by ordinary ones. -/
theorem cleanSegs_shape (segs : List Str) (hsegs : ∀ s ∈ segs, '/' ∉ s) :
    ∃ k ords, cleanSegs false segs = List.replicate k dotdot ++ ords ∧ ∀ s ∈ ords, Ordinary s := by
  obtain ⟨ords, k, h, ho⟩ := foldl_cleanStep_shape segs hsegs [] ⟨[], 0, rfl, by simp⟩
  refine ⟨k, ords.reverse, ?_, fun s hs => ho s (List.mem_reverse.1 hs)⟩
  simp [cleanSegs, h]

theorem joinSlash_dotdot_illegal (l : List Str) :
    joinSlash (dotdot :: l) ≠ ['.'] ∧ hasIllegalPath (joinSlash (dotdot :: l)) = true := by
  cases l with
  | nil => exact ⟨by decide, by decide⟩
  | cons a as =>
    rw [joinSlash_cons_cons]
    exact ⟨by simp [dotdot], by simp [dotdot, hasIllegalPath, isWordChar]⟩

/-- The elements of a cleaned relative path that is `.` or starts with a word
character are all ordinary. -/
theorem cleanSegs_legal (segs : List Str) (hsegs : ∀ s ∈ segs, '/' ∉ s)
    (h : cleanSegs false segs ≠ [] →
      joinSlash (cleanSegs false segs) = ['.'] ∨
        hasIllegalPath (joinSlash (cleanSegs false segs)) = false) :
    ∀ s ∈ cleanSegs false segs, Ordinary s := by
  obtain ⟨k, ords, he, ho⟩ := cleanSegs_shape segs hsegs
  cases k with
  | zero => simpa [he] using ho
  | succ k =>
    exfalso
    rw [he, List.replicate_succ, List.cons_append] at h
    have := joinSlash_dotdot_illegal (List.replicate k dotdot ++ ords)
    rcases h (by simp) with h | h
    · exact this.1 h
    · rw [this.2] at h; exact absurd h (by simp)

/-! ## What the name checks of the write path leave -/

theorem StartsWithWord.append {x : Str} (h : StartsWithWord x) (y : Str) :
    StartsWithWord (x ++ y) := by
  obtain ⟨c, cs, rfl, hc⟩ := h
  exact ⟨c, cs ++ y, rfl, hc⟩

theorem StartsWithWord.not_rooted {p : Str} (h : StartsWithWord p) :
    decide (p.head? = some '/') = false := by
  obtain ⟨c, cs, rfl, hc⟩ := h
  have : c ≠ '/' := by
    rintro rfl
    exact absurd hc (by decide)
  simpa using this

theorem path_Clean_relative {p : Str} (h : StartsWithWord p) :
    path_Clean p = if cleanSegs false (splitSlash p) = [] then ['.']
      else joinSlash (cleanSegs false (splitSlash p)) := by
  have hne : p ≠ [] := by
    obtain ⟨c, cs, rfl, _⟩ := h
    simp
  unfold path_Clean
  rw [if_neg hne]
  simp only [h.not_rooted, Bool.false_eq_true, if_false]

theorem joinSlash_ne_dot {l : List Str} (hne : l ≠ []) (h : ∀ s ∈ l, Ordinary s) :
    joinSlash l ≠ ['.'] := by
  intro e
  have h1 := splitSlash_joinSlash hne (fun s hs => (h s hs).noSlash)
  rw [e] at h1
  have h2 : (['.'] : Str) ∈ l := by
    rw [← h1]; simp [splitSlash]
  exact (h _ h2).2.2.1 rfl

theorem cleanSegs_append_last (pre : List Str) {b : Str} (hb : Ordinary b) (k : Nat) :
    cleanSegs false (pre ++ [b] ++ List.replicate k []) = cleanSegs false pre ++ [b] := by
  simp [cleanSegs, List.foldl_append, foldl_cleanStep_replicate_nil, cleanStep_ordinary _ _ hb]

theorem cleanSegs_append_empty (pre : List Str) :
    cleanSegs false (pre ++ [[]]) = cleanSegs false pre := by
  simp [cleanSegs, List.foldl_append, cleanStep_nil]

/-- The pure core of C9: a name that starts with a word character, whose base
name starts with a word character and whose `path.Dir` is `.` or starts with a
word character, cleans to a non-empty sequence of ordinary elements that
starts with a word character. -/
theorem clean_of_checks (p : Str) (hp : hasIllegalPath p = false)
    (hb : hasIllegalPath (path_Base p) = false)
    (hd : path_Dir p = ['.'] ∨ hasIllegalPath (path_Dir p) = false) :
    ∃ segs, segs ≠ [] ∧ (∀ s ∈ segs, Ordinary s) ∧ path_Clean p = joinSlash segs ∧
      StartsWithWord (path_Clean p) := by
  have hpne : p ≠ [] := by
    rintro rfl
    exact absurd hb (by decide)
  have hpw : StartsWithWord p := startsWithWord_of_legal hpne hp
  obtain ⟨d, b, k, rfl, hbs, hdd, hbd⟩ := path_decomp p
  have hbne : b ≠ [] := by
    intro h
    have hd0 := hbd h
    subst h; subst hd0
    obtain ⟨c, cs, he, hc⟩ := hpw
    cases k with
    | zero => simp at he
    | succ k =>
      simp only [List.append_nil, List.nil_append, List.replicate_succ, List.cons.injEq] at he
      rw [← he.1] at hc
      exact absurd hc (by decide)
  have hbase : path_Base (d ++ b ++ List.replicate k '/') = b := path_Base_decomp k hbs hbne hdd
  rw [hbase] at hb
  have hbw : StartsWithWord b := startsWithWord_of_legal hbne hb
  have hbo : Ordinary b := ordinary_of_word hbs hbw
  obtain ⟨pre, hpre1, hpre2, hpre3, hpre4⟩ := splitSlash_dir hdd
  have hsplit : splitSlash (d ++ b ++ List.replicate k '/') = pre ++ [b] ++ List.replicate k [] := by
    rw [splitSlash_append_slashes, hpre1 b hbs]
  have hout : cleanSegs false (splitSlash (d ++ b ++ List.replicate k '/'))
      = cleanSegs false pre ++ [b] := by
    rw [hsplit, cleanSegs_append_last pre hbo]
  have hclean : path_Clean (d ++ b ++ List.replicate k '/') = joinSlash (cleanSegs false pre ++ [b]) := by
    rw [path_Clean_relative hpw, hout, if_neg (by simp)]
  cases k with
  | succ k =>
    have hdir : path_Dir (d ++ b ++ List.replicate (k + 1) '/')
        = path_Clean (d ++ b ++ List.replicate (k + 1) '/') := by
      unfold path_Dir
      rw [path_Split_trailing]
    rw [hdir, hclean] at hd
    have hall : ∀ s ∈ cleanSegs false (pre ++ [b] ++ List.replicate (k + 1) []), Ordinary s := by
      apply cleanSegs_legal
      · intro s hs
        rw [← hsplit] at hs
        exact mem_splitSlash_noSlash _ s hs
      · intro _
        rw [cleanSegs_append_last pre hbo]
        exact hd
    rw [cleanSegs_append_last pre hbo] at hall
    refine ⟨cleanSegs false pre ++ [b], by simp, hall, hclean, ?_⟩
    rw [hclean]
    rcases hd with hd | hd
    · exact absurd hd (joinSlash_ne_dot (by simp) hall)
    · exact startsWithWord_of_legal (joinSlash_ne_nil (by simp) (fun s hs => (hall s hs).ne_nil)) hd
  | zero =>
    have hdir : path_Dir (d ++ b ++ List.replicate 0 '/') = path_Clean d := by
      unfold path_Dir
      simp only [List.replicate_zero, List.append_nil]
      rw [path_Split_decomp hbs hdd]
    rw [hdir] at hd
    by_cases hd0 : d = []
    · have hpre0 := hpre3 hd0
      subst hpre0
      refine ⟨[b], by simp, by simpa using hbo, by simpa [cleanSegs] using hclean, ?_⟩
      rw [hclean]
      simpa [cleanSegs, joinSlash] using hbw
    · have hdw : StartsWithWord d := by
        obtain ⟨c, cs, he, hc⟩ := hpw
        cases d with
        | nil => exact absurd rfl hd0
        | cons c' d' =>
          simp only [List.replicate_zero, List.append_nil, List.cons_append, List.cons.injEq] at he
          exact ⟨c', d', rfl, by rw [he.1]; exact hc⟩
      have hcd : path_Clean d = if cleanSegs false pre = [] then ['.']
          else joinSlash (cleanSegs false pre) := by
        rw [path_Clean_relative hdw, hpre2 hd0, cleanSegs_append_empty]
      have hall : ∀ s ∈ cleanSegs false pre, Ordinary s := by
        apply cleanSegs_legal pre hpre4
        intro hne
        rw [hcd, if_neg hne] at hd
        exact hd
      have hall2 : ∀ s ∈ cleanSegs false pre ++ [b], Ordinary s := by
        intro s hs
        rcases List.mem_append.1 hs with hs | hs
        · exact hall s hs
        · simp only [List.mem_singleton] at hs
          subst hs
          exact hbo
      refine ⟨cleanSegs false pre ++ [b], by simp, hall2, hclean, ?_⟩
      rw [hclean]
      by_cases hD : cleanSegs false pre = []
      · rw [hD]
        simpa [joinSlash] using hbw
      · rw [joinSlash_append_cons _ _ hD]
        apply StartsWithWord.append
        rw [hcd, if_neg hD] at hd
        rcases hd with hd | hd
        · exact absurd hd (joinSlash_ne_dot hD hall)
        · exact startsWithWord_of_legal (joinSlash_ne_nil hD (fun s hs => (hall s hs).ne_nil)) hd

/-! ## Names whose cleaned form starts with `..` -/

theorem hasIllegalPath_of_dotdot {x : Str} (h : dotdot <+: x) : hasIllegalPath x = true := by
  obtain ⟨t, rfl⟩ := h
  simp [dotdot, hasIllegalPath, isWordChar]

theorem hasIllegalPath_head {x y : Str} (h : x.head? = y.head?) :
    hasIllegalPath x = hasIllegalPath y := by
  cases x <;> cases y <;> simp_all [hasIllegalPath]

theorem path_Clean_unrooted {p : Str} (hne : p ≠ []) (hr : p.head? ≠ some '/') :
    path_Clean p = if cleanSegs false (splitSlash p) = [] then ['.']
      else joinSlash (cleanSegs false (splitSlash p)) := by
  unfold path_Clean
  rw [if_neg hne]
  simp [hr]

theorem path_Clean_rooted {p : Str} (hr : p.head? = some '/') :
    path_Clean p = '/' :: joinSlash (cleanSegs true (splitSlash p)) := by
  have hne : p ≠ [] := by
    rintro rfl
    simp at hr
  unfold path_Clean
  rw [if_neg hne]
  simp [hr]

/-- One more element after elements that clean to ordinary ones: the cleaned
path is empty or still starts with the same element. -/
theorem cleanStep_keeps_head {stk : List Str} {a : Str} {l : List Str}
    (hstk : stk.reverse = a :: l) (hord : ∀ s ∈ stk, Ordinary s) (b : Str) :
    (cleanStep false stk b).reverse = [] ∨ ∃ m, (cleanStep false stk b).reverse = a :: m := by
  by_cases h1 : b = [] ∨ b = ['.']
  · right
    exact ⟨l, by simp [cleanStep, h1, hstk]⟩
  · by_cases h2 : b = dotdot
    · subst h2
      cases stk with
      | nil => simp at hstk
      | cons top r =>
        have htop : top ≠ dotdot := (hord top (by simp)).2.2.2
        have e : cleanStep false (top :: r) dotdot = r := by
          simp [cleanStep, dotdot] at htop ⊢
          simp [htop]
        rw [e]
        cases hr : r.reverse with
        | nil => exact Or.inl rfl
        | cons x xs =>
          right
          rw [List.reverse_cons, hr, List.cons_append] at hstk
          injection hstk with hx _
          exact ⟨xs, by rw [hx]⟩
    · right
      refine ⟨l ++ [b], ?_⟩
      have e : cleanStep false stk b = b :: stk := by
        simp only [cleanStep, if_neg h1, if_neg h2]
      rw [e, List.reverse_cons, hstk, List.cons_append]

/-- A name whose cleaned form starts with `..` has a `path.Dir` that is `.` or
starts with a character that is not a word character. -/
theorem dir_illegal_of_dotdot (p : Str) (h : dotdot <+: path_Clean p) (hd : path_Dir p ≠ ['.']) :
    hasIllegalPath (path_Dir p) = true := by
  obtain ⟨d, b, k, rfl, hbs, hdd, hbd⟩ := path_decomp p
  cases k with
  | succ k =>
    have hdir : path_Dir (d ++ b ++ List.replicate (k + 1) '/')
        = path_Clean (d ++ b ++ List.replicate (k + 1) '/') := by
      unfold path_Dir
      rw [path_Split_trailing]
    rw [hdir]
    exact hasIllegalPath_of_dotdot h
  | zero =>
    simp only [List.replicate_zero, List.append_nil] at h hd ⊢
    have hdir : path_Dir (d ++ b) = path_Clean d := by
      unfold path_Dir
      rw [path_Split_decomp hbs hdd]
    rw [hdir] at hd ⊢
    by_cases hd0 : d = []
    · subst hd0
      exact absurd (by rfl) hd
    by_cases hr : d.head? = some '/'
    · rw [path_Clean_rooted hr]
      rfl
    · obtain ⟨pre, hpre1, hpre2, _, hpre4⟩ := splitSlash_dir hdd
      have hcd : path_Clean d = if cleanSegs false pre = [] then ['.']
          else joinSlash (cleanSegs false pre) := by
        rw [path_Clean_unrooted hd0 hr, hpre2 hd0, cleanSegs_append_empty]
      obtain ⟨j, ords, he, ho⟩ := cleanSegs_shape pre hpre4
      by_cases hcs : cleanSegs false pre = []
      · rw [hcd, if_pos hcs] at hd
        exact absurd rfl hd
      rw [hcd, if_neg hcs]
      cases j with
      | succ j =>
        rw [he, List.replicate_succ, List.cons_append]
        exact (joinSlash_dotdot_illegal _).2
      | zero =>
        simp only [List.replicate_zero, List.nil_append] at he
        obtain ⟨a, rest, hords⟩ := List.exists_cons_of_ne_nil (he ▸ hcs)
        subst hords
        have hpne : d ++ b ≠ [] := by simp [hd0]
        have hpr : (d ++ b).head? ≠ some '/' := by
          cases d with
          | nil => exact absurd rfl hd0
          | cons c cs => simpa using hr
        rw [path_Clean_unrooted hpne hpr, hpre1 b hbs] at h
        have hfold : (pre.foldl (cleanStep false) []).reverse = a :: rest := he
        have hord : ∀ s ∈ pre.foldl (cleanStep false) [], Ordinary s := by
          intro s hs
          apply ho s
          rw [← hfold]
          exact List.mem_reverse.2 hs
        have hsegs : cleanSegs false (pre ++ [b])
            = (cleanStep false (pre.foldl (cleanStep false) []) b).reverse := by
          simp [cleanSegs, List.foldl_append]
        rw [hsegs] at h
        have ha : a ≠ [] := (ho a (by simp)).ne_nil
        rcases cleanStep_keeps_head hfold hord b with h0 | ⟨m, hm⟩
        · rw [if_pos h0] at h
          exact absurd h (by decide)
        · rw [hm, if_neg (by simp)] at h
          rw [he, hasIllegalPath_head ((joinSlash_head a rest ha).trans (joinSlash_head a m ha).symm)]
          exact hasIllegalPath_of_dotdot h

/-! ## Resolved paths under a clean absolute root -/

theorem GetFullPath_ok {fm : FM} {p full : Str} (h : GetFullPath fm p = .ok full) :
    (p = ['.'] ∨ hasIllegalPath p = false) ∧ full = filepath_Join1 (fm.pathBase ++ path_Clean p) := by
  unfold GetFullPath at h
  split at h
  · exact absurd h (by simp)
  · rename_i hc
    injection h with h
    refine ⟨?_, h.symm⟩
    by_cases hp : p = ['.']
    · exact Or.inl hp
    · right
      simpa [hp] using hc

theorem GetFullPath_of_legal (fm : FM) {p : Str} (h : p = ['.'] ∨ hasIllegalPath p = false) :
    GetFullPath fm p = .ok (filepath_Join1 (fm.pathBase ++ path_Clean p)) := by
  unfold GetFullPath
  rcases h with rfl | h
  · simp
  · simp [h]

theorem GetFullNotePath_ok {fm : FM} {p phys : Str} (h : GetFullNotePath fm p = .ok phys) :
    hasIllegalPath (path_Base p) = false ∧
      ∃ full, GetFullPath fm p = .ok full ∧ phys = full ++ mdSuffix := by
  unfold GetFullNotePath at h
  split at h
  · exact absurd h (by simp)
  · rename_i hc
    refine ⟨by simpa using hc, ?_⟩
    cases hg : GetFullPath fm p with
    | error e => rw [hg] at h; exact absurd h (by simp [Except.map])
    | ok full =>
      rw [hg] at h
      simp only [Except.map, Except.ok.injEq] at h
      exact ⟨full, rfl, h.symm⟩

theorem filepath_Join1_root (rs : List Str) (hrs : ∀ r ∈ rs, Ordinary r) {segs : List Str}
    (hne : segs ≠ []) (h : ∀ s ∈ segs, Ordinary s) :
    filepath_Join1 (rootOf rs ++ joinSlash segs) = '/' :: joinSlash (rs ++ segs) := by
  rw [rootOf_append_join rs hne]
  have hall : ∀ s ∈ rs ++ segs, Ordinary s := by
    intro s hs
    rcases List.mem_append.1 hs with hs | hs
    · exact hrs s hs
    · exact h s hs
  simp [filepath_Join1, path_Clean_slash_join _ hall]

/-- A logical path of ordinary elements that starts with a word character is
resolved to the root followed by it. -/
theorem GetFullPath_join (rs : List Str) (hrs : ∀ r ∈ rs, Ordinary r) {names : List Str}
    (hne : names ≠ []) (h : ∀ s ∈ names, Ordinary s)
    (hw : hasIllegalPath (joinSlash names) = false) :
    GetFullPath (NewFM (rootOf rs)) (joinSlash names) = .ok ('/' :: joinSlash (rs ++ names)) := by
  rw [GetFullPath_of_legal _ (Or.inr hw), path_Clean_join hne h]
  simp only [NewFM]
  rw [filepath_Join1_root rs hrs hne h]

/-- The logical path `.` is resolved to the root without its trailing slash. -/
theorem GetFullPath_dot (rs : List Str) (hrs : ∀ r ∈ rs, Ordinary r) :
    GetFullPath (NewFM (rootOf rs)) ['.'] = .ok ('/' :: joinSlash rs) := by
  rw [GetFullPath_of_legal _ (Or.inl rfl)]
  have h1 : path_Clean ['.'] = ['.'] := by rfl
  have h2 : rootOf rs ++ ['.'] = '/' :: joinSlash (rs ++ [['.']]) := by
    have := @rootOf_append_join rs [['.']] (by simp)
    simpa [joinSlash] using this
  simp only [NewFM, h1, h2, filepath_Join1]
  rw [if_neg (by simp)]
  have hsplit : splitSlash ('/' :: joinSlash (rs ++ [['.']])) = [] :: (rs ++ [['.']]) := by
    rw [splitSlash_cons_slash, splitSlash_joinSlash (by simp)]
    intro s hs
    rcases List.mem_append.1 hs with hs | hs
    · exact (hrs s hs).noSlash
    · simp only [List.mem_singleton] at hs
      subst hs
      decide
  have hcs : cleanSegs true ([] :: (rs ++ [['.']])) = rs := by
    simp [cleanSegs, List.foldl_append, cleanStep_nil, cleanStep_dot,
      foldl_cleanStep_ordinary true rs hrs]
  simp [path_Clean, hsplit, hcs]

theorem Ordinary.append_md {s : Str} (h : Ordinary s) : Ordinary (s ++ mdSuffix) := by
  obtain ⟨h1, h2, _, _⟩ := h
  refine ⟨by simp [h1], ?_, ?_, ?_⟩
  · simp [mdSuffix, h2]
  · intro e
    have := congrArg List.length e
    simp [mdSuffix] at this
  · intro e
    have := congrArg List.length e
    simp [mdSuffix, dotdot] at this

theorem joinSlash_append_last (l : List Str) (s t : Str) :
    joinSlash (l ++ [s]) ++ t = joinSlash (l ++ [s ++ t]) := by
  by_cases hl : l = []
  · subst hl; simp [joinSlash]
  · rw [joinSlash_append_cons _ _ hl, joinSlash_append_cons _ _ hl]
    simp [joinSlash]

/-- The note path of a name that passes the checks: the root, then ordinary
elements, the last of them ending in `.md`. -/
theorem note_path_of_checks (rs : List Str) (hrs : ∀ r ∈ rs, Ordinary r) (p : Str)
    {dfull phys : Str}
    (hd : GetFullPath (NewFM (rootOf rs)) (path_Dir p) = .ok dfull)
    (hn : GetFullNotePath (NewFM (rootOf rs)) p = .ok phys) :
    ∃ segs, segs ≠ [] ∧ (∀ s ∈ segs, Ordinary s) ∧ phys = rootOf rs ++ joinSlash segs ∧
      phys = '/' :: joinSlash (rs ++ segs) ∧ StartsWithWord (path_Clean p) := by
  obtain ⟨hb, full, hfull, rfl⟩ := GetFullNotePath_ok hn
  obtain ⟨hp, rfl⟩ := GetFullPath_ok hfull
  have hp1 : hasIllegalPath p = false := by
    rcases hp with rfl | hp
    · exact absurd hb (by decide)
    · exact hp
  obtain ⟨segs, hne, hord, hclean, hw⟩ := clean_of_checks p hp1 hb (GetFullPath_ok hd).1
  obtain ⟨l, s, rfl⟩ : ∃ l s, segs = l ++ [s] :=
    ⟨segs.dropLast, segs.getLast hne, (List.dropLast_append_getLast hne).symm⟩
  have hord2 : ∀ x ∈ l ++ [s ++ mdSuffix], Ordinary x := by
    intro x hx
    rcases List.mem_append.1 hx with hx | hx
    · exact hord x (by simp [hx])
    · simp only [List.mem_singleton] at hx
      subst hx
      exact (hord s (by simp)).append_md
  have e1 : filepath_Join1 ((NewFM (rootOf rs)).pathBase ++ path_Clean p) ++ mdSuffix
      = '/' :: joinSlash (rs ++ (l ++ [s ++ mdSuffix])) := by
    simp only [NewFM, hclean]
    rw [filepath_Join1_root rs hrs hne hord, ← List.append_assoc, List.cons_append,
      joinSlash_append_last, List.append_assoc]
  refine ⟨l ++ [s ++ mdSuffix], by simp, hord2, ?_, e1, hw⟩
  rw [e1, rootOf_append_join rs (by simp)]

theorem OpenFile_ok {fm : FM} {p : Str} {fs fs' : Entries} {fp : File}
    (h : OpenFile fm p fs = (.ok fp, fs')) :
    ∃ dfull fs1 phys, GetFullPath fm (path_Dir p) = .ok dfull ∧
      os_MkdirAll fs dfull = .ok fs1 ∧ GetFullNotePath fm p = .ok phys ∧
      os_OpenFile fs1 phys = .ok (fp, fs') := by
  unfold OpenFile MkdirAll at h
  cases hd : GetFullPath fm (path_Dir p) with
  | error e => simp [hd] at h
  | ok dfull =>
    cases hm : os_MkdirAll fs dfull with
    | error e => simp [hd, hm] at h
    | ok fs1 =>
      cases hn : GetFullNotePath fm p with
      | error e => simp [hd, hm, hn] at h
      | ok phys =>
        cases ho : os_OpenFile fs1 phys with
        | error e => simp [hd, hm, hn, ho] at h
        | ok r =>
          obtain ⟨fp', fs2⟩ := r
          simp only [hd, hm, hn, ho, Prod.mk.injEq, Except.ok.injEq] at h
          obtain ⟨rfl, rfl⟩ := h
          exact ⟨dfull, fs1, phys, rfl, hm, rfl, ho⟩

theorem os_OpenFile_segs {fs fs' : Entries} {name : Str} {fp : File}
    (h : os_OpenFile fs name = .ok (fp, fs')) :
    fp.segs = osPath name ∧ appendAt [] true fs (osPath name) = .ok fs' := by
  unfold os_OpenFile at h
  split at h
  · rename_i fs2 he
    simp only [Except.ok.injEq, Prod.mk.injEq] at h
    obtain ⟨rfl, rfl⟩ := h
    exact ⟨rfl, he⟩
  · exact absurd h (by simp)

/-- The name checks of the write path, for the root with the ordinary elements
`rs`. -/
theorem write_path_inside_rootOf (rs : List Str) (hrs : ∀ r ∈ rs, Ordinary r) (p : Str) :
    (∀ dfull phys, GetFullPath (NewFM (rootOf rs)) (path_Dir p) = .ok dfull →
        GetFullNotePath (NewFM (rootOf rs)) p = .ok phys →
        ∃ segs, segs ≠ [] ∧ (∀ s ∈ segs, Ordinary s) ∧ phys = rootOf rs ++ joinSlash segs) ∧
    (∀ fs fp fs', OpenFile (NewFM (rootOf rs)) p fs = (.ok fp, fs') →
        ∃ segs, segs ≠ [] ∧ (∀ s ∈ segs, Ordinary s) ∧ fp.segs = rs ++ segs) ∧
    (∀ phys, GetFullNotePath (NewFM (rootOf rs)) p = .ok phys → dotdot <+: path_Clean p →
        GetFullPath (NewFM (rootOf rs)) (path_Dir p) = .error .invalidName ∧
        ∀ fs, OpenFile (NewFM (rootOf rs)) p fs = (.error .invalidName, fs)) ∧
    ((∃ phys, GetFullNotePath (NewFM (rootOf rs)) "a/../../etc/passwd".toList = .ok phys) ∧
      ∀ fs, OpenFile (NewFM (rootOf rs)) "a/../../etc/passwd".toList fs
        = (.error .invalidName, fs)) := by
  refine ⟨?_, ?_, ?_, ?_, ?_⟩
  · intro dfull phys hd hn
    obtain ⟨segs, h1, h2, h3, _⟩ := note_path_of_checks rs hrs p hd hn
    exact ⟨segs, h1, h2, h3⟩
  · intro fs fp fs' h
    obtain ⟨dfull, fs1, phys, hd, _, hn, ho⟩ := OpenFile_ok h
    obtain ⟨segs, h1, h2, _, h4, _⟩ := note_path_of_checks rs hrs p hd hn
    refine ⟨segs, h1, h2, ?_⟩
    rw [(os_OpenFile_segs ho).1, h4, osPath_slash_join]
    intro s hs
    rcases List.mem_append.1 hs with hs | hs
    · exact hrs s hs
    · exact h2 s hs
  · intro phys hn hdd
    have hfail : GetFullPath (NewFM (rootOf rs)) (path_Dir p) = .error .invalidName := by
      cases hd : GetFullPath (NewFM (rootOf rs)) (path_Dir p) with
      | error e => rw [GetFullPath_error hd]
      | ok dfull =>
        exfalso
        obtain ⟨_, _, _, _, _, c, cs, hc, hw⟩ := note_path_of_checks rs hrs p hd hn
        rw [hc] at hdd
        obtain ⟨t, ht⟩ := hdd
        simp only [dotdot, List.cons_append, List.cons.injEq] at ht
        rw [← ht.1] at hw
        exact absurd hw (by decide)
    exact ⟨hfail, fun fs => by simp [OpenFile, MkdirAll, hfail]⟩
  · have hb : hasIllegalPath (path_Base "a/../../etc/passwd".toList) = false := by decide
    have hg := GetFullPath_of_legal (NewFM (rootOf rs)) (p := "a/../../etc/passwd".toList)
      (Or.inr (by decide))
    refine ⟨filepath_Join1 ((NewFM (rootOf rs)).pathBase ++ path_Clean "a/../../etc/passwd".toList)
      ++ ".md".toList, ?_⟩
    unfold GetFullNotePath
    rw [if_neg (by rw [hb]; simp), hg]
    rfl
  · intro fs
    have hd : path_Dir "a/../../etc/passwd".toList = "../etc".toList := by decide
    have hfail : GetFullPath (NewFM (rootOf rs)) "../etc".toList = .error .invalidName := by
      simp [GetFullPath, hasIllegalPath, isWordChar]
    unfold OpenFile MkdirAll
    simp only [hd, hfail]

theorem GetFullNotePath_error {fm : FM} {p : Str} {e : Failure}
    (h : GetFullNotePath fm p = .error e) : e = .invalidName := by
  unfold GetFullNotePath at h
  split at h
  · injection h with h; exact h.symm
  · cases hg : GetFullPath fm p with
    | error e1 =>
      rw [hg] at h
      simp only [Except.map, Except.error.injEq] at h
      rw [← h]
      exact GetFullPath_error hg
    | ok full =>
      rw [hg] at h
      exact absurd h (by simp [Except.map])

/-- The names whose cleaned form starts with `..`, for the root with the
ordinary elements `rs`: the check on `path.Dir(p)` refuses the name unless
`path.Dir(p)` is `.`; then the base-name check refuses it, after `MkdirAll` has
made the root directory. -/
theorem dotdot_refused_rootOf (rs : List Str) (hrs : ∀ r ∈ rs, Ordinary r) (p : Str)
    (hdd : dotdot <+: path_Clean p) :
    (GetFullPath (NewFM (rootOf rs)) (path_Dir p) = .error .invalidName ↔ path_Dir p ≠ ['.']) ∧
    (path_Dir p = ['.'] →
      GetFullNotePath (NewFM (rootOf rs)) p = .error .invalidName ∧
      ∀ fs, OpenFile (NewFM (rootOf rs)) p fs =
        match mkdirAllAt fs rs with
        | .ok fs1 => (.error .invalidName, fs1)
        | .error e => (.error e, fs)) ∧
    (∀ fs, ∃ e fs1, OpenFile (NewFM (rootOf rs)) p fs = (.error e, fs1)) := by
  have h1 : GetFullPath (NewFM (rootOf rs)) (path_Dir p) = .error .invalidName
      ↔ path_Dir p ≠ ['.'] := by
    constructor
    · intro h hdot
      rw [hdot, GetFullPath_dot rs hrs] at h
      exact absurd h (by simp)
    · intro hne
      unfold GetFullPath
      rw [if_pos ⟨hne, dir_illegal_of_dotdot p hdd hne⟩]
  have h2 : path_Dir p = ['.'] →
      GetFullNotePath (NewFM (rootOf rs)) p = .error .invalidName ∧
      ∀ fs, OpenFile (NewFM (rootOf rs)) p fs =
        match mkdirAllAt fs rs with
        | .ok fs1 => (.error .invalidName, fs1)
        | .error e => (.error e, fs) := by
    intro hdot
    have hn : GetFullNotePath (NewFM (rootOf rs)) p = .error .invalidName := by
      cases hn : GetFullNotePath (NewFM (rootOf rs)) p with
      | error e => rw [GetFullNotePath_error hn]
      | ok phys =>
        exfalso
        have := ((write_path_inside_rootOf rs hrs p).2.2.1 phys hn hdd).1
        rw [hdot, GetFullPath_dot rs hrs] at this
        exact absurd this (by simp)
    refine ⟨hn, fun fs => ?_⟩
    unfold OpenFile MkdirAll os_MkdirAll
    simp only [hdot, GetFullPath_dot rs hrs, osPath_slash_join rs hrs]
    cases hm : mkdirAllAt fs rs with
    | error e => rfl
    | ok fs1 => simp only [hn]
  refine ⟨h1, h2, fun fs => ?_⟩
  by_cases hdot : path_Dir p = ['.']
  · rw [(h2 hdot).2 fs]
    cases hm : mkdirAllAt fs rs with
    | error e => exact ⟨e, fs, rfl⟩
    | ok fs1 => exact ⟨.invalidName, fs1, rfl⟩
  · have hf := h1.2 hdot
    exact ⟨.invalidName, fs, by simp [OpenFile, MkdirAll, hf]⟩

/-! ## The three workers are one traversal -/

theorem notesLoop_eq_genLoop (worker : Str → Except Failure (List Str)) (bp : Str)
    (files : List FileInfo) (rp : List Str) :
    notesLoop worker bp files rp = genLoop true false worker bp files rp := by
  induction files generalizing rp with
  | nil => rfl
  | cons f fs ih =>
    unfold notesLoop genLoop
    by_cases hs : strings_HasSuffix f.name mdSuffix = true <;>
      by_cases hd : f.isDir = true <;>
      simp only [hs, hd, noteOf, if_true, if_false, List.append_nil, Bool.false_eq_true] <;>
      first
        | exact ih _
        | (cases worker (bp ++ f.name) with
           | error e => rfl
           | ok sub => exact ih _)

theorem allLoop_eq_genLoop (worker : Str → Except Failure (List Str)) (bp : Str)
    (files : List FileInfo) (rp : List Str) :
    allLoop worker bp files rp = genLoop true true worker bp files rp := by
  induction files generalizing rp with
  | nil => rfl
  | cons f fs ih =>
    unfold allLoop genLoop
    by_cases hs : strings_HasSuffix f.name mdSuffix = true <;>
      by_cases hd : f.isDir = true <;>
      simp only [hs, hd, noteOf, if_true, if_false, List.append_nil, Bool.false_eq_true] <;>
      first
        | exact ih _
        | (cases worker (bp ++ f.name) with
           | error e => rfl
           | ok sub => exact ih _)

theorem foldl_projects (files : List FileInfo) (acc : List Str) :
    files.foldl (fun f file => if file.isDir = true then f ++ [file.name] else f) acc
      = acc ++ (files.filter (fun file => file.isDir)).map (fun file => file.name) := by
  induction files generalizing acc with
  | nil => simp
  | cons f fs ih =>
    rw [List.foldl_cons, ih]
    by_cases hd : f.isDir = true <;> simp [hd]

theorem projectsLoop_eq_genLoop (worker : Str → Except Failure (List Str)) (bp : Str)
    (files : List FileInfo) (rp : List Str) :
    projectsLoop worker bp ((files.filter (fun file => file.isDir)).map (fun file => file.name)) rp
      = genLoop false true worker bp files rp := by
  induction files generalizing rp with
  | nil => rfl
  | cons f fs ih =>
    unfold genLoop
    by_cases hd : f.isDir = true
    · simp only [hd, List.filter_cons_of_pos, List.map_cons, projectsLoop, if_true,
        Bool.false_eq_true, if_false, List.append_nil]
      cases worker (bp ++ f.name) with
      | error e => rfl
      | ok sub => exact ih _
    · simp only [hd, List.filter_cons_of_neg, Bool.false_eq_true, if_false, List.append_nil,
        not_false_eq_true]
      exact ih _

theorem listAllNotesWorker_eq (fm : FM) (fs : Entries) (fuel : Nat) (d : Str) :
    listAllNotesWorker fm fs fuel d = genWorker true false fm fs fuel d := by
  induction fuel generalizing d with
  | zero => rfl
  | succ n ih =>
    unfold listAllNotesWorker genWorker
    have : (fun x => listAllNotesWorker fm fs n x) = fun x => genWorker true false fm fs n x :=
      funext ih
    simp only [this, notesLoop_eq_genLoop]

theorem listAllWorker_eq (fm : FM) (fs : Entries) (fuel : Nat) (d : Str) :
    listAllWorker fm fs fuel d = genWorker true true fm fs fuel d := by
  induction fuel generalizing d with
  | zero => rfl
  | succ n ih =>
    unfold listAllWorker genWorker
    have : (fun x => listAllWorker fm fs n x) = fun x => genWorker true true fm fs n x :=
      funext ih
    simp only [this, allLoop_eq_genLoop]

theorem listAllProjectsWorker_eq (fm : FM) (fs : Entries) (fuel : Nat) (d : Str) :
    listAllProjectsWorker fm fs fuel d = genWorker false true fm fs fuel d := by
  induction fuel generalizing d with
  | zero => rfl
  | succ n ih =>
    unfold listAllProjectsWorker genWorker ListProjects
    have : (fun x => listAllProjectsWorker fm fs n x) = fun x => genWorker false true fm fs n x :=
      funext ih
    rw [this]
    cases GetFullPath fm d with
    | error e => rfl
    | ok full =>
      dsimp only
      cases ioutil_ReadDir fs full with
      | error e => rfl
      | ok files =>
        dsimp only
        rw [foldl_projects, List.nil_append]
        exact projectsLoop_eq_genLoop _ _ _ _

/-! ## Trees -/

theorem isOrdinary_iff (s : Str) : isOrdinary s = true ↔ Ordinary s := by
  simp [isOrdinary, Ordinary, and_assoc]

theorem wf_file {n c : Str} {r : Entries} :
    (Entries.file n c r).wf = true ↔ Ordinary n ∧ n ∉ r.names ∧ r.wf = true := by
  simp [Entries.wf, isOrdinary_iff, and_assoc]

theorem wf_dir {n : Str} {c r : Entries} :
    (Entries.dir n c r).wf = true ↔ Ordinary n ∧ n ∉ r.names ∧ c.wf = true ∧ r.wf = true := by
  simp [Entries.wf, isOrdinary_iff, and_assoc]

theorem dirs_name_mem {t : Entries} {x : Str × Entries} (h : x ∈ t.dirs) : x.1 ∈ t.names := by
  induction t with
  | nil => simp [Entries.dirs] at h
  | file n c r ih => simp only [Entries.dirs] at h; simp [Entries.names, ih h]
  | dir n c r _ ih =>
    simp only [Entries.dirs, List.mem_cons] at h
    rcases h with rfl | h
    · simp [Entries.names]
    · simp [Entries.names, ih h]

theorem walk_nil (t : Entries) : walk t [] = .ok (.dir t) := by
  cases t <;> rfl

theorem walk_append {fs : Entries} {a : List Str} {c : Entries} (b : List Str)
    (h : walk fs a = .ok (.dir c)) : walk fs (a ++ b) = walk c b := by
  induction fs generalizing a with
  | nil =>
    cases a with
    | nil => simp only [walk_nil, Except.ok.injEq, Node.dir.injEq] at h; subst h; rfl
    | cons s ss => simp [walk] at h
  | file n c0 r ih =>
    cases a with
    | nil => simp only [walk_nil, Except.ok.injEq, Node.dir.injEq] at h; subst h; rfl
    | cons s ss =>
      by_cases hn : n = s
      · by_cases hss : ss = [] <;> simp [walk, hn, hss] at h
      · simp only [walk, hn, if_false] at h
        simp only [List.cons_append, walk, hn, if_false]
        exact ih h
  | dir n c0 r ihc ihr =>
    cases a with
    | nil => simp only [walk_nil, Except.ok.injEq, Node.dir.injEq] at h; subst h; rfl
    | cons s ss =>
      by_cases hn : n = s
      · simp only [walk, hn, if_true] at h
        simp only [List.cons_append, walk, hn, if_true]
        exact ihc h
      · simp only [walk, hn, if_false] at h
        simp only [List.cons_append, walk, hn, if_false]
        exact ihr h

theorem walk_child {t : Entries} {x : Str × Entries} (hwf : t.wf = true) (h : x ∈ t.dirs) :
    walk t [x.1] = .ok (.dir x.2) := by
  induction t with
  | nil => simp [Entries.dirs] at h
  | file n c r ih =>
    obtain ⟨_, hn, hr⟩ := wf_file.1 hwf
    simp only [Entries.dirs] at h
    have hne : n ≠ x.1 := fun e => hn (e ▸ dirs_name_mem h)
    simp only [walk, hne, if_false]
    exact ih hr h
  | dir n c r _ ih =>
    obtain ⟨_, hn, _, hr⟩ := wf_dir.1 hwf
    simp only [Entries.dirs, List.mem_cons] at h
    rcases h with rfl | h
    · simp [walk, walk_nil]
    · have hne : n ≠ x.1 := fun e => hn (e ▸ dirs_name_mem h)
      simp only [walk, hne, if_false]
      exact ih hr h

theorem walk_height {fs : Entries} {segs : List Str} {t : Entries}
    (h : walk fs segs = .ok (.dir t)) : t.height ≤ fs.height := by
  induction fs generalizing segs with
  | nil =>
    cases segs with
    | nil => simp only [walk_nil, Except.ok.injEq, Node.dir.injEq] at h; subst h; exact le_refl _
    | cons s ss => simp [walk] at h
  | file n c0 r ih =>
    cases segs with
    | nil => simp only [walk_nil, Except.ok.injEq, Node.dir.injEq] at h; subst h; exact le_refl _
    | cons s ss =>
      by_cases hn : n = s
      · by_cases hss : ss = [] <;> simp [walk, hn, hss] at h
      · simp only [walk, hn, if_false] at h
        simpa [Entries.height] using ih h
  | dir n c0 r ihc ihr =>
    cases segs with
    | nil => simp only [walk_nil, Except.ok.injEq, Node.dir.injEq] at h; subst h; exact le_refl _
    | cons s ss =>
      by_cases hn : n = s
      · simp only [walk, hn, if_true] at h
        have := ihc h
        simp only [Entries.height]
        omega
      · simp only [walk, hn, if_false] at h
        have := ihr h
        simp only [Entries.height]
        omega

theorem walk_wf {fs : Entries} {segs : List Str} {t : Entries} (hwf : fs.wf = true)
    (h : walk fs segs = .ok (.dir t)) : t.wf = true := by
  induction fs generalizing segs with
  | nil =>
    cases segs with
    | nil => simp only [walk_nil, Except.ok.injEq, Node.dir.injEq] at h; subst h; exact hwf
    | cons s ss => simp [walk] at h
  | file n c0 r ih =>
    cases segs with
    | nil => simp only [walk_nil, Except.ok.injEq, Node.dir.injEq] at h; subst h; exact hwf
    | cons s ss =>
      by_cases hn : n = s
      · by_cases hss : ss = [] <;> simp [walk, hn, hss] at h
      · simp only [walk, hn, if_false] at h
        exact ih (wf_file.1 hwf).2.2 h
  | dir n c0 r ihc ihr =>
    cases segs with
    | nil => simp only [walk_nil, Except.ok.injEq, Node.dir.injEq] at h; subst h; exact hwf
    | cons s ss =>
      by_cases hn : n = s
      · simp only [walk, hn, if_true] at h
        exact ihc (wf_dir.1 hwf).2.2.1 h
      · simp only [walk, hn, if_false] at h
        exact ihr (wf_dir.1 hwf).2.2.2 h

/-! ## The traversal on a tree -/

theorem hasIllegalPath_append {x : Str} (hx : x ≠ []) (y : Str) :
    hasIllegalPath (x ++ y) = hasIllegalPath x := by
  cases x with
  | nil => exact absurd rfl hx
  | cons c cs => rfl

theorem ioutil_ReadDir_of_walk {fs : Entries} {l : List Str} {c : Entries}
    (hl : ∀ s ∈ l, Ordinary s) (h : walk fs l = .ok (.dir c)) :
    ioutil_ReadDir fs ('/' :: joinSlash l) = .ok c.infos := by
  unfold ioutil_ReadDir
  rw [osPath_slash_join l hl, h]

theorem genWorker_step (notes dirs : Bool) (rs : List Str) (hrs : ∀ r ∈ rs, Ordinary r)
    (fs c : Entries) (fuel : Nat) (names : List Str) (hne : names ≠ [])
    (hord : ∀ s ∈ names, Ordinary s) (hlegal : hasIllegalPath (joinSlash names) = false)
    (hwalk : walk fs (rs ++ names) = .ok (.dir c))
    (hloop : genLoop notes dirs (fun x => genWorker notes dirs (NewFM (rootOf rs)) fs fuel x)
      (joinSlash names ++ ['/']) c.infos [] = .ok (listing notes dirs c)) :
    genWorker notes dirs (NewFM (rootOf rs)) fs (fuel + 1) (joinSlash names)
      = .ok (listing notes dirs c) := by
  have hall : ∀ s ∈ rs ++ names, Ordinary s := by
    intro s hs
    rcases List.mem_append.1 hs with hs | hs
    · exact hrs s hs
    · exact hord s hs
  unfold genWorker
  rw [GetFullPath_join rs hrs hne hord hlegal]
  dsimp only
  rw [ioutil_ReadDir_of_walk hall hwalk]
  dsimp only
  have hb : basepathOf (joinSlash names) = joinSlash names ++ ['/'] := by
    unfold basepathOf
    rw [if_neg (joinSlash_ne_dot hne hord)]
  rw [hb]
  exact hloop

theorem genLoop_deep (notes dirs : Bool) (rs : List Str) (hrs : ∀ r ∈ rs, Ordinary r)
    (fs t : Entries) :
    ∀ (fuel : Nat) (names : List Str) (acc : List Str), names ≠ [] →
      (∀ s ∈ names, Ordinary s) → hasIllegalPath (joinSlash names) = false →
      t.wf = true → t.height ≤ fuel →
      (∀ x ∈ t.dirs, walk fs (rs ++ names ++ [x.1]) = .ok (.dir x.2)) →
      genLoop notes dirs (fun x => genWorker notes dirs (NewFM (rootOf rs)) fs fuel x)
        (joinSlash names ++ ['/']) t.infos acc = .ok (acc ++ listing notes dirs t) := by
  induction t with
  | nil =>
    intro fuel names acc _ _ _ _ _ _
    simp [Entries.infos, genLoop, listing]
  | file n c r ih =>
    intro fuel names acc hne hord hlegal hwf hfuel hwalk
    simp only [Entries.infos, genLoop, Bool.false_eq_true, if_false, listing]
    rw [ih fuel names _ hne hord hlegal (wf_file.1 hwf).2.2 (by simpa [Entries.height] using hfuel)
      (fun x hx => hwalk x (by simpa [Entries.dirs] using hx))]
    simp
  | dir n c r ihc ihr =>
    intro fuel names acc hne hord hlegal hwf hfuel hwalk
    obtain ⟨hn, _, hcwf, hrwf⟩ := wf_dir.1 hwf
    simp only [Entries.height] at hfuel
    obtain ⟨fuel', rfl⟩ : ∃ k, fuel = k + 1 := ⟨fuel - 1, by omega⟩
    have hne' : names ++ [n] ≠ [] := by simp
    have hord' : ∀ s ∈ names ++ [n], Ordinary s := by
      intro s hs
      rcases List.mem_append.1 hs with hs | hs
      · exact hord s hs
      · simp only [List.mem_singleton] at hs
        subst hs
        exact hn
    have hj : joinSlash (names ++ [n]) = joinSlash names ++ ['/'] ++ n := by
      rw [joinSlash_append_cons _ _ hne]
      simp [joinSlash]
    have hlegal' : hasIllegalPath (joinSlash (names ++ [n])) = false := by
      rw [hj, List.append_assoc,
        hasIllegalPath_append (joinSlash_ne_nil hne (fun s hs => (hord s hs).ne_nil))]
      exact hlegal
    have hwc : walk fs (rs ++ (names ++ [n])) = .ok (.dir c) := by
      have := hwalk (n, c) (by simp [Entries.dirs])
      simpa [List.append_assoc] using this
    have hsub : genWorker notes dirs (NewFM (rootOf rs)) fs (fuel' + 1) (joinSlash (names ++ [n]))
        = .ok (listing notes dirs c) := by
      apply genWorker_step notes dirs rs hrs fs c fuel' (names ++ [n]) hne' hord' hlegal' hwc
      have := ihc fuel' (names ++ [n]) [] hne' hord' hlegal' hcwf (by omega)
        (fun x hx => by
          rw [walk_append [x.1] hwc]
          exact walk_child hcwf hx)
      simpa using this
    simp only [Entries.infos, genLoop, if_true, listing]
    rw [← hj, hsub]
    dsimp only
    rw [ihr (fuel' + 1) names _ hne hord hlegal hrwf (by omega)
      (fun x hx => hwalk x (by simp [Entries.dirs, hx]))]
    simp

/-- A worker below the root: on the directory at the ordinary elements
`names`, the first of them starting with a word character, it returns the
listing of the tree there. -/
theorem genWorker_deep (notes dirs : Bool) (rs : List Str) (hrs : ∀ r ∈ rs, Ordinary r)
    (fs c : Entries) (fuel : Nat) (names : List Str) (hne : names ≠ [])
    (hord : ∀ s ∈ names, Ordinary s) (hlegal : hasIllegalPath (joinSlash names) = false)
    (hwalk : walk fs (rs ++ names) = .ok (.dir c)) (hwf : c.wf = true) (hfuel : c.height ≤ fuel) :
    genWorker notes dirs (NewFM (rootOf rs)) fs (fuel + 1) (joinSlash names)
      = .ok (listing notes dirs c) := by
  apply genWorker_step notes dirs rs hrs fs c fuel names hne hord hlegal hwalk
  have := genLoop_deep notes dirs rs hrs fs c fuel names [] hne hord hlegal hwf hfuel
    (fun x hx => by
      rw [walk_append [x.1] hwalk]
      exact walk_child hwf hx)
  simpa using this

theorem hasIllegalDir_nil : hasIllegalDir .nil = false := rfl

theorem hasIllegalDir_file (n c : Str) (r : Entries) :
    hasIllegalDir (.file n c r) = hasIllegalDir r := rfl

theorem hasIllegalDir_dir (n : Str) (c r : Entries) :
    hasIllegalDir (.dir n c r) = (hasIllegalPath n || hasIllegalDir r) := rfl

theorem genLoop_top (notes dirs : Bool) (rs : List Str) (hrs : ∀ r ∈ rs, Ordinary r)
    (fs t : Entries) :
    ∀ (fuel : Nat) (acc : List Str), t.wf = true → t.height ≤ fuel →
      (∀ x ∈ t.dirs, walk fs (rs ++ [x.1]) = .ok (.dir x.2)) →
      genLoop notes dirs (fun x => genWorker notes dirs (NewFM (rootOf rs)) fs fuel x)
        [] t.infos acc
        = if hasIllegalDir t = true then .error .invalidName
          else .ok (acc ++ listing notes dirs t) := by
  induction t with
  | nil =>
    intro fuel acc _ _ _
    simp [Entries.infos, genLoop, listing, hasIllegalDir_nil]
  | file n c r ih =>
    intro fuel acc hwf hfuel hwalk
    simp only [Entries.infos, genLoop, Bool.false_eq_true, if_false, listing]
    rw [ih fuel _ (wf_file.1 hwf).2.2 (by simpa [Entries.height] using hfuel)
      (fun x hx => hwalk x (by simpa [Entries.dirs] using hx))]
    simp [hasIllegalDir_file]
  | dir n c r _ ihr =>
    intro fuel acc hwf hfuel hwalk
    obtain ⟨hn, _, hcwf, hrwf⟩ := wf_dir.1 hwf
    simp only [Entries.height] at hfuel
    obtain ⟨fuel', rfl⟩ : ∃ k, fuel = k + 1 := ⟨fuel - 1, by omega⟩
    simp only [Entries.infos, genLoop, if_true, listing, List.nil_append]
    by_cases hill : hasIllegalPath n = true
    · have hfail : GetFullPath (NewFM (rootOf rs)) n = .error .invalidName := by
        unfold GetFullPath
        rw [if_pos ⟨hn.2.2.1, hill⟩]
      have hw : genWorker notes dirs (NewFM (rootOf rs)) fs (fuel' + 1) n
          = .error .invalidName := by
        unfold genWorker
        rw [hfail]
      rw [hw]
      simp [hasIllegalDir_dir, hill]
    · have hlegal : hasIllegalPath (joinSlash [n]) = false := by simpa [joinSlash] using hill
      have hw := genWorker_deep notes dirs rs hrs fs c fuel' [n] (by simp)
        (by simpa using hn) hlegal (hwalk (n, c) (by simp [Entries.dirs])) hcwf (by omega)
      simp only [joinSlash] at hw
      rw [hw]
      dsimp only
      rw [ihr (fuel' + 1) _ hrwf (by omega) (fun x hx => hwalk x (by simp [Entries.dirs, hx]))]
      simp [hasIllegalDir_dir, hill]

/-- The traversal from the root: it panics when a directory directly in the
root has a name that does not start with a word character, and returns the
listing of the tree otherwise. -/
theorem genWorker_root (notes dirs : Bool) (rs : List Str) (hrs : ∀ r ∈ rs, Ordinary r)
    (fs t : Entries) (hroot : walk fs rs = .ok (.dir t)) (hwf : t.wf = true) :
    genWorker notes dirs (NewFM (rootOf rs)) fs (fs.height + 1) ['.']
      = if hasIllegalDir t = true then .error .invalidName else .ok (listing notes dirs t) := by
  unfold genWorker
  rw [GetFullPath_dot rs hrs]
  dsimp only
  rw [ioutil_ReadDir_of_walk hrs hroot]
  dsimp only
  have hb : basepathOf ['.'] = [] := by rfl
  rw [hb, genLoop_top notes dirs rs hrs fs t fs.height [] hwf (walk_height hroot)
    (fun x hx => by
      rw [walk_append [x.1] hroot]
      exact walk_child hwf hx)]
  simp

/-! ## The listings -/

theorem ListAll_eq (fm : FM) (fs : Entries) :
    ListAll fm fs = genWorker true true fm fs (fs.height + 1) ['.'] :=
  listAllWorker_eq fm fs _ _

theorem ListAllNotes_eq (fm : FM) (fs : Entries) :
    ListAllNotes fm fs = genWorker true false fm fs (fs.height + 1) ['.'] :=
  listAllNotesWorker_eq fm fs _ _

theorem ListAllProjects_eq (fm : FM) (fs : Entries) :
    ListAllProjects fm fs = genWorker false true fm fs (fs.height + 1) ['.'] :=
  listAllProjectsWorker_eq fm fs _ _

theorem hasIllegalDir_iff (t : Entries) :
    hasIllegalDir t = true ↔ ∃ x ∈ t.dirs, StartsWithNonWord x.1 := by
  unfold hasIllegalDir
  rw [List.any_eq_true]
  constructor
  · rintro ⟨x, hx, h⟩
    exact ⟨x, hx, (hasIllegalPath_iff _).1 h⟩
  · rintro ⟨x, hx, h⟩
    exact ⟨x, hx, (hasIllegalPath_iff _).2 h⟩

theorem walk_ordinary {t : Entries} (hwf : t.wf = true) {segs : List Str} {nd : Node}
    (h : walk t segs = .ok nd) : ∀ s ∈ segs, Ordinary s := by
  induction t generalizing segs with
  | nil =>
    cases segs with
    | nil => simp
    | cons s ss => simp [walk] at h
  | file n c0 r ih =>
    cases segs with
    | nil => simp
    | cons s ss =>
      obtain ⟨hn, _, hr⟩ := wf_file.1 hwf
      by_cases he : n = s
      · by_cases hss : ss = []
        · subst he; subst hss
          simpa using hn
        · simp [walk, he, hss] at h
      · simp only [walk, he, if_false] at h
        exact ih hr h
  | dir n c0 r ihc ihr =>
    cases segs with
    | nil => simp
    | cons s ss =>
      obtain ⟨hn, _, hc, hr⟩ := wf_dir.1 hwf
      by_cases he : n = s
      · simp only [walk, he, if_true] at h
        subst he
        intro x hx
        rcases List.mem_cons.1 hx with rfl | hx
        · exact hn
        · exact ihc hc h x hx
      · simp only [walk, he, if_false] at h
        exact ihr hr h

theorem listing_dirs_mem_of_isDirAt (notes : Bool) {t : Entries} {segs : List Str}
    (h : IsDirAt t segs) : joinSlash segs ++ ['/'] ∈ listing notes true t := by
  obtain ⟨hne, c, hw⟩ := h
  induction t generalizing segs c with
  | nil =>
    cases segs with
    | nil => exact absurd rfl hne
    | cons s ss => simp [walk] at hw
  | file n c0 r ih =>
    cases segs with
    | nil => exact absurd rfl hne
    | cons s ss =>
      by_cases he : n = s
      · by_cases hss : ss = [] <;> simp [walk, he, hss] at hw
      · simp only [walk, he, if_false] at hw
        simp only [listing, List.mem_append]
        exact Or.inr (ih hne c hw)
  | dir n c0 r ihc ihr =>
    cases segs with
    | nil => exact absurd rfl hne
    | cons s ss =>
      by_cases he : n = s
      · simp only [walk, he, if_true] at hw
        subst he
        simp only [listing, if_true, List.mem_append, List.mem_map, List.mem_singleton]
        left
        cases ss with
        | nil => left; right; simp [joinSlash]
        | cons s' ss' =>
          right
          refine ⟨joinSlash (s' :: ss') ++ ['/'], ihc (by simp) c hw, ?_⟩
          rw [joinSlash_cons_cons]
          simp
      · simp only [walk, he, if_false] at hw
        simp only [listing, List.mem_append]
        exact Or.inr (ihr hne c hw)

theorem names_ordinary {t : Entries} (hwf : t.wf = true) : ∀ m ∈ t.names, Ordinary m := by
  induction t with
  | nil => simp [Entries.names]
  | file n c r ih =>
    obtain ⟨hn, _, hr⟩ := wf_file.1 hwf
    intro m hm
    simp only [Entries.names, List.mem_cons] at hm
    rcases hm with rfl | hm
    · exact hn
    · exact ih hr m hm
  | dir n c r _ ih =>
    obtain ⟨hn, _, _, hr⟩ := wf_dir.1 hwf
    intro m hm
    simp only [Entries.names, List.mem_cons] at hm
    rcases hm with rfl | hm
    · exact hn
    · exact ih hr m hm

theorem joinSlash_cons_append_slash (m : Str) (ss : List Str) :
    ∃ rest, joinSlash (m :: ss) ++ ['/'] = m ++ '/' :: rest := by
  cases ss with
  | nil => exact ⟨[], by simp [joinSlash]⟩
  | cons a as => exact ⟨joinSlash (a :: as) ++ ['/'], by rw [joinSlash_cons_cons]; simp⟩

theorem isDirAt_of_mem_listing {t : Entries} (hwf : t.wf = true) {s : Str}
    (h : s ∈ listing false true t) :
    ∃ n ss, n ∈ t.names ∧ IsDirAt t (n :: ss) ∧ s = joinSlash (n :: ss) ++ ['/'] := by
  induction t generalizing s with
  | nil => simp [listing] at h
  | file n c0 r ih =>
    obtain ⟨_, hn, hr⟩ := wf_file.1 hwf
    simp only [listing, Bool.false_eq_true, if_false, List.nil_append] at h
    obtain ⟨m, ss, hm, ⟨hne, c, hw⟩, hs⟩ := ih hr h
    have he : n ≠ m := fun e => hn (e ▸ hm)
    exact ⟨m, ss, by simp [Entries.names, hm], ⟨hne, c, by simpa [walk, he] using hw⟩, hs⟩
  | dir n c0 r ihc ihr =>
    obtain ⟨_, hn, hc, hr⟩ := wf_dir.1 hwf
    simp only [listing, Bool.false_eq_true, if_false, List.nil_append, if_true, List.mem_append,
      List.mem_singleton, List.mem_map] at h
    rcases h with (rfl | ⟨sub, hsub, rfl⟩) | h
    · exact ⟨n, [], by simp [Entries.names], ⟨by simp, c0, by simp [walk, walk_nil]⟩,
        by simp [joinSlash]⟩
    · obtain ⟨m, ss, _, ⟨_, c, hw⟩, hs⟩ := ihc hc hsub
      refine ⟨n, m :: ss, by simp [Entries.names], ⟨by simp, c, by simpa [walk] using hw⟩, ?_⟩
      rw [joinSlash_cons_cons, hs]
      simp
    · obtain ⟨m, ss, hm, ⟨hne, c, hw⟩, hs⟩ := ihr hr h
      have he : n ≠ m := fun e => hn (e ▸ hm)
      exact ⟨m, ss, by simp [Entries.names, hm], ⟨hne, c, by simpa [walk, he] using hw⟩, hs⟩

theorem append_slash_inj {n m x y : Str} (hn : '/' ∉ n) (hm : '/' ∉ m)
    (h : n ++ '/' :: x = m ++ '/' :: y) : n = m := by
  induction n generalizing m with
  | nil =>
    cases m with
    | nil => rfl
    | cons b bs =>
      simp only [List.nil_append, List.cons_append, List.cons.injEq] at h
      exact absurd h.1.symm (fun e => hm (by simp [e]))
  | cons a as ih =>
    cases m with
    | nil =>
      simp only [List.nil_append, List.cons_append, List.cons.injEq] at h
      exact absurd h.1 (fun e => hn (by simp [e]))
    | cons b bs =>
      simp only [List.cons_append, List.cons.injEq] at h
      rw [h.1, ih (fun e => hn (by simp [e])) (fun e => hm (by simp [e])) h.2]

theorem listing_projects_nodup {t : Entries} (hwf : t.wf = true) :
    (listing false true t).Nodup := by
  induction t with
  | nil => simp [listing]
  | file n c0 r ih =>
    simpa [listing] using ih (wf_file.1 hwf).2.2
  | dir n c0 r ihc ihr =>
    obtain ⟨hno, hn, hc, hr⟩ := wf_dir.1 hwf
    simp only [listing, Bool.false_eq_true, if_false, List.nil_append, if_true]
    rw [List.nodup_append]
    refine ⟨?_, ihr hr, ?_⟩
    · rw [List.singleton_append, List.nodup_cons]
      constructor
      · intro hmem
        obtain ⟨sub, hsub, he⟩ := List.mem_map.1 hmem
        obtain ⟨m, ss, _, _, hs⟩ := isDirAt_of_mem_listing hc hsub
        obtain ⟨rest, hrest⟩ := joinSlash_cons_append_slash m ss
        rw [hs, hrest] at he
        have := congrArg List.length he
        simp at this
      · exact (ihc hc).map (fun a b hab => by simpa using hab)
    · intro e he1 he2
      obtain ⟨m, ss, hm, _, hs⟩ := isDirAt_of_mem_listing hr he2
      obtain ⟨rest, hrest⟩ := joinSlash_cons_append_slash m ss
      have hmo := names_ordinary hr m hm
      have he : ∃ z, e = n ++ '/' :: z := by
        simp only [List.singleton_append, List.mem_cons, List.mem_map] at he1
        rcases he1 with rfl | ⟨sub, _, rfl⟩
        · exact ⟨[], by simp⟩
        · exact ⟨sub, by simp⟩
      obtain ⟨z, hz⟩ := he
      rw [hs, hrest] at hz
      have := append_slash_inj hmo.noSlash hno.noSlash hz
      exact hn (this ▸ hm)

theorem listing_projects_no_dot_slash {t : Entries} (hwf : t.wf = true) {s : Str}
    (h : s ∈ listing false true t) : ¬ (['.', '/'] <+: s) := by
  obtain ⟨m, ss, hm, _, hs⟩ := isDirAt_of_mem_listing hwf h
  obtain ⟨rest, hrest⟩ := joinSlash_cons_append_slash m ss
  have hmo := names_ordinary hwf m hm
  rintro ⟨z, hz⟩
  rw [hs, hrest] at hz
  have e : ['.'] ++ '/' :: z = m ++ '/' :: rest := by simpa using hz
  have := append_slash_inj (by decide) hmo.noSlash e
  exact hmo.2.2.1 this.symm

/-! ## Making directories and appending to files -/

theorem map_eq_ok {ε α β : Type} {f : α → β} {x : Except ε α} {y : β} :
    x.map f = .ok y ↔ ∃ a, x = .ok a ∧ f a = y := by
  cases x <;> simp [Except.map]

theorem walk_mkChain (ss : List Str) : walk (mkChain ss) ss = .ok (.dir .nil) := by
  induction ss with
  | nil => rfl
  | cons s ss ih => simpa [mkChain, walk] using ih

theorem walk_mkChain_not_file (ss qs : List Str) (c : Str) :
    walk (mkChain ss) qs ≠ .ok (.file c) := by
  induction ss generalizing qs with
  | nil =>
    cases qs with
    | nil => simp [mkChain, walk]
    | cons q qs => simp [mkChain, walk]
  | cons s ss ih =>
    cases qs with
    | nil => simp [mkChain, walk]
    | cons q qs =>
      by_cases he : s = q
      · simpa [mkChain, walk, he] using ih qs
      · simp [mkChain, walk, he]

theorem mkdirAllAt_isDir {t t' : Entries} {P : List Str} (h : mkdirAllAt t P = .ok t') :
    ∃ c, walk t' P = .ok (.dir c) := by
  induction t generalizing P t' with
  | nil =>
    cases P with
    | nil => exact ⟨t', walk_nil t'⟩
    | cons s ss =>
      simp only [mkdirAllAt, Except.ok.injEq] at h
      subst h
      exact ⟨.nil, by simpa [walk] using walk_mkChain ss⟩
  | file n c0 r ih =>
    cases P with
    | nil => exact ⟨t', walk_nil t'⟩
    | cons s ss =>
      by_cases he : n = s
      · simp [mkdirAllAt, he] at h
      · simp only [mkdirAllAt, he, if_false, map_eq_ok] at h
        obtain ⟨r', hr, rfl⟩ := h
        obtain ⟨c, hc⟩ := ih hr
        exact ⟨c, by simpa [walk, he] using hc⟩
  | dir n c0 r ihc ihr =>
    cases P with
    | nil => exact ⟨t', walk_nil t'⟩
    | cons s ss =>
      by_cases he : n = s
      · simp only [mkdirAllAt, he, if_true, map_eq_ok] at h
        obtain ⟨c', hc', rfl⟩ := h
        obtain ⟨c, hc⟩ := ihc hc'
        exact ⟨c, by simpa [walk, he] using hc⟩
      · simp only [mkdirAllAt, he, if_false, map_eq_ok] at h
        obtain ⟨r', hr, rfl⟩ := h
        obtain ⟨c, hc⟩ := ihr hr
        exact ⟨c, by simpa [walk, he] using hc⟩

theorem mkdirAllAt_of_isDir {t : Entries} {P : List Str} {c : Entries}
    (h : walk t P = .ok (.dir c)) : mkdirAllAt t P = .ok t := by
  induction t generalizing P with
  | nil =>
    cases P with
    | nil => rfl
    | cons s ss => simp [walk] at h
  | file n c0 r ih =>
    cases P with
    | nil => rfl
    | cons s ss =>
      by_cases he : n = s
      · by_cases hss : ss = [] <;> simp [walk, he, hss] at h
      · simp only [walk, he, if_false] at h
        simp [mkdirAllAt, he, ih h, Except.map]
  | dir n c0 r ihc ihr =>
    cases P with
    | nil => rfl
    | cons s ss =>
      by_cases he : n = s
      · simp only [walk, he, if_true] at h
        simp [mkdirAllAt, he, ihc h, Except.map]
      · simp only [walk, he, if_false] at h
        simp [mkdirAllAt, he, ihr h, Except.map]

theorem walk_file_mkdirAllAt {t t' : Entries} {P : List Str} (h : mkdirAllAt t P = .ok t')
    (Q : List Str) (c : Str) : walk t' Q = .ok (.file c) ↔ walk t Q = .ok (.file c) := by
  induction t generalizing P t' Q with
  | nil =>
    cases P with
    | nil => simp only [mkdirAllAt, Except.ok.injEq] at h; subst h; rfl
    | cons s ss =>
      simp only [mkdirAllAt, Except.ok.injEq] at h
      subst h
      cases Q with
      | nil => simp [walk]
      | cons q qs =>
        by_cases he : s = q
        · simpa [walk, he] using walk_mkChain_not_file ss qs c
        · simp [walk, he]
  | file n c0 r ih =>
    cases P with
    | nil => simp only [mkdirAllAt, Except.ok.injEq] at h; subst h; rfl
    | cons s ss =>
      by_cases he : n = s
      · simp [mkdirAllAt, he] at h
      · simp only [mkdirAllAt, he, if_false, map_eq_ok] at h
        obtain ⟨r', hr, rfl⟩ := h
        cases Q with
        | nil => simp [walk]
        | cons q qs =>
          by_cases hq : n = q
          · simp [walk, hq]
          · simpa [walk, hq] using ih hr (q :: qs)
  | dir n c0 r ihc ihr =>
    cases P with
    | nil => simp only [mkdirAllAt, Except.ok.injEq] at h; subst h; rfl
    | cons s ss =>
      by_cases he : n = s
      · subst he
        simp only [mkdirAllAt, if_true, map_eq_ok] at h
        obtain ⟨c', hc', rfl⟩ := h
        cases Q with
        | nil => simp [walk]
        | cons q qs =>
          by_cases hq : n = q
          · simpa [walk, hq] using ihc hc' qs
          · simp [walk, hq]
      · simp only [mkdirAllAt, he, if_false, map_eq_ok] at h
        obtain ⟨r', hr, rfl⟩ := h
        cases Q with
        | nil => simp [walk]
        | cons q qs =>
          by_cases hq : n = q
          · simp [walk, hq]
          · simpa [walk, hq] using ihr hr (q :: qs)

theorem contentAt_mkdirAllAt {t t' : Entries} {P : List Str} (h : mkdirAllAt t P = .ok t')
    (Q : List Str) : contentAt t' Q = contentAt t Q := by
  have hiff := walk_file_mkdirAllAt h Q
  unfold contentAt
  cases h1 : walk t Q with
  | error e =>
    cases h2 : walk t' Q with
    | error e' => rfl
    | ok nd =>
      cases nd with
      | dir x => rfl
      | file c => rw [(hiff c).1 h2] at h1; exact absurd h1 (by simp)
  | ok nd =>
    cases nd with
    | file c => rw [(hiff c).2 h1]
    | dir x =>
      cases h2 : walk t' Q with
      | error e' => rfl
      | ok nd' =>
        cases nd' with
        | dir y => rfl
        | file c => rw [(hiff c).1 h2] at h1; exact absurd h1 (by simp)

theorem walk_appendAt {data : Str} {create : Bool} {t t' : Entries} {Q : List Str}
    (h : appendAt data create t Q = .ok t') :
    walk t' Q = .ok (.file (contentAt t Q ++ data)) := by
  induction t generalizing Q t' with
  | nil =>
    cases Q with
    | nil => simp [appendAt] at h
    | cons q qs =>
      cases qs with
      | nil =>
        by_cases hc : create = true
        · simp only [appendAt, hc, if_true, Except.ok.injEq] at h
          subst h
          simp [walk, contentAt]
        · simp [appendAt, hc] at h
      | cons q' qs' => simp [appendAt] at h
  | file n c0 r ih =>
    cases Q with
    | nil => simp [appendAt] at h
    | cons q qs =>
      by_cases he : n = q
      · by_cases hq : qs = []
        · simp only [appendAt, he, hq, if_true, Except.ok.injEq] at h
          subst h
          simp [walk, contentAt, he, hq]
        · simp [appendAt, he, hq] at h
      · simp only [appendAt, he, if_false, map_eq_ok] at h
        obtain ⟨r', hr, rfl⟩ := h
        have := ih hr
        simpa [walk, contentAt, he] using this
  | dir n c0 r ihc ihr =>
    cases Q with
    | nil => simp [appendAt] at h
    | cons q qs =>
      by_cases he : n = q
      · by_cases hq : qs = []
        · simp [appendAt, he, hq] at h
        · simp only [appendAt, he, hq, if_true, if_false, map_eq_ok] at h
          obtain ⟨c', hc', rfl⟩ := h
          have := ihc hc'
          simpa [walk, contentAt, he] using this
      · simp only [appendAt, he, if_false, map_eq_ok] at h
        obtain ⟨r', hr, rfl⟩ := h
        have := ihr hr
        simpa [walk, contentAt, he] using this

theorem appendAt_keeps_dir {data : Str} {create : Bool} {t t' : Entries} {Q : List Str}
    (h : appendAt data create t Q = .ok t') {P : List Str} {x : Entries}
    (hP : walk t P = .ok (.dir x)) : ∃ y, walk t' P = .ok (.dir y) := by
  induction t generalizing Q t' P x with
  | nil =>
    cases P with
    | nil => exact ⟨t', walk_nil t'⟩
    | cons p ps => simp [walk] at hP
  | file n c0 r ih =>
    cases P with
    | nil => exact ⟨t', walk_nil t'⟩
    | cons p ps =>
      cases Q with
      | nil => simp [appendAt] at h
      | cons q qs =>
        by_cases hp : n = p
        · by_cases hps : ps = [] <;> simp [walk, hp, hps] at hP
        · simp only [walk, hp, if_false] at hP
          by_cases he : n = q
          · by_cases hq : qs = []
            · simp only [appendAt, he, hq, if_true, Except.ok.injEq] at h
              subst h
              subst he
              exact ⟨x, by simpa [walk, hp] using hP⟩
            · simp [appendAt, he, hq] at h
          · simp only [appendAt, he, if_false, map_eq_ok] at h
            obtain ⟨r', hr, rfl⟩ := h
            obtain ⟨y, hy⟩ := ih hr hP
            exact ⟨y, by simpa [walk, hp] using hy⟩
  | dir n c0 r ihc ihr =>
    cases P with
    | nil => exact ⟨t', walk_nil t'⟩
    | cons p ps =>
      cases Q with
      | nil => simp [appendAt] at h
      | cons q qs =>
        by_cases he : n = q
        · by_cases hq : qs = []
          · simp [appendAt, he, hq] at h
          · subst he
            simp only [appendAt, hq, if_true, if_false, map_eq_ok] at h
            obtain ⟨c', hc', rfl⟩ := h
            by_cases hp : n = p
            · simp only [walk, hp, if_true] at hP
              obtain ⟨y, hy⟩ := ihc hc' hP
              exact ⟨y, by simpa [walk, hp] using hy⟩
            · simp only [walk, hp, if_false] at hP
              exact ⟨x, by simpa [walk, hp] using hP⟩
        · simp only [appendAt, he, if_false, map_eq_ok] at h
          obtain ⟨r', hr, rfl⟩ := h
          by_cases hp : n = p
          · simp only [walk, hp, if_true] at hP
            exact ⟨x, by simpa [walk, hp] using hP⟩
          · simp only [walk, hp, if_false] at hP
            obtain ⟨y, hy⟩ := ihr hr hP
            exact ⟨y, by simpa [walk, hp] using hy⟩

theorem appendAt_of_file (data : Str) (create : Bool) {t : Entries} {Q : List Str} {c : Str}
    (h : walk t Q = .ok (.file c)) : ∃ t', appendAt data create t Q = .ok t' := by
  induction t generalizing Q with
  | nil =>
    cases Q with
    | nil => simp [walk] at h
    | cons q qs => simp [walk] at h
  | file n c0 r ih =>
    cases Q with
    | nil => simp [walk] at h
    | cons q qs =>
      by_cases he : n = q
      · by_cases hq : qs = []
        · simp only [appendAt, he, hq, if_true]
          exact ⟨_, rfl⟩
        · simp [walk, he, hq] at h
      · simp only [walk, he, if_false] at h
        obtain ⟨r', hr⟩ := ih h
        simp only [appendAt, he, if_false, hr, Except.map]
        exact ⟨_, rfl⟩
  | dir n c0 r ihc ihr =>
    cases Q with
    | nil => simp [walk] at h
    | cons q qs =>
      by_cases he : n = q
      · simp only [walk, he, if_true] at h
        have hq : qs ≠ [] := by
          rintro rfl
          simp [walk_nil] at h
        obtain ⟨c', hc'⟩ := ihc h
        simp only [appendAt, he, hq, if_true, if_false, hc', Except.map]
        exact ⟨_, rfl⟩
      · simp only [walk, he, if_false] at h
        obtain ⟨r', hr⟩ := ihr h
        simp only [appendAt, he, if_false, hr, Except.map]
        exact ⟨_, rfl⟩

theorem appendAt_nil_of_file (create : Bool) {t : Entries} {Q : List Str} {c : Str}
    (h : walk t Q = .ok (.file c)) : appendAt [] create t Q = .ok t := by
  induction t generalizing Q with
  | nil =>
    cases Q with
    | nil => simp [walk] at h
    | cons q qs => simp [walk] at h
  | file n c0 r ih =>
    cases Q with
    | nil => simp [walk] at h
    | cons q qs =>
      by_cases he : n = q
      · by_cases hq : qs = []
        · simp [appendAt, he, hq]
        · simp [walk, he, hq] at h
      · simp only [walk, he, if_false] at h
        simp [appendAt, he, ih h, Except.map]
  | dir n c0 r ihc ihr =>
    cases Q with
    | nil => simp [walk] at h
    | cons q qs =>
      by_cases he : n = q
      · simp only [walk, he, if_true] at h
        have hq : qs ≠ [] := by
          rintro rfl
          simp [walk_nil] at h
        simp [appendAt, he, hq, ihc h, Except.map]
      · simp only [walk, he, if_false] at h
        simp [appendAt, he, ihr h, Except.map]

/-! ## Writing a note and reading it back -/

theorem GetNote_of_path {fm : FM} {n phys : Str} (hn : GetFullNotePath fm n = .ok phys)
    (fs : Entries) :
    GetNote fm n fs =
      match walk fs (osPath phys) with
      | .ok (.file c) => .ok c
      | .ok (.dir _) => .error .isDir
      | .error e => .error e := by
  unfold GetNote Open os_Open ioutil_ReadAll
  rw [hn]
  dsimp only
  cases h : walk fs (osPath phys) with
  | error e => rfl
  | ok nd =>
    dsimp only
    rw [h]

theorem noteContent_of_path {fm : FM} {n phys : Str} (hn : GetFullNotePath fm n = .ok phys)
    (fs : Entries) : noteContent fm n fs = contentAt fs (osPath phys) := by
  unfold noteContent contentAt
  rw [GetNote_of_path hn]
  cases h : walk fs (osPath phys) with
  | error e => rfl
  | ok nd => cases nd <;> rfl

theorem contentAt_of_walk {t : Entries} {Q : List Str} {c : Str}
    (h : walk t Q = .ok (.file c)) : contentAt t Q = c := by
  unfold contentAt
  rw [h]

theorem QuickNote_ok {fm : FM} {n b : Str} {fs fs' : Entries}
    (h : QuickNote fm n b fs = (.ok (), fs')) :
    ∃ dfull fs1 phys fs2, GetFullPath fm (path_Dir n) = .ok dfull ∧
      mkdirAllAt fs (osPath dfull) = .ok fs1 ∧ GetFullNotePath fm n = .ok phys ∧
      appendAt [] true fs1 (osPath phys) = .ok fs2 ∧
      appendAt (b ++ ['\n']) false fs2 (osPath phys) = .ok fs' := by
  unfold QuickNote WriteString at h
  cases ho : OpenFile fm n fs with
  | mk r fs2 =>
    cases r with
    | error e => simp [ho] at h
    | ok fp =>
      obtain ⟨dfull, fs1, phys, hd, hm, hn, hop⟩ := OpenFile_ok ho
      obtain ⟨hsegs, happ⟩ := os_OpenFile_segs hop
      refine ⟨dfull, fs1, phys, fs2, hd, hm, hn, happ, ?_⟩
      rw [ho] at h
      dsimp only at h
      unfold File_WriteString at h
      rw [hsegs] at h
      cases hw : appendAt (b ++ ['\n']) false fs2 (osPath phys) with
      | error e => simp [hw] at h
      | ok fs3 =>
        rw [hw] at h
        simp only [Prod.mk.injEq, true_and] at h
        rw [h]

theorem QuickNote_of {fm : FM} {n b : Str} {fs fs1 fs2 fs' : Entries} {dfull phys : Str}
    (hd : GetFullPath fm (path_Dir n) = .ok dfull)
    (hm : mkdirAllAt fs (osPath dfull) = .ok fs1) (hn : GetFullNotePath fm n = .ok phys)
    (ho : appendAt [] true fs1 (osPath phys) = .ok fs2)
    (hw : appendAt (b ++ ['\n']) false fs2 (osPath phys) = .ok fs') :
    QuickNote fm n b fs = (.ok (), fs') := by
  simp only [QuickNote, WriteString, OpenFile, MkdirAll, os_MkdirAll, hd, hm, hn, os_OpenFile, ho,
    File_WriteString, hw]

/-- C4: when `QuickNote(n, b)` succeeds, `GetNote(n)` then returns what the
note held before (nothing when there was no note) followed by `b` and one
newline; a second `QuickNote(n, b2)` then succeeds too and leaves the note
with `b` + newline + `b2` + newline at its end; and the directory of the note,
`path.Dir(n)` under the root, exists afterwards. -/
theorem QuickNote_appends (fm : FM) (n b : Str) (fs fs1 : Entries)
    (h : QuickNote fm n b fs = (.ok (), fs1)) :
    GetNote fm n fs1 = .ok (noteContent fm n fs ++ b ++ ['\n']) ∧
    (∀ b2, ∃ fs2, QuickNote fm n b2 fs1 = (.ok (), fs2) ∧
      GetNote fm n fs2 = .ok (noteContent fm n fs ++ b ++ ['\n'] ++ b2 ++ ['\n'])) ∧
    (∃ dfull c, GetFullPath fm (path_Dir n) = .ok dfull ∧
      walk fs1 (osPath dfull) = .ok (.dir c)) := by
  obtain ⟨dfull, t1, phys, t2, hd, hm, hn, ho, hw⟩ := QuickNote_ok h
  have hc2 : contentAt t2 (osPath phys) = contentAt fs (osPath phys) := by
    have h1 := walk_appendAt ho
    rw [contentAt_of_walk h1, List.append_nil, contentAt_mkdirAllAt hm]
  have hfile : walk fs1 (osPath phys)
      = .ok (.file (noteContent fm n fs ++ b ++ ['\n'])) := by
    rw [walk_appendAt hw, hc2, noteContent_of_path hn, List.append_assoc]
  have hread : GetNote fm n fs1 = .ok (noteContent fm n fs ++ b ++ ['\n']) := by
    rw [GetNote_of_path hn, hfile]
  obtain ⟨c1, hdir1⟩ := mkdirAllAt_isDir hm
  obtain ⟨c2, hdir2⟩ := appendAt_keeps_dir ho hdir1
  obtain ⟨c3, hdir3⟩ := appendAt_keeps_dir hw hdir2
  refine ⟨hread, fun b2 => ?_, ⟨dfull, c3, hd, hdir3⟩⟩
  obtain ⟨fs2, hw2⟩ := appendAt_of_file (b2 ++ ['\n']) false hfile
  have hq2 : QuickNote fm n b2 fs1 = (.ok (), fs2) :=
    QuickNote_of hd (mkdirAllAt_of_isDir hdir3) hn (appendAt_nil_of_file true hfile) hw2
  refine ⟨fs2, hq2, ?_⟩
  have hfile2 := walk_appendAt hw2
  have hc : contentAt fs1 (osPath phys) = noteContent fm n fs ++ b ++ ['\n'] :=
    contentAt_of_walk hfile
  rw [GetNote_of_path hn, hfile2, hc]
  simp

/-- C4 at the root `/r/` that holds nothing: the note `a/b` is made with its
project `a`, and reads back as `hello` and a newline. -/
theorem QuickNote_appends_witness :
    QuickNote (NewFM "/r/".toList) "a/b".toList "hello".toList (.dir "r".toList .nil .nil)
      = (.ok (), .dir "r".toList
          (.dir "a".toList (.file "b.md".toList "hello\n".toList .nil) .nil) .nil) ∧
    GetNote (NewFM "/r/".toList) "a/b".toList
      (.dir "r".toList (.dir "a".toList (.file "b.md".toList "hello\n".toList .nil) .nil) .nil)
      = .ok (noteContent (NewFM "/r/".toList) "a/b".toList (.dir "r".toList .nil .nil)
          ++ "hello".toList ++ ['\n']) :=
  ⟨by rfl, (QuickNote_appends (NewFM "/r/".toList) "a/b".toList "hello".toList
    (.dir "r".toList .nil .nil) _ (by rfl)).1⟩

/-! ## Notes of one directory -/

theorem strings_HasSuffix_iff (s suf : Str) : strings_HasSuffix s suf = true ↔ suf <:+ s := by
  unfold strings_HasSuffix
  simp only [Bool.and_eq_true, decide_eq_true_eq]
  constructor
  · rintro ⟨_, h⟩
    have := List.take_append_drop (s.length - suf.length) s
    rw [h] at this
    exact ⟨s.take (s.length - suf.length), this⟩
  · rintro ⟨x, rfl⟩
    refine ⟨by simp, ?_⟩
    have : (x ++ suf).length - suf.length = x.length := by simp
    rw [this, List.drop_left]

theorem strings_TrimSuffix_append {s suf : Str} (h : strings_HasSuffix s suf = true) :
    strings_TrimSuffix s suf ++ suf = s := by
  obtain ⟨x, rfl⟩ := (strings_HasSuffix_iff s suf).1 h
  unfold strings_TrimSuffix
  rw [if_pos h]
  have : (x ++ suf).length - suf.length = x.length := by simp
  rw [this, List.take_left]

theorem foldl_notes (files : List FileInfo) (acc : List Str) :
    files.foldl
        (fun f file =>
          if strings_HasSuffix file.name mdSuffix = true
          then f ++ [strings_TrimSuffix file.name mdSuffix] else f) acc
      = acc ++ files.flatMap (fun file => noteOf file.name) := by
  induction files generalizing acc with
  | nil => simp
  | cons f fs ih =>
    rw [List.foldl_cons, ih]
    by_cases h : strings_HasSuffix f.name mdSuffix = true <;> simp [noteOf, h]

theorem map_noteOf_append (names : List Str) :
    (names.flatMap noteOf).map (fun s => s ++ mdSuffix)
      = names.filter (fun e => decide (mdSuffix <:+ e)) := by
  induction names with
  | nil => rfl
  | cons n ns ih =>
    by_cases h : strings_HasSuffix n mdSuffix = true
    · have h2 := (strings_HasSuffix_iff n mdSuffix).1 h
      simp only [List.flatMap_cons, noteOf, h, if_true, List.singleton_append, List.map_cons, ih,
        strings_TrimSuffix_append h]
      rw [List.filter_cons_of_pos (by simpa using h2)]
    · have h2 : ¬ mdSuffix <:+ n := fun e => h ((strings_HasSuffix_iff n mdSuffix).2 e)
      simp only [List.flatMap_cons, noteOf, h, if_false, List.nil_append, ih, Bool.false_eq_true]
      rw [List.filter_cons_of_neg (by simpa using h2)]

theorem ListNotes_of_read {fm : FM} {p full : Str} {fs : Entries} {files : List FileInfo}
    (hp : GetFullPath fm p = .ok full) (hr : ioutil_ReadDir fs full = .ok files) :
    ListNotes fm p fs = .ok ((files.map (fun f => f.name)).flatMap noteOf) := by
  unfold ListNotes
  rw [hp]
  dsimp only
  rw [hr]
  dsimp only
  rw [foldl_notes, List.nil_append, List.flatMap_map]

/-! ## Changes below a directory -/

theorem walk_prefix_dir {t : Entries} {a b : List Str} {nd : Node} (hb : b ≠ [])
    (h : walk t (a ++ b) = .ok nd) : ∃ c, walk t a = .ok (.dir c) := by
  induction t generalizing a with
  | nil =>
    cases a with
    | nil => exact ⟨_, walk_nil _⟩
    | cons s ss => simp [walk] at h
  | file n c0 r ih =>
    cases a with
    | nil => exact ⟨_, walk_nil _⟩
    | cons s ss =>
      by_cases he : n = s
      · simp [walk, he, hb] at h
      · rw [List.cons_append] at h
        simp only [walk, he, if_false] at h
        rw [← List.cons_append] at h
        obtain ⟨c, hc⟩ := ih h
        exact ⟨c, by simpa [walk, he] using hc⟩
  | dir n c0 r ihc ihr =>
    cases a with
    | nil => exact ⟨_, walk_nil _⟩
    | cons s ss =>
      by_cases he : n = s
      · rw [List.cons_append] at h
        simp only [walk, he, if_true] at h
        obtain ⟨c, hc⟩ := ihc h
        exact ⟨c, by simpa [walk, he] using hc⟩
      · rw [List.cons_append] at h
        simp only [walk, he, if_false] at h
        rw [← List.cons_append] at h
        obtain ⟨c, hc⟩ := ihr h
        exact ⟨c, by simpa [walk, he] using hc⟩

theorem walk_head_dirs {t : Entries} {n : Str} {ns : List Str} {D : Entries}
    (h : walk t (n :: ns) = .ok (.dir D)) : ∃ c, (n, c) ∈ t.dirs := by
  induction t with
  | nil => simp [walk] at h
  | file m c0 r ih =>
    by_cases he : m = n
    · by_cases hns : ns = [] <;> simp [walk, he, hns] at h
    · simp only [walk, he, if_false] at h
      obtain ⟨c, hc⟩ := ih h
      exact ⟨c, by simpa [Entries.dirs] using hc⟩
  | dir m c0 r _ ihr =>
    by_cases he : m = n
    · exact ⟨c0, by simp [Entries.dirs, he]⟩
    · simp only [walk, he, if_false] at h
      obtain ⟨c, hc⟩ := ihr h
      exact ⟨c, by simp [Entries.dirs, hc]⟩

theorem appendAt_under (data : Str) (create : Bool) {t c c' : Entries} {P Q : List Str}
    (hP : walk t P = .ok (.dir c)) (hQ : Q ≠ []) (h : appendAt data create c Q = .ok c') :
    ∃ t', appendAt data create t (P ++ Q) = .ok t' ∧ walk t' P = .ok (.dir c') := by
  induction t generalizing P with
  | nil =>
    cases P with
    | nil =>
      simp only [walk_nil, Except.ok.injEq, Node.dir.injEq] at hP
      subst hP
      exact ⟨c', h, walk_nil _⟩
    | cons p ps => simp [walk] at hP
  | file n c0 r ih =>
    cases P with
    | nil =>
      simp only [walk_nil, Except.ok.injEq, Node.dir.injEq] at hP
      subst hP
      exact ⟨c', h, walk_nil _⟩
    | cons p ps =>
      by_cases he : n = p
      · by_cases hps : ps = [] <;> simp [walk, he, hps] at hP
      · simp only [walk, he, if_false] at hP
        obtain ⟨r', hr1, hr2⟩ := ih hP
        refine ⟨.file n c0 r', ?_, ?_⟩
        · rw [List.cons_append] at hr1 ⊢
          simp only [appendAt, he, if_false]
          rw [hr1]
          rfl
        · simpa [walk, he] using hr2
  | dir n c0 r ihc ihr =>
    cases P with
    | nil =>
      simp only [walk_nil, Except.ok.injEq, Node.dir.injEq] at hP
      subst hP
      exact ⟨c', h, walk_nil _⟩
    | cons p ps =>
      by_cases he : n = p
      · simp only [walk, he, if_true] at hP
        obtain ⟨c1, hc1, hc2⟩ := ihc hP
        refine ⟨.dir n c1 r, ?_, ?_⟩
        · have hne : ps ++ Q ≠ [] := by simp [hQ]
          rw [List.cons_append]
          simp only [appendAt, he, if_true, hne, if_false]
          rw [hc1]
          rfl
        · simpa [walk, he] using hc2
      · simp only [walk, he, if_false] at hP
        obtain ⟨r', hr1, hr2⟩ := ihr hP
        refine ⟨.dir n c0 r', ?_, ?_⟩
        · rw [List.cons_append] at hr1 ⊢
          simp only [appendAt, he, if_false]
          rw [hr1]
          rfl
        · simpa [walk, he] using hr2

theorem listing_append (notes dirs : Bool) (u v : Entries) :
    listing notes dirs (u.append v) = listing notes dirs u ++ listing notes dirs v := by
  induction u with
  | nil => rfl
  | file n c r ih => simp [Entries.append, listing, ih]
  | dir n c r _ ih => simp [Entries.append, listing, ih]

/-! ## The claims on listings and notes -/

theorem MkdirAll_ok {fm : FM} {p : Str} {fs fs' : Entries}
    (h : MkdirAll fm p fs = (.ok (), fs')) :
    ∃ full, GetFullPath fm p = .ok full ∧ mkdirAllAt fs (osPath full) = .ok fs' := by
  unfold MkdirAll os_MkdirAll at h
  cases hg : GetFullPath fm p with
  | error e => simp [hg] at h
  | ok full =>
    cases hm : mkdirAllAt fs (osPath full) with
    | error e => simp [hg, hm] at h
    | ok fs1 =>
      simp only [hg, hm, Prod.mk.injEq, true_and] at h
      subst h
      exact ⟨full, rfl, hm⟩

/-- The output of `ListAllProjects`, for the root with the ordinary elements
`rs`. -/
theorem projects_listing_rootOf (rs : List Str) (hrs : ∀ r ∈ rs, Ordinary r) (fs t : Entries)
    (hroot : walk fs rs = .ok (.dir t)) (hwf : t.wf = true) (out : List Str)
    (hout : ListAllProjects (NewFM (rootOf rs)) fs = .ok out) :
    out.Nodup ∧
    (∀ s, s ∈ out ↔ ∃ segs, IsDirAt t segs ∧ s = joinSlash segs ++ ['/']) ∧
    (∀ s ∈ out, ¬ ("./".toList <+: s)) ∧
    out = listing false true t ∧
    (∀ fs0, NewProject (NewFM (rootOf rs)) "a/b/c".toList fs0 = (.ok (), fs) →
      "a/".toList ∈ out ∧ "a/b/".toList ∈ out ∧ "a/b/c/".toList ∈ out) := by
  rw [ListAllProjects_eq, genWorker_root false true rs hrs fs t hroot hwf] at hout
  have he : out = listing false true t := by
    split at hout
    · exact absurd hout (by simp)
    · injection hout with h; exact h.symm
  subst he
  refine ⟨listing_projects_nodup hwf, fun s => ⟨fun h => ?_, ?_⟩,
    fun s hs => listing_projects_no_dot_slash hwf hs, rfl, fun fs0 hnew => ?_⟩
  · obtain ⟨n, ss, _, hd, hs⟩ := isDirAt_of_mem_listing hwf h
    exact ⟨n :: ss, hd, hs⟩
  · rintro ⟨segs, hd, rfl⟩
    exact listing_dirs_mem_of_isDirAt false hd
  · obtain ⟨full, hfull, hmk⟩ := MkdirAll_ok hnew
    have habc : ∀ s ∈ ["a".toList, "b".toList, "c".toList], Ordinary s := by
      intro s hs
      simp only [List.mem_cons, List.mem_singleton, List.not_mem_nil, or_false] at hs
      rcases hs with rfl | rfl | rfl <;> exact ⟨by decide, by decide, by decide, by decide⟩
    have hj : "a/b/c".toList = joinSlash ["a".toList, "b".toList, "c".toList] := by rfl
    rw [hj, GetFullPath_join rs hrs (by simp) habc (by rfl)] at hfull
    injection hfull with hfull
    subst hfull
    have hall : ∀ s ∈ rs ++ ["a".toList, "b".toList, "c".toList], Ordinary s := by
      intro s hs
      rcases List.mem_append.1 hs with hs | hs
      · exact hrs s hs
      · exact habc s hs
    rw [osPath_slash_join _ hall] at hmk
    obtain ⟨c, hc⟩ := mkdirAllAt_isDir hmk
    rw [walk_append _ hroot] at hc
    obtain ⟨c2, hc2⟩ := walk_prefix_dir (a := ["a".toList, "b".toList]) (b := ["c".toList])
      (by simp) hc
    obtain ⟨c1, hc1⟩ := walk_prefix_dir (a := ["a".toList]) (b := ["b".toList])
      (by simp) hc2
    exact ⟨listing_dirs_mem_of_isDirAt false ⟨by simp, c1, hc1⟩,
      listing_dirs_mem_of_isDirAt false ⟨by simp, c2, hc2⟩,
      listing_dirs_mem_of_isDirAt false ⟨by simp, c, hc⟩⟩

/-- When the listings panic, for the root with the ordinary elements `rs`. -/
theorem panic_iff_rootOf (rs : List Str) (hrs : ∀ r ∈ rs, Ordinary r) (fs t : Entries)
    (hroot : walk fs rs = .ok (.dir t)) (hwf : t.wf = true) :
    (ListAll (NewFM (rootOf rs)) fs = .error .invalidName ↔
        ∃ x ∈ t.dirs, StartsWithNonWord x.1) ∧
    (ListAllNotes (NewFM (rootOf rs)) fs = .error .invalidName ↔
        ∃ x ∈ t.dirs, StartsWithNonWord x.1) ∧
    (ListAllProjects (NewFM (rootOf rs)) fs = .error .invalidName ↔
        ∃ x ∈ t.dirs, StartsWithNonWord x.1) ∧
    ((¬ ∃ x ∈ t.dirs, StartsWithNonWord x.1) →
        ListAll (NewFM (rootOf rs)) fs = .ok (listing true true t) ∧
        ListAllNotes (NewFM (rootOf rs)) fs = .ok (listing true false t) ∧
        ListAllProjects (NewFM (rootOf rs)) fs = .ok (listing false true t) ∧
        ∀ segs, IsDirAt t segs →
          joinSlash segs ++ ['/'] ∈ listing true true t ∧
          joinSlash segs ++ ['/'] ∈ listing false true t) := by
  rw [ListAll_eq, ListAllNotes_eq, ListAllProjects_eq,
    genWorker_root true true rs hrs fs t hroot hwf,
    genWorker_root true false rs hrs fs t hroot hwf,
    genWorker_root false true rs hrs fs t hroot hwf, ← hasIllegalDir_iff]
  by_cases h : hasIllegalDir t = true
  · simp [h]
  · simp only [h, Bool.false_eq_true, if_false, not_false_eq_true, true_implies, and_self,
      true_and, iff_false, false_iff]
    refine ⟨by simp, by simp, by simp, fun segs hd => ?_⟩
    exact ⟨listing_dirs_mem_of_isDirAt true hd, listing_dirs_mem_of_isDirAt false hd⟩

theorem GetFullNotePath_single (rs : List Str) (hrs : ∀ r ∈ rs, Ordinary r) {n : Str}
    (hn : Ordinary n) (hl : hasIllegalPath n = false)
    (hb : hasIllegalPath (path_Base n) = false) :
    GetFullNotePath (NewFM (rootOf rs)) n = .ok ('/' :: joinSlash (rs ++ [n ++ mdSuffix])) := by
  have hg := @GetFullPath_join rs hrs [n] (by simp) (by simpa using hn)
    (by simpa [joinSlash] using hl)
  simp only [joinSlash] at hg
  unfold GetFullNotePath
  rw [if_neg (by rw [hb]; simp), hg]
  simp only [Except.map, Except.ok.injEq]
  rw [List.cons_append]
  exact congrArg _ (joinSlash_append_last rs n mdSuffix)

/-- Writing a note whose name is one path element: the root directory changes
as a directory on its own would. -/
theorem QuickNote_in_root (rs : List Str) (hrs : ∀ r ∈ rs, Ordinary r) {n b : Str}
    (hn : Ordinary n) (hl : hasIllegalPath n = false)
    (hb : hasIllegalPath (path_Base n) = false) (hdir : path_Dir n = ['.'])
    {fs0 c : Entries} (cA c' : Entries) (hroot : walk fs0 rs = .ok (.dir c))
    (hA : appendAt [] true c [n ++ mdSuffix] = .ok cA)
    (hW : appendAt (b ++ ['\n']) false cA [n ++ mdSuffix] = .ok c') :
    ∃ fs1, QuickNote (NewFM (rootOf rs)) n b fs0 = (.ok (), fs1) ∧
      walk fs1 rs = .ok (.dir c') := by
  have hall : ∀ s ∈ rs ++ [n ++ mdSuffix], Ordinary s := by
    intro s hs
    rcases List.mem_append.1 hs with hs | hs
    · exact hrs s hs
    · simp only [List.mem_singleton] at hs
      subst hs
      exact hn.append_md
  have hd : GetFullPath (NewFM (rootOf rs)) (path_Dir n) = .ok ('/' :: joinSlash rs) := by
    rw [hdir, GetFullPath_dot rs hrs]
  have hnp := GetFullNotePath_single rs hrs hn hl hb
  have hm : mkdirAllAt fs0 (osPath ('/' :: joinSlash rs)) = .ok fs0 := by
    rw [osPath_slash_join rs hrs]
    exact mkdirAllAt_of_isDir hroot
  obtain ⟨fsA, hA1, hA2⟩ := appendAt_under [] true hroot (by simp) hA
  obtain ⟨fs1, hW1, hW2⟩ := appendAt_under (b ++ ['\n']) false hA2 (by simp) hW
  have h1 : appendAt [] true fs0 (osPath ('/' :: joinSlash (rs ++ [n ++ mdSuffix]))) = .ok fsA := by
    rw [osPath_slash_join _ hall]
    exact hA1
  have h2 : appendAt (b ++ ['\n']) false fsA (osPath ('/' :: joinSlash (rs ++ [n ++ mdSuffix])))
      = .ok fs1 := by
    rw [osPath_slash_join _ hall]
    exact hW1
  exact ⟨fs1, QuickNote_of hd hm hnp h1 h2, hW2⟩

/-- In a root that holds nothing, the notes `foo` and `bar` are created and
`ListNotes(".")` returns them, for the root with the ordinary elements `rs`. -/
theorem foo_bar_listed_rootOf (rs : List Str) (hrs : ∀ r ∈ rs, Ordinary r) (fs0 : Entries)
    (b1 b2 : Str) (hroot : walk fs0 rs = .ok (.dir .nil)) :
    ∃ fs1 fs2 out,
      QuickNote (NewFM (rootOf rs)) "foo".toList b1 fs0 = (.ok (), fs1) ∧
      QuickNote (NewFM (rootOf rs)) "bar".toList b2 fs1 = (.ok (), fs2) ∧
      ListNotes (NewFM (rootOf rs)) ['.'] fs2 = .ok out ∧
      out.Perm ["foo".toList, "bar".toList] := by
  have ofoo : Ordinary "foo".toList := ⟨by decide, by decide, by decide, by decide⟩
  have obar : Ordinary "bar".toList := ⟨by decide, by decide, by decide, by decide⟩
  obtain ⟨fs1, hq1, hw1⟩ := QuickNote_in_root rs hrs (n := "foo".toList) (b := b1) ofoo
    (by rfl) (by rfl) (by rfl)
    (.file "foo.md".toList [] .nil)
    (.file "foo.md".toList (b1 ++ ['\n']) .nil) hroot (by rfl) (by rfl)
  obtain ⟨fs2, hq2, hw2⟩ := QuickNote_in_root rs hrs (n := "bar".toList) (b := b2) obar
    (by rfl) (by rfl) (by rfl)
    (.file "foo.md".toList (b1 ++ ['\n']) (.file "bar.md".toList [] .nil))
    (.file "foo.md".toList (b1 ++ ['\n']) (.file "bar.md".toList (b2 ++ ['\n']) .nil))
    hw1 (by rfl) (by rfl)
  refine ⟨fs1, fs2, ["foo".toList, "bar".toList], hq1, hq2, ?_, List.Perm.refl _⟩
  rw [ListNotes_of_read (GetFullPath_dot rs hrs) (ioutil_ReadDir_of_walk hrs hw2)]
  rfl

/-- The order of the listings, for the root with the ordinary elements `rs`. -/
theorem entry_order_rootOf (rs : List Str) (hrs : ∀ r ∈ rs, Ordinary r)
    (fs t : Entries) (hroot : walk fs rs = .ok (.dir t)) (hwf : t.wf = true)
    (hlegal : ¬ ∃ x ∈ t.dirs, StartsWithNonWord x.1) :
    ListAllNotes (NewFM (rootOf rs)) fs = .ok (listing true false t) ∧
    ListAll (NewFM (rootOf rs)) fs = .ok (listing true true t) ∧
    (∀ names D, names ≠ [] → walk t names = .ok (.dir D) →
      listAllNotesWorker (NewFM (rootOf rs)) fs (fs.height + 1) (joinSlash names)
        = .ok (listing true false D) ∧
      listAllWorker (NewFM (rootOf rs)) fs (fs.height + 1) (joinSlash names)
        = .ok (listing true true D)) ∧
    (∀ (dirs : Bool) (u1 u2 : Entries) (n content : Str),
      listing true dirs (u1.append (.file n content u2))
        = listing true dirs u1 ++ noteOf n ++ listing true dirs u2) ∧
    (∀ (dirs : Bool) (u1 u2 c : Entries) (n : Str),
      listing true dirs (u1.append (.dir n c u2))
        = listing true dirs u1
          ++ (noteOf n ++ (if dirs = true then [n ++ ['/']] else [])
              ++ (listing true dirs c).map (fun subp => n ++ ['/'] ++ subp))
          ++ listing true dirs u2) := by
  have hill : hasIllegalDir t = false := by
    cases h : hasIllegalDir t with
    | false => rfl
    | true => exact absurd ((hasIllegalDir_iff t).1 h) hlegal
  refine ⟨?_, ?_, ?_, ?_, ?_⟩
  · rw [ListAllNotes_eq, genWorker_root true false rs hrs fs t hroot hwf, hill]
    simp
  · rw [ListAll_eq, genWorker_root true true rs hrs fs t hroot hwf, hill]
    simp
  · intro names D hne hD
    have hord : ∀ s ∈ names, Ordinary s := walk_ordinary hwf hD
    have hwalk : walk fs (rs ++ names) = .ok (.dir D) := by
      rw [walk_append names hroot]
      exact hD
    have hleg : hasIllegalPath (joinSlash names) = false := by
      cases names with
      | nil => exact absurd rfl hne
      | cons n ns =>
        obtain ⟨c, hc⟩ := walk_head_dirs hD
        have hno := hord n (by simp)
        have h1 : hasIllegalPath (joinSlash (n :: ns)) = hasIllegalPath n := by
          cases ns with
          | nil => rfl
          | cons m ms => rw [joinSlash_cons_cons, hasIllegalPath_append hno.ne_nil]
        rw [h1]
        cases h2 : hasIllegalPath n with
        | false => rfl
        | true => exact absurd ⟨(n, c), hc, (hasIllegalPath_iff n).1 h2⟩ hlegal
    have hDwf : D.wf = true := walk_wf hwf hD
    have hfuel : D.height ≤ fs.height := walk_height hwalk
    exact ⟨by
        rw [listAllNotesWorker_eq]
        exact genWorker_deep true false rs hrs fs D fs.height names hne hord hleg hwalk hDwf hfuel,
      by
        rw [listAllWorker_eq]
        exact genWorker_deep true true rs hrs fs D fs.height names hne hord hleg hwalk hDwf hfuel⟩
  · intro dirs u1 u2 n content
    rw [listing_append]
    simp [listing]
  · intro dirs u1 u2 c n
    rw [listing_append]
    simp [listing]

/-! ## Clean absolute roots -/

theorem cleanStep_rooted_ordinary (stk : List Str) (seg : Str) (hseg : '/' ∉ seg)
    (h : ∀ s ∈ stk, Ordinary s) : ∀ s ∈ cleanStep true stk seg, Ordinary s := by
  by_cases h1 : seg = [] ∨ seg = ['.']
  · simpa [cleanStep, h1] using h
  · by_cases h2 : seg = dotdot
    · subst h2
      cases stk with
      | nil => simp [cleanStep, dotdot]
      | cons o os =>
        have ho : o ≠ dotdot := (h o (by simp)).2.2.2
        have : cleanStep true (o :: os) dotdot = os := by
          simp [cleanStep, dotdot] at ho ⊢
          simp [ho]
        rw [this]
        exact fun s hs => h s (by simp [hs])
    · push_neg at h1
      have hord : Ordinary seg := ⟨h1.1, hseg, h1.2, h2⟩
      rw [cleanStep_ordinary _ _ hord]
      intro s hs
      rcases List.mem_cons.1 hs with rfl | hs
      · exact hord
      · exact h s hs

theorem foldl_cleanStep_rooted_ordinary (segs : List Str) (hsegs : ∀ s ∈ segs, '/' ∉ s)
    (stk : List Str) (h : ∀ s ∈ stk, Ordinary s) :
    ∀ s ∈ segs.foldl (cleanStep true) stk, Ordinary s := by
  induction segs generalizing stk with
  | nil => exact h
  | cons a as ih =>
    rw [List.foldl_cons]
    exact ih (fun x hx => hsegs x (by simp [hx])) _
      (cleanStep_rooted_ordinary stk a (hsegs a (by simp)) h)

/-- The elements of a cleaned absolute path are ordinary. -/
theorem cleanSegs_rooted_ordinary (segs : List Str) (hsegs : ∀ s ∈ segs, '/' ∉ s) :
    ∀ s ∈ cleanSegs true segs, Ordinary s := by
  intro s hs
  unfold cleanSegs at hs
  exact foldl_cleanStep_rooted_ordinary segs hsegs [] (by simp) s (List.mem_reverse.1 hs)

theorem osPath_ordinary (p : Str) : ∀ s ∈ osPath p, Ordinary s :=
  cleanSegs_rooted_ordinary _ (mem_splitSlash_noSlash p)

theorem osPath_rootOf (rs : List Str) (hrs : ∀ r ∈ rs, Ordinary r) : osPath (rootOf rs) = rs := by
  cases rs with
  | nil => rfl
  | cons r rs' =>
    have e : rootOf (r :: rs') = '/' :: (joinSlash (r :: rs') ++ '/' :: []) := by
      simp [rootOf]
    unfold osPath
    rw [e, splitSlash_cons_slash, splitSlash_append_slash,
      splitSlash_joinSlash (by simp) (fun s hs => (hrs s hs).noSlash), cleanSegs_nil_cons]
    unfold cleanSegs
    rw [List.foldl_append, foldl_cleanStep_ordinary true (r :: rs') hrs]
    simp [splitSlash, cleanStep_nil]

/-- The roots of the specification are the paths `rootOf rs` for ordinary
elements `rs`. -/
theorem isCleanRoot_iff (base : Str) :
    IsCleanRoot base ↔ ∃ rs, (∀ r ∈ rs, Ordinary r) ∧ base = rootOf rs := by
  constructor
  · rintro (rfl | ⟨q, hq, rfl, hhead, hclean⟩)
    · exact ⟨[], by simp, rfl⟩
    · have hne : q ≠ [] := by
        rintro rfl
        simp at hhead
      have hc : path_Clean q = '/' :: joinSlash (osPath q) := by
        unfold path_Clean osPath
        rw [if_neg hne]
        simp [hhead]
      rw [hclean] at hc
      have hout : osPath q ≠ [] := by
        intro h0
        rw [h0] at hc
        exact hq hc
      obtain ⟨r, rs', hrs'⟩ := List.exists_cons_of_ne_nil hout
      refine ⟨osPath q, osPath_ordinary q, ?_⟩
      rw [hrs']
      conv_lhs => rw [hc, hrs']
      simp [rootOf]
  · rintro ⟨rs, hrs, rfl⟩
    cases rs with
    | nil => exact Or.inl rfl
    | cons r rs' =>
      refine Or.inr ⟨'/' :: joinSlash (r :: rs'), ?_, by simp [rootOf], rfl,
        path_Clean_slash_join _ hrs⟩
      intro h
      injection h with _ h
      exact joinSlash_ne_nil (by simp) (fun s hs => (hrs s hs).ne_nil) h

theorem isCleanRoot_slash_r : IsCleanRoot "/r/".toList :=
  Or.inr ⟨"/r".toList, by decide, rfl, rfl, by rfl⟩

/-! ## The claims for a root as the specification describes it -/

/-- C9 as the specification words its last sentence fails: under the root
`/r/` the names `..` and `a/../..` have the cleaned form `..`, and the check on
`path.Dir(p)` does not refuse them, since `path.Dir(p)` is `.`; on the empty
file system `OpenFile` of `a/../..` ends at the base-name check, after
`MkdirAll` has made the root directory. -/
theorem parent_check_passes_dotdot :
    IsCleanRoot "/r/".toList ∧
    path_Clean "..".toList = dotdot ∧ path_Clean "a/../..".toList = dotdot ∧
    ¬ ParentCheckRejects "/r/".toList "..".toList ∧
    ¬ ParentCheckRejects "/r/".toList "a/../..".toList ∧
    GetFullPath (NewFM "/r/".toList) (path_Dir "..".toList) = .ok "/r".toList ∧
    GetFullPath (NewFM "/r/".toList) (path_Dir "a/../..".toList) = .ok "/r".toList ∧
    OpenFile (NewFM "/r/".toList) "a/../..".toList .nil
      = (.error .invalidName, .dir "r".toList .nil .nil) := by
  have h1 : GetFullPath (NewFM "/r/".toList) (path_Dir "..".toList) = .ok "/r".toList := by rfl
  have h2 : GetFullPath (NewFM "/r/".toList) (path_Dir "a/../..".toList) = .ok "/r".toList := by
    rfl
  refine ⟨isCleanRoot_slash_r, by rfl, by rfl, ?_, ?_, h1, h2, by rfl⟩
  · intro h
    have h3 := h ⟨[], by rfl⟩
    rw [h1] at h3
    exact absurd h3 (by simp)
  · intro h
    have h3 := h ⟨[], by rfl⟩
    rw [h2] at h3
    exact absurd h3 (by simp)

/-- C9 as amended, for a clean absolute root.  A name that passes the three
name checks of `OpenFile` (the check of `MkdirAll` on `path.Dir(p)`, the
base-name check and the leading-character check of `GetFullNotePath`) opens
the root followed by a non-empty sequence of ordinary elements, none of them
`..`; so does every successful `OpenFile`.  A name that `GetFullNotePath`
accepts and whose cleaned form starts with `..` is refused by the check on
`path.Dir(p)`, as is `a/../../etc/passwd`.  For every name whose cleaned form
starts with `..`: the check on `path.Dir(p)` refuses it exactly when
`path.Dir(p)` is not `.`; when `path.Dir(p)` is `.`, `GetFullNotePath` refuses
the name and `OpenFile` makes the root directory with `MkdirAll` and then ends
at the base-name check (or returns the error of `MkdirAll`); and `OpenFile`
fails in every case. -/
theorem OpenFile_stays_inside (base : Str) (hbase : IsCleanRoot base) (p : Str) :
    (∀ dfull phys, GetFullPath (NewFM base) (path_Dir p) = .ok dfull →
        GetFullNotePath (NewFM base) p = .ok phys →
        ∃ segs, segs ≠ [] ∧ (∀ s ∈ segs, Ordinary s) ∧ phys = base ++ joinSlash segs) ∧
    (∀ fs fp fs', OpenFile (NewFM base) p fs = (.ok fp, fs') →
        ∃ segs, segs ≠ [] ∧ (∀ s ∈ segs, Ordinary s) ∧ fp.segs = osPath base ++ segs) ∧
    (∀ phys, GetFullNotePath (NewFM base) p = .ok phys → dotdot <+: path_Clean p →
        GetFullPath (NewFM base) (path_Dir p) = .error .invalidName ∧
        ∀ fs, OpenFile (NewFM base) p fs = (.error .invalidName, fs)) ∧
    ((∃ phys, GetFullNotePath (NewFM base) "a/../../etc/passwd".toList = .ok phys) ∧
      ∀ fs, OpenFile (NewFM base) "a/../../etc/passwd".toList fs
        = (.error .invalidName, fs)) ∧
    (dotdot <+: path_Clean p →
      (GetFullPath (NewFM base) (path_Dir p) = .error .invalidName ↔ path_Dir p ≠ ['.']) ∧
      (path_Dir p ≠ ['.'] → ∀ fs, OpenFile (NewFM base) p fs = (.error .invalidName, fs)) ∧
      (path_Dir p = ['.'] →
        GetFullNotePath (NewFM base) p = .error .invalidName ∧
        ∀ fs, OpenFile (NewFM base) p fs =
          match mkdirAllAt fs (osPath base) with
          | .ok fs1 => (.error .invalidName, fs1)
          | .error e => (.error e, fs)) ∧
      (∀ fs, ∃ e fs1, OpenFile (NewFM base) p fs = (.error e, fs1))) := by
  obtain ⟨rs, hrs, rfl⟩ := (isCleanRoot_iff base).1 hbase
  rw [osPath_rootOf rs hrs]
  obtain ⟨c1, c2, c3, c4⟩ := write_path_inside_rootOf rs hrs p
  refine ⟨c1, c2, c3, c4, fun hdd => ?_⟩
  obtain ⟨d1, d2, d3⟩ := dotdot_refused_rootOf rs hrs p hdd
  refine ⟨d1, fun hne fs => ?_, d2, d3⟩
  have hf := d1.2 hne
  simp [OpenFile, MkdirAll, hf]

/-- C9 as amended at the root `/r/`: `OpenFile` of `a/b` opens `/r/a/b.md`; the
name `..` passes the check on `path.Dir`, and `OpenFile` of it on the empty
file system makes the directory `r` and then fails with the invalid-name
failure. -/
theorem OpenFile_stays_inside_witness :
    IsCleanRoot "/r/".toList ∧
    GetFullPath (NewFM "/r/".toList) (path_Dir "a/b".toList) = .ok "/r/a".toList ∧
    GetFullNotePath (NewFM "/r/".toList) "a/b".toList = .ok "/r/a/b.md".toList ∧
    (∃ segs, segs ≠ [] ∧ (∀ s ∈ segs, Ordinary s) ∧
      "/r/a/b.md".toList = "/r/".toList ++ joinSlash segs) ∧
    dotdot <+: path_Clean "..".toList ∧ path_Dir "..".toList = ['.'] ∧
    GetFullNotePath (NewFM "/r/".toList) "..".toList = .error .invalidName ∧
    OpenFile (NewFM "/r/".toList) "..".toList .nil
      = (.error .invalidName, .dir "r".toList .nil .nil) :=
  ⟨isCleanRoot_slash_r, by rfl, by rfl,
    (OpenFile_stays_inside "/r/".toList isCleanRoot_slash_r "a/b".toList).1
      "/r/a".toList "/r/a/b.md".toList (by rfl) (by rfl),
    ⟨[], by rfl⟩, by rfl,
    (((OpenFile_stays_inside "/r/".toList isCleanRoot_slash_r "..".toList).2.2.2.2
      ⟨[], by rfl⟩).2.2.1 (by rfl)).1,
    ((((OpenFile_stays_inside "/r/".toList isCleanRoot_slash_r "..".toList).2.2.2.2
      ⟨[], by rfl⟩).2.2.1 (by rfl)).2 .nil).trans (by rfl)⟩

/-- C5 for a clean absolute root and the tree `t` of its directory, a tree
with ordinary names, no two of them equal in one directory: when
`ListAllProjects` returns, its output has no line twice, its lines are exactly
the paths `e1/e2/.../ek/` of the directories strictly below the root, none
starts with `./`, and it is the listing of the tree with the lines `name/`
alone.  When the file system is the one that creating the project `a/b/c`
left, the output has the lines `a/`, `a/b/` and `a/b/c/`. -/
theorem ListAllProjects_exact (base : Str) (hbase : IsCleanRoot base) (fs t : Entries)
    (hroot : walk fs (osPath base) = .ok (.dir t)) (hwf : t.wf = true) (out : List Str)
    (hout : ListAllProjects (NewFM base) fs = .ok out) :
    out.Nodup ∧
    (∀ s, s ∈ out ↔ ∃ segs, IsDirAt t segs ∧ s = joinSlash segs ++ ['/']) ∧
    (∀ s ∈ out, ¬ ("./".toList <+: s)) ∧
    out = listing false true t ∧
    (∀ fs0, NewProject (NewFM base) "a/b/c".toList fs0 = (.ok (), fs) →
      "a/".toList ∈ out ∧ "a/b/".toList ∈ out ∧ "a/b/c/".toList ∈ out) := by
  obtain ⟨rs, hrs, rfl⟩ := (isCleanRoot_iff base).1 hbase
  rw [osPath_rootOf rs hrs] at hroot
  exact projects_listing_rootOf rs hrs fs t hroot hwf out hout

/-- C5 at the root `/r/` with the projects `a`, `a/b` and `a/b/c`. -/
theorem ListAllProjects_exact_witness :
    IsCleanRoot "/r/".toList ∧
    walk (.dir "r".toList (mkChain ["a".toList, "b".toList, "c".toList]) .nil)
      (osPath "/r/".toList) = .ok (.dir (mkChain ["a".toList, "b".toList, "c".toList])) ∧
    (mkChain ["a".toList, "b".toList, "c".toList]).wf = true ∧
    ListAllProjects (NewFM "/r/".toList)
      (.dir "r".toList (mkChain ["a".toList, "b".toList, "c".toList]) .nil)
      = .ok ["a/".toList, "a/b/".toList, "a/b/c/".toList] ∧
    ["a/".toList, "a/b/".toList, "a/b/c/".toList].Nodup ∧
    ("a/".toList ∈ ["a/".toList, "a/b/".toList, "a/b/c/".toList] ∧
      "a/b/".toList ∈ ["a/".toList, "a/b/".toList, "a/b/c/".toList] ∧
      "a/b/c/".toList ∈ ["a/".toList, "a/b/".toList, "a/b/c/".toList]) := by
  have h := ListAllProjects_exact "/r/".toList isCleanRoot_slash_r
    (.dir "r".toList (mkChain ["a".toList, "b".toList, "c".toList]) .nil)
    (mkChain ["a".toList, "b".toList, "c".toList]) (by rfl) (by rfl)
    ["a/".toList, "a/b/".toList, "a/b/c/".toList] (by rfl)
  exact ⟨isCleanRoot_slash_r, by rfl, by rfl, by rfl, h.1,
    h.2.2.2.2 (.dir "r".toList .nil .nil) (by rfl)⟩

/-- C10 for a clean absolute root and the tree `t` of its directory, whose
directories can all be read: each of `ListAll`, `ListAllNotes` and
`ListAllProjects` panics with the invalid-name failure exactly when a
directory directly in the root has a name that starts with a character that
is not a word character.  Otherwise each returns the listing of the whole
tree, in which every directory below the root has its line whatever the first
character of a name at depth two or more. -/
theorem listings_panic_iff (base : Str) (hbase : IsCleanRoot base) (fs t : Entries)
    (hroot : walk fs (osPath base) = .ok (.dir t)) (hwf : t.wf = true) :
    (ListAll (NewFM base) fs = .error .invalidName ↔
        ∃ x ∈ t.dirs, StartsWithNonWord x.1) ∧
    (ListAllNotes (NewFM base) fs = .error .invalidName ↔
        ∃ x ∈ t.dirs, StartsWithNonWord x.1) ∧
    (ListAllProjects (NewFM base) fs = .error .invalidName ↔
        ∃ x ∈ t.dirs, StartsWithNonWord x.1) ∧
    ((¬ ∃ x ∈ t.dirs, StartsWithNonWord x.1) →
        ListAll (NewFM base) fs = .ok (listing true true t) ∧
        ListAllNotes (NewFM base) fs = .ok (listing true false t) ∧
        ListAllProjects (NewFM base) fs = .ok (listing false true t) ∧
        ∀ segs, IsDirAt t segs →
          joinSlash segs ++ ['/'] ∈ listing true true t ∧
          joinSlash segs ++ ['/'] ∈ listing false true t) := by
  obtain ⟨rs, hrs, rfl⟩ := (isCleanRoot_iff base).1 hbase
  rw [osPath_rootOf rs hrs] at hroot
  exact panic_iff_rootOf rs hrs fs t hroot hwf

/-- C10 at the root `/r/` that holds `a/.git`: nothing panics and `a/.git/` is
listed; with `.git` directly in the root `ListAll` panics. -/
theorem listings_panic_iff_witness :
    IsCleanRoot "/r/".toList ∧
    ListAll (NewFM "/r/".toList)
      (.dir "r".toList (.dir "a".toList (.dir ".git".toList .nil .nil) .nil) .nil)
      = .ok (listing true true (.dir "a".toList (.dir ".git".toList .nil .nil) .nil)) ∧
    listing true true (.dir "a".toList (.dir ".git".toList .nil .nil) .nil)
      = ["a/".toList, "a/.git/".toList] ∧
    ListAll (NewFM "/r/".toList)
      (.dir "r".toList (.dir ".git".toList .nil .nil) .nil) = .error .invalidName := by
  refine ⟨isCleanRoot_slash_r, ?_, by rfl, ?_⟩
  · exact ((listings_panic_iff "/r/".toList isCleanRoot_slash_r
      (.dir "r".toList (.dir "a".toList (.dir ".git".toList .nil .nil) .nil) .nil)
      (.dir "a".toList (.dir ".git".toList .nil .nil) .nil) (by rfl) (by rfl)).2.2.2
      (by
        rintro ⟨x, hx, c, cs, hc, hw⟩
        simp only [Entries.dirs, List.mem_singleton] at hx
        subst hx
        injection hc with h1 _
        subst h1
        exact absurd hw (by decide))).1
  · exact (listings_panic_iff "/r/".toList isCleanRoot_slash_r
      (.dir "r".toList (.dir ".git".toList .nil .nil) .nil)
      (.dir ".git".toList .nil .nil) (by rfl) (by rfl)).1.2
      ⟨(".git".toList, .nil), by simp [Entries.dirs], '.', "git".toList, rfl, by decide⟩

/-- C7: when the project path `p` is resolved to a directory that can be read,
with the entries `files`, `ListNotes(p)` returns the names that end in `.md`,
in the order of the directory, each without that one suffix `.md` (the
returned names with `.md` put back are the entry names that end in `.md`).
In a clean absolute root that holds nothing, after the notes `foo` and `bar`
are created, `ListNotes(".")` returns `foo` and `bar` and nothing else. -/
theorem ListNotes_exact (fm : FM) (p : Str) (fs : Entries) (full : Str) (files : List FileInfo)
    (hp : GetFullPath fm p = .ok full) (hr : ioutil_ReadDir fs full = .ok files) :
    (∃ out, ListNotes fm p fs = .ok out ∧
      out.map (fun s => s ++ ".md".toList)
        = (files.map (fun f => f.name)).filter (fun e => decide (".md".toList <:+ e))) ∧
    (∀ base, IsCleanRoot base → ∀ fs0 b1 b2, walk fs0 (osPath base) = .ok (.dir .nil) →
      ∃ fs1 fs2 out,
        QuickNote (NewFM base) "foo".toList b1 fs0 = (.ok (), fs1) ∧
        QuickNote (NewFM base) "bar".toList b2 fs1 = (.ok (), fs2) ∧
        ListNotes (NewFM base) ['.'] fs2 = .ok out ∧
        out.Perm ["foo".toList, "bar".toList]) := by
  constructor
  · exact ⟨_, ListNotes_of_read hp hr, map_noteOf_append _⟩
  · intro base hbase fs0 b1 b2 hroot
    obtain ⟨rs, hrs, rfl⟩ := (isCleanRoot_iff base).1 hbase
    rw [osPath_rootOf rs hrs] at hroot
    exact foo_bar_listed_rootOf rs hrs fs0 b1 b2 hroot

/-- C7 at the root `/r/` that holds `foo.md`, the directory `sub` and
`bar.md`. -/
theorem ListNotes_exact_witness :
    GetFullPath (NewFM "/r/".toList) ['.'] = .ok "/r".toList ∧
    (∃ out, ListNotes (NewFM "/r/".toList) ['.']
        (.dir "r".toList (.file "foo.md".toList [] (.dir "sub".toList .nil
          (.file "bar.md".toList [] .nil))) .nil) = .ok out ∧
      out.map (fun s => s ++ ".md".toList)
        = (["foo.md".toList, "sub".toList, "bar.md".toList]).filter
            (fun e => decide (".md".toList <:+ e))) :=
  ⟨by rfl, (ListNotes_exact (NewFM "/r/".toList) ['.']
    (.dir "r".toList (.file "foo.md".toList [] (.dir "sub".toList .nil
      (.file "bar.md".toList [] .nil))) .nil) "/r".toList
    [⟨"foo.md".toList, false⟩, ⟨"sub".toList, true⟩, ⟨"bar.md".toList, false⟩]
    (by rfl) (by rfl)).1⟩

/-- C6 as the specification words it fails on the tree that holds the
directory `a` with the note `x` and, after it, the note `b`: `ListAllNotes`
returns `a/x` before `b`, `ListAll` returns `a/` and `a/x` before `b`, and `b`
is a note directly in the root while `a/x` comes from descending into `a`. -/
theorem notes_not_before_descent :
    ListAllNotes (NewFM "/r/".toList) orderFS = .ok ["a/x".toList, "b".toList] ∧
    ¬ NotesBeforeDescent orderTree ["a/x".toList, "b".toList] ∧
    ListAll (NewFM "/r/".toList) orderFS = .ok ["a/".toList, "a/x".toList, "b".toList] ∧
    ¬ NotesBeforeDescent orderTree ["a/".toList, "a/x".toList, "b".toList] := by
  refine ⟨by rfl, ?_, by rfl, ?_⟩
  · intro h
    have := h "b".toList "a/x".toList (by decide) (by decide)
      ⟨("a".toList, .file "x.md".toList [] .nil), by simp [orderTree, Entries.dirs],
        "x".toList, by decide, by rfl⟩
    revert this
    decide
  · intro h
    have := h "b".toList "a/x".toList (by decide) (by decide)
      ⟨("a".toList, .file "x.md".toList [] .nil), by simp [orderTree, Entries.dirs],
        "x".toList, by decide, by rfl⟩
    revert this
    decide

/-- C6 as amended, for a clean absolute root and the tree `t` of its directory
in which no directory directly in the root has a name that starts with a
character that is not a word character: `ListAllNotes` and `ListAll` return
the listing of the tree, and on every directory `D` of the tree the workers
return the listing of `D`.  A listing goes through the entries of a directory
in their order: the output for the entries before a note file, then the note,
then the output for the entries after it; and for a directory entry its own
lines (its note name, for `ListAll` its `name/`, then the lines of its content
with `name/` in front) between the output for the entries before it and the
output for those after it. -/
theorem listings_follow_entry_order (base : Str) (hbase : IsCleanRoot base)
    (fs t : Entries) (hroot : walk fs (osPath base) = .ok (.dir t)) (hwf : t.wf = true)
    (hlegal : ¬ ∃ x ∈ t.dirs, StartsWithNonWord x.1) :
    ListAllNotes (NewFM base) fs = .ok (listing true false t) ∧
    ListAll (NewFM base) fs = .ok (listing true true t) ∧
    (∀ names D, names ≠ [] → walk t names = .ok (.dir D) →
      listAllNotesWorker (NewFM base) fs (fs.height + 1) (joinSlash names)
        = .ok (listing true false D) ∧
      listAllWorker (NewFM base) fs (fs.height + 1) (joinSlash names)
        = .ok (listing true true D)) ∧
    (∀ (dirs : Bool) (u1 u2 : Entries) (n content : Str),
      listing true dirs (u1.append (.file n content u2))
        = listing true dirs u1 ++ noteOf n ++ listing true dirs u2) ∧
    (∀ (dirs : Bool) (u1 u2 c : Entries) (n : Str),
      listing true dirs (u1.append (.dir n c u2))
        = listing true dirs u1
          ++ (noteOf n ++ (if dirs = true then [n ++ ['/']] else [])
              ++ (listing true dirs c).map (fun subp => n ++ ['/'] ++ subp))
          ++ listing true dirs u2) := by
  obtain ⟨rs, hrs, rfl⟩ := (isCleanRoot_iff base).1 hbase
  rw [osPath_rootOf rs hrs] at hroot
  exact entry_order_rootOf rs hrs fs t hroot hwf hlegal

/-- C6 as amended at the tree of the counterexample: `ListAllNotes` returns the
listing of the tree, in which the note `b`, an entry after the directory `a`,
stands after `a/x`. -/
theorem listings_follow_entry_order_witness :
    IsCleanRoot "/r/".toList ∧ walk orderFS (osPath "/r/".toList) = .ok (.dir orderTree) ∧
    orderTree.wf = true ∧
    ListAllNotes (NewFM "/r/".toList) orderFS = .ok (listing true false orderTree) ∧
    listing true false orderTree = ["a/x".toList, "b".toList] := by
  refine ⟨isCleanRoot_slash_r, by rfl, by rfl, ?_, by rfl⟩
  exact (listings_follow_entry_order "/r/".toList isCleanRoot_slash_r orderFS orderTree (by rfl)
    (by rfl) (by
      rintro ⟨x, hx, c, cs, hc, hw⟩
      simp only [orderTree, Entries.dirs, List.mem_singleton] at hx
      subst hx
      injection hc with h1 _
      subst h1
      exact absurd hw (by decide))).1

/-! ## `path.Clean` byte by byte and element by element -/

theorem splitSlash_takeWhile (rest : Str) :
    ∃ ss, splitSlash rest = rest.takeWhile (fun x => decide (x ≠ '/')) :: ss ∧
      splitSlash (rest.dropWhile (fun x => decide (x ≠ '/'))) = [] :: ss := by
  induction rest with
  | nil => exact ⟨[], rfl, rfl⟩
  | cons c r ih =>
    by_cases hc : c = '/'
    · subst hc
      exact ⟨splitSlash r, by simp [splitSlash], by simp [splitSlash]⟩
    · obtain ⟨ss, h1, h2⟩ := ih
      refine ⟨ss, ?_, ?_⟩
      · simp [splitSlash, hc, h1]
      · simpa [hc] using h2

theorem takeWhile_nil_iff (rest : Str) :
    rest.takeWhile (fun x => decide (x ≠ '/')) = [] ↔ (rest = [] ∨ rest.head? = some '/') := by
  cases rest with
  | nil => simp
  | cons c r =>
    by_cases hc : c = '/'
    · simp [hc]
    · simp [hc]

theorem dropWhile_of_takeWhile_nil {rest : Str}
    (h : rest.takeWhile (fun x => decide (x ≠ '/')) = []) :
    rest.dropWhile (fun x => decide (x ≠ '/')) = rest := by
  cases rest with
  | nil => rfl
  | cons c r =>
    by_cases hc : c = '/'
    · simp [hc]
    · simp [hc] at h

theorem joinSlash_length_le_append (a b : List Str) :
    (joinSlash a).length ≤ (joinSlash (a ++ b)).length := by
  cases b with
  | nil => simp
  | cons x m =>
    by_cases ha : a = []
    · subst ha; simp [joinSlash]
    · rw [joinSlash_append_cons _ _ ha]
      simp

theorem renderStk_nil (rooted : Bool) :
    renderStk rooted [] = if rooted = true then ['/'] else [] := by
  cases rooted <;> rfl

theorem renderStk_push (rooted : Bool) (stk : List Str) (hne : ∀ s ∈ stk, s ≠ []) (e : Str) :
    renderStk rooted (e :: stk) = e.reverse ++
      (if (rooted = true ∧ (renderStk rooted stk).length ≠ 1) ∨
          (rooted = false ∧ (renderStk rooted stk).length ≠ 0)
       then '/' :: renderStk rooted stk else renderStk rooted stk) := by
  by_cases hs : stk = []
  · subst hs
    cases rooted <;> simp [renderStk, joinSlash]
  · have hr : stk.reverse ≠ [] := by simpa using hs
    have hj : joinSlash stk.reverse ≠ [] :=
      joinSlash_ne_nil hr (fun s h => hne s (List.mem_reverse.1 h))
    have hl : 0 < (joinSlash stk.reverse).length := List.length_pos.2 hj
    have e1 : joinSlash (stk.reverse ++ [e]) = joinSlash stk.reverse ++ '/' :: e := by
      rw [joinSlash_append_cons _ _ hr]
      rfl
    cases rooted
    · have hc : (renderStk false stk).length ≠ 0 := by
        simp only [renderStk, Bool.false_eq_true, if_false, List.nil_append, List.length_reverse]
        omega
      simp only [hc, ne_eq, not_false_eq_true, and_true, Bool.false_eq_true, false_and, false_or,
        if_true]
      simp [renderStk, e1]
    · have hc : (renderStk true stk).length ≠ 1 := by
        simp only [renderStk, if_true, List.length_reverse, List.length_append, List.length_cons,
          List.length_nil]
        omega
      simp only [hc, ne_eq, not_false_eq_true, and_true, Bool.true_eq_false, false_and, or_false,
        if_true]
      simp [renderStk, e1]

theorem StackShape.elems_ne_nil {rooted : Bool} {stk ords : List Str} {k : Nat}
    (h : StackShape rooted stk ords k) : ∀ s ∈ stk, s ≠ [] := by
  obtain ⟨rfl, ho, _⟩ := h
  intro s hs
  rcases List.mem_append.1 hs with hs | hs
  · exact (ho s hs).ne_nil
  · rw [List.eq_of_mem_replicate hs]
    decide

theorem renderStk_length_replicate (rooted : Bool) (k : Nat) (hk : rooted = true → k = 0) :
    (renderStk rooted (List.replicate k dotdot)).length = ddOf rooted k := by
  cases rooted
  · simp [renderStk, ddOf]
  · have := hk rfl
    subst this
    simp [renderStk, ddOf, joinSlash]

theorem ddOf_le_length {rooted : Bool} {stk ords : List Str} {k : Nat}
    (h : StackShape rooted stk ords k) : ddOf rooted k ≤ (renderStk rooted stk).length := by
  obtain ⟨rfl, _, hk⟩ := h
  cases rooted
  · simp only [renderStk, ddOf, Bool.false_eq_true, if_false, List.nil_append,
      List.length_reverse, List.reverse_append, List.reverse_replicate]
    exact joinSlash_length_le_append _ _
  · simp [renderStk, ddOf]

theorem lazybufBack_cons (dd : Nat) (popped c : Char) (out : List Char) :
    lazybufBack dd popped (c :: out)
      = if (c :: out).length > dd ∧ popped ≠ '/' then lazybufBack dd c out else c :: out := rfl

theorem lazybufBack_sep (dd : Nat) (w X : List Char) (popped : Char) (hp : popped ≠ '/')
    (hw : '/' ∉ w) (hdd : dd ≤ X.length) : lazybufBack dd popped (w ++ '/' :: X) = X := by
  induction w generalizing popped with
  | nil =>
    have h1 : ('/' :: X).length > dd := by simp; omega
    rw [List.nil_append, lazybufBack_cons, if_pos ⟨h1, hp⟩]
    cases X with
    | nil => rfl
    | cons c X' => rw [lazybufBack_cons, if_neg (by simp)]
  | cons c w' ih =>
    have h1 : (c :: (w' ++ '/' :: X)).length > dd := by simp; omega
    have hc : c ≠ '/' := fun e => hw (by simp [e])
    rw [List.cons_append, lazybufBack_cons, if_pos ⟨h1, hp⟩]
    exact ih c hc (fun e => hw (by simp [e]))

theorem lazybufBack_nosep (dd : Nat) (w X : List Char) (popped : Char) (hp : popped ≠ '/')
    (hw : '/' ∉ w) (hdd : X.length = dd) : lazybufBack dd popped (w ++ X) = X := by
  induction w generalizing popped with
  | nil =>
    cases X with
    | nil => rfl
    | cons c X' =>
      have h1 : ¬ (c :: X').length > dd := by omega
      rw [List.nil_append, lazybufBack_cons, if_neg (fun h => h1 h.1)]
  | cons c w' ih =>
    have h1 : (c :: (w' ++ X)).length > dd := by simp; omega
    have hc : c ≠ '/' := fun e => hw (by simp [e])
    rw [List.cons_append, lazybufBack_cons, if_pos ⟨h1, hp⟩]
    exact ih c hc (fun e => hw (by simp [e]))

theorem cleanStep_stackShape (rooted : Bool) {stk ords : List Str} {k : Nat}
    (h : StackShape rooted stk ords k) (seg : Str) (hseg : '/' ∉ seg) :
    ∃ ords' k', StackShape rooted (cleanStep rooted stk seg) ords' k' := by
  obtain ⟨rfl, ho, hk⟩ := h
  by_cases h1 : seg = [] ∨ seg = ['.']
  · exact ⟨ords, k, by simp [cleanStep, h1], ho, hk⟩
  · by_cases h2 : seg = dotdot
    · subst h2
      cases ords with
      | nil =>
        cases rooted
        · refine ⟨[], k + 1, ?_, by simp, by simp⟩
          cases k with
          | zero => simp [cleanStep, dotdot]
          | succ k => simp [cleanStep, dotdot, List.replicate_succ]
        · have hk0 := hk rfl
          subst hk0
          exact ⟨[], 0, by simp [cleanStep, dotdot], by simp, fun _ => rfl⟩
      | cons o os =>
        refine ⟨os, k, ?_, fun s hs => ho s (by simp [hs]), hk⟩
        have : o ≠ dotdot := (ho o (by simp)).2.2.2
        simp [cleanStep, dotdot] at this ⊢
        simp [this]
    · push_neg at h1
      have hord : Ordinary seg := ⟨h1.1, hseg, h1.2, h2⟩
      refine ⟨seg :: ords, k, ?_, ?_, hk⟩
      · rw [cleanStep_ordinary _ _ hord]; rfl
      · intro s hs
        rcases List.mem_cons.1 hs with rfl | hs
        · exact hord
        · exact ho s hs

theorem cleanStep_dotdot_cons (rooted : Bool) {o : Str} (ho : o ≠ dotdot) (os : List Str) :
    cleanStep rooted (o :: os) dotdot = os := by
  simp [cleanStep, dotdot] at ho ⊢
  simp [ho]

theorem cleanStep_dotdot_replicate (k : Nat) :
    cleanStep false (List.replicate k dotdot) dotdot = List.replicate (k + 1) dotdot := by
  cases k with
  | zero => simp [cleanStep, dotdot]
  | succ k => simp [cleanStep, dotdot, List.replicate_succ]

/-- The case `..` of the byte loop does to the buffer what `cleanStep` does to
the elements. -/
theorem cleanDotDot_spec (rooted : Bool) {stk ords : List Str} {k : Nat}
    (h : StackShape rooted stk ords k) :
    ∃ ords' k', StackShape rooted (cleanStep rooted stk dotdot) ords' k' ∧
      cleanDotDot rooted (renderStk rooted stk) (ddOf rooted k)
        = (renderStk rooted (cleanStep rooted stk dotdot), ddOf rooted k') := by
  have hle := ddOf_le_length h
  obtain ⟨rfl, ho, hk⟩ := h
  cases ords with
  | nil =>
    have hlen := renderStk_length_replicate rooted k hk
    simp only [List.nil_append] at hle ⊢
    have hnot : ¬ (renderStk rooted (List.replicate k dotdot)).length > ddOf rooted k := by omega
    cases rooted
    · refine ⟨[], k + 1, ⟨by rw [cleanStep_dotdot_replicate]; rfl, by simp, by simp⟩, ?_⟩
      unfold cleanDotDot
      rw [if_neg hnot, if_pos rfl, cleanStep_dotdot_replicate]
      have hpush := renderStk_push false (List.replicate k dotdot)
        (fun s hs => by rw [List.eq_of_mem_replicate hs]; decide) dotdot
      rw [← List.replicate_succ] at hpush
      have hlen' := renderStk_length_replicate false (k + 1) (by simp)
      by_cases h0 : (renderStk false (List.replicate k dotdot)).length = 0
      · have hc : ¬ (renderStk false (List.replicate k dotdot)).length > 0 := by omega
        simp only [h0, ne_eq, not_true_eq_false, and_false, or_false, Bool.false_eq_true,
          false_and, if_false] at hpush
        simp only [hc, if_false]
        rw [← hlen', hpush]
        simp [dotdot, h0]
      · have hc : (renderStk false (List.replicate k dotdot)).length > 0 := by omega
        simp only [h0, ne_eq, not_false_eq_true, and_true, Bool.false_eq_true, false_and,
          false_or, if_true] at hpush
        simp only [hc, if_true]
        rw [← hlen', hpush]
        simp [dotdot]
    · have hk0 := hk rfl
      subst hk0
      refine ⟨[], 0, ⟨by simp [cleanStep, dotdot], by simp, fun _ => rfl⟩, ?_⟩
      unfold cleanDotDot
      rw [if_neg hnot, if_neg (by simp)]
      simp [cleanStep, dotdot]
  | cons o os =>
    have hoo := ho o (by simp)
    have hshape : StackShape rooted (os ++ List.replicate k dotdot) os k :=
      ⟨rfl, fun s hs => ho s (by simp [hs]), hk⟩
    have hle' := ddOf_le_length hshape
    refine ⟨os, k, ⟨by rw [List.cons_append, cleanStep_dotdot_cons rooted hoo.2.2.2], hshape.2⟩, ?_⟩
    rw [List.cons_append, cleanStep_dotdot_cons rooted hoo.2.2.2,
      renderStk_push rooted _ hshape.elems_ne_nil o]
    obtain ⟨o', last, rfl⟩ : ∃ o' last, o = o' ++ [last] :=
      ⟨o.dropLast, o.getLast hoo.ne_nil, (List.dropLast_append_getLast hoo.ne_nil).symm⟩
    have hlast : last ≠ '/' := fun e => hoo.noSlash (by simp [e])
    have hw : '/' ∉ o'.reverse := fun e => hoo.noSlash (by simp [List.mem_reverse.1 e])
    rw [List.reverse_append, List.reverse_singleton, List.singleton_append, List.cons_append]
    unfold cleanDotDot
    by_cases hc : (rooted = true ∧ (renderStk rooted (os ++ List.replicate k dotdot)).length ≠ 1) ∨
        (rooted = false ∧ (renderStk rooted (os ++ List.replicate k dotdot)).length ≠ 0)
    · rw [if_pos hc, if_pos (by simp; omega)]
      dsimp only
      rw [lazybufBack_sep _ _ _ _ hlast hw hle']
    · rw [if_neg hc, if_pos (by simp; omega)]
      dsimp only
      have hX : (renderStk rooted (os ++ List.replicate k dotdot)).length = ddOf rooted k := by
        cases rooted
        · simp only [Bool.false_eq_true, false_and, true_and, false_or, ne_eq,
            not_not] at hc
          omega
        · simp only [true_and, Bool.true_eq_false, false_and, or_false, ne_eq, not_not] at hc
          simp [ddOf, hc]
      rw [lazybufBack_nosep _ _ _ _ hlast hw hX]

theorem takeWhile_dot_iff (rest : Str) :
    rest.takeWhile (fun x => decide (x ≠ '/')) = ['.'] ↔
      (rest.head? = some '.' ∧ (rest.tail = [] ∨ rest.tail.head? = some '/')) := by
  cases rest with
  | nil => simp
  | cons x r =>
    by_cases hx : x = '/'
    · subst hx
      simp
    · have := takeWhile_nil_iff r
      simp only [List.takeWhile_cons, hx, ne_eq, not_false_eq_true, decide_True, if_true,
        List.cons.injEq, List.head?_cons, Option.some.injEq, List.tail_cons]
      rw [this]

theorem cleanLoop_cons (rooted : Bool) (fuel : Nat) (c : Char) (rest out : List Char)
    (dotdot : Nat) :
    cleanLoop rooted (fuel + 1) (c :: rest) out dotdot =
      if c = '/' then cleanLoop rooted fuel rest out dotdot
      else if c = '.' ∧ (rest = [] ∨ rest.head? = some '/') then
        cleanLoop rooted fuel rest out dotdot
      else if c = '.' ∧ rest.head? = some '.' ∧ (rest.tail = [] ∨ rest.tail.head? = some '/') then
        cleanLoop rooted fuel rest.tail (cleanDotDot rooted out dotdot).1
          (cleanDotDot rooted out dotdot).2
      else
        cleanLoop rooted fuel (rest.dropWhile (fun x => decide (x ≠ '/')))
          ((rest.takeWhile (fun x => decide (x ≠ '/'))).reverse ++ c ::
            (if (rooted = true ∧ out.length ≠ 1) ∨ (rooted = false ∧ out.length ≠ 0)
             then '/' :: out else out)) dotdot := rfl

/-- The byte loop of `path.Clean` leaves the buffer that holds the elements
which `cleanStep` leaves. -/
theorem cleanLoop_spec (rooted : Bool) :
    ∀ (fuel : Nat) (rest : Str) (stk ords : List Str) (k : Nat),
      StackShape rooted stk ords k → rest.length < fuel →
      cleanLoop rooted fuel rest (renderStk rooted stk) (ddOf rooted k)
        = renderStk rooted ((splitSlash rest).foldl (cleanStep rooted) stk) := by
  intro fuel
  induction fuel with
  | zero => intro rest stk ords k _ h; exact absurd h (by omega)
  | succ fuel ih =>
    intro rest stk ords k hshape hlen
    cases rest with
    | nil => simp [cleanLoop, splitSlash, cleanStep_nil]
    | cons c rest1 =>
      rw [cleanLoop_cons]
      simp only [List.length_cons] at hlen
      by_cases hc : c = '/'
      · subst hc
        rw [if_pos rfl, splitSlash_cons_slash, List.foldl_cons, cleanStep_nil]
        exact ih rest1 stk ords k hshape (by omega)
      · rw [if_neg hc]
        obtain ⟨ss, hs1, hs2⟩ := splitSlash_takeWhile rest1
        have hsplit : splitSlash (c :: rest1)
            = (c :: rest1.takeWhile (fun x => decide (x ≠ '/'))) :: ss := by
          simp [splitSlash, hc, hs1]
        have hseg : '/' ∉ c :: rest1.takeWhile (fun x => decide (x ≠ '/')) := by
          exact mem_splitSlash_noSlash (c :: rest1) _ (by rw [hsplit]; exact List.mem_cons_self _ _)
        have hdl : (rest1.dropWhile (fun x => decide (x ≠ '/'))).length ≤ rest1.length :=
          (List.dropWhile_sublist _).length_le
        rw [hsplit, List.foldl_cons]
        -- what is left after the element, processed from the stack after it
        have hnext : ∀ stk' ords' k', StackShape rooted stk' ords' k' →
            cleanLoop rooted fuel (rest1.dropWhile (fun x => decide (x ≠ '/')))
              (renderStk rooted stk') (ddOf rooted k')
              = renderStk rooted (ss.foldl (cleanStep rooted) stk') := by
          intro stk' ords' k' hs'
          rw [ih _ stk' ords' k' hs' (by omega), hs2, List.foldl_cons, cleanStep_nil]
        by_cases h1 : c = '.' ∧ (rest1 = [] ∨ rest1.head? = some '/')
        · rw [if_pos h1]
          have htw := (takeWhile_nil_iff rest1).2 h1.2
          rw [htw, h1.1, cleanStep_dot]
          have := hnext stk ords k hshape
          rw [dropWhile_of_takeWhile_nil htw] at this
          exact this
        · rw [if_neg h1]
          by_cases h2 : c = '.' ∧ rest1.head? = some '.' ∧
              (rest1.tail = [] ∨ rest1.tail.head? = some '/')
          · rw [if_pos h2]
            have htw := (takeWhile_dot_iff rest1).2 h2.2
            obtain ⟨x, r2, hr⟩ : ∃ x r2, rest1 = x :: r2 := by
              cases rest1 with
              | nil => simp at htw
              | cons x r2 => exact ⟨x, r2, rfl⟩
            subst hr
            have hx : x = '.' := by simpa using h2.2.1
            subst hx
            have htw2 : r2.takeWhile (fun x => decide (x ≠ '/')) = [] :=
              (takeWhile_nil_iff r2).2 (by simpa using h2.2.2)
            have hdrop : ('.' :: r2).dropWhile (fun x => decide (x ≠ '/')) = r2 := by
              rw [List.dropWhile_cons_of_pos (by decide), dropWhile_of_takeWhile_nil htw2]
            obtain ⟨ords', k', hs', hdd⟩ := cleanDotDot_spec rooted hshape
            rw [htw, h2.1, List.tail_cons, hdd]
            have := hnext _ ords' k' hs'
            rw [hdrop] at this
            exact this
          · rw [if_neg h2]
            have hne1 : c :: rest1.takeWhile (fun x => decide (x ≠ '/')) ≠ ['.'] := by
              intro e
              injection e with e1 e2
              exact h1 ⟨e1, (takeWhile_nil_iff rest1).1 e2⟩
            have hne2 : c :: rest1.takeWhile (fun x => decide (x ≠ '/')) ≠ dotdot := by
              intro e
              unfold dotdot at e
              injection e with e1 e2
              exact h2 ⟨e1, (takeWhile_dot_iff rest1).1 e2⟩
            have hord : Ordinary (c :: rest1.takeWhile (fun x => decide (x ≠ '/'))) :=
              ⟨by simp, hseg, hne1, hne2⟩
            have hs' : StackShape rooted
                ((c :: rest1.takeWhile (fun x => decide (x ≠ '/'))) :: stk)
                ((c :: rest1.takeWhile (fun x => decide (x ≠ '/'))) :: ords) k := by
              obtain ⟨rfl, ho, hk⟩ := hshape
              refine ⟨rfl, ?_, hk⟩
              intro s hs
              rcases List.mem_cons.1 hs with rfl | hs
              · exact hord
              · exact ho s hs
            have := hnext _ _ k hs'
            rw [renderStk_push rooted stk hshape.elems_ne_nil, List.reverse_cons,
              List.append_assoc, List.singleton_append] at this
            rw [cleanStep_ordinary _ _ hord]
            exact this

/-- Go `path.Clean` as its source runs, byte by byte, returns what `path_Clean`
returns element by element. -/
theorem path_Clean_lazybuf_eq (p : Str) : path_Clean_lazybuf p = path_Clean p := by
  unfold path_Clean_lazybuf path_Clean
  by_cases hp : p = []
  · simp [hp]
  · rw [if_neg hp, if_neg hp]
    cases p with
    | nil => exact absurd rfl hp
    | cons c rest =>
      by_cases hc : c = '/'
      · subst hc
        have h0 : StackShape true [] [] 0 := ⟨rfl, by simp, fun _ => rfl⟩
        have hspec := cleanLoop_spec true (('/' :: rest).length + 1) rest [] [] 0 h0
          (by simp only [List.length_cons]; omega)
        have hr : renderStk true [] = ['/'] := rfl
        have hd : ddOf true 0 = 1 := rfl
        rw [hr, hd] at hspec
        simp only [List.head?_cons, decide_True, if_true, List.tail_cons, hspec,
          splitSlash_cons_slash, cleanSegs_nil_cons]
        simp [renderStk, cleanSegs]
      · have h0 : StackShape false [] [] 0 := ⟨rfl, by simp, by simp⟩
        have hspec := cleanLoop_spec false ((c :: rest).length + 1) (c :: rest) [] [] 0 h0
          (by simp only [List.length_cons]; omega)
        have hr : renderStk false [] = [] := rfl
        have hd : ddOf false 0 = 0 := rfl
        rw [hr, hd] at hspec
        have hcc : decide ((c :: rest).head? = some '/') = false := by simpa using hc
        simp only [hcc, Bool.false_eq_true, if_false, hspec]
        obtain ⟨k, ords, hsh, ho⟩ := cleanSegs_shape (splitSlash (c :: rest))
          (mem_splitSlash_noSlash _)
        have hrs : renderStk false ((splitSlash (c :: rest)).foldl (cleanStep false) [])
            = (joinSlash (cleanSegs false (splitSlash (c :: rest)))).reverse := by
          simp [renderStk, cleanSegs]
        rw [hrs]
        by_cases hcs : cleanSegs false (splitSlash (c :: rest)) = []
        · simp [hcs, joinSlash]
        · have hne : joinSlash (cleanSegs false (splitSlash (c :: rest))) ≠ [] := by
            apply joinSlash_ne_nil hcs
            intro s hs
            rw [hsh] at hs
            rcases List.mem_append.1 hs with hs | hs
            · rw [List.eq_of_mem_replicate hs]; decide
            · exact (ho s hs).ne_nil
          simp [hcs, hne]

end Daimon
